import Mathlib

/-!
# Marching squares contour extraction (MiniAssignment3.0/sketch.js)

A shallow embedding of `marchingSquaresSegments(field, threshold)` and of its
inner helper `interp`, followed by theorems about them.

Numbers.  A JavaScript number is modelled by `JsNumber`: a finite value (a
rational), `+Infinity`, `-Infinity` or `NaN`.  The code is embedded twice.

* With the operators `add`, `sub`, `mul`, `div`, which compute on finite
  values exactly, without rounding and without overflow: `interp`,
  `cellSegments`, `marchingSquaresSegments`, `layerThreshold`.  Theorems about
  these describe the code over exact real arithmetic.
* With the operators `addD`, `subD`, `mulD`, `divD`, which give the double
  nearest to the exact result (`roundDouble`: 53-bit significand, ties to
  even, overflow to an infinity): `interpD`, `cellSegmentsD`,
  `marchingSquaresSegmentsD`, `layerThresholdD`.  These are what the source
  computes on IEEE 754 doubles, and they are evaluated at the inputs where
  rounding or overflow makes the code differ from exact arithmetic.

Comparisons, `Math.abs` and `isNaN` involve no rounding and are shared.  The
sign of zero is not modelled.  An array read past the end of a row gives
`undefined`; the function only ever uses such a value in `>=` and in `-`, where
`undefined` behaves exactly as `NaN`, so it is represented by `nan`.

Errors.  Reading a property of `undefined` throws a `TypeError`; the functions
that can throw return `Option`, with `none` for the thrown error.

Also embedded: `buildMask` and the layer loop of `drawContourLayers` from the
same sketch, and `isBeatFrame` from Project 1.0/sketch_minimal.js (namespace
`BeatSketch`), which reads the global `STATE`, passed explicitly.
-/

namespace MarchingSquares

/-! ## Numbers -/

/-- JavaScript number: finite (a rational; a double is one with a 53-bit
significand), the two infinities, or NaN. -/
inductive JsNumber where
  | fin (q : ℚ)
  | pinf
  | ninf
  | nan
  deriving DecidableEq

namespace JsNumber

/-- The `+` operator over exact arithmetic: the sum of finite operands is not
rounded and does not overflow (`addD` is the operator on doubles). -/
def add : JsNumber → JsNumber → JsNumber
  | fin a, fin b => fin (a + b)
  | fin _, pinf => pinf
  | fin _, ninf => ninf
  | pinf, fin _ => pinf
  | pinf, pinf => pinf
  | ninf, fin _ => ninf
  | ninf, ninf => ninf
  | _, _ => nan

/-- The `-` operator over exact arithmetic: the difference of finite operands
is not rounded and does not overflow (`subD` is the operator on doubles). -/
def sub : JsNumber → JsNumber → JsNumber
  | fin a, fin b => fin (a - b)
  | fin _, pinf => ninf
  | fin _, ninf => pinf
  | pinf, fin _ => pinf
  | pinf, ninf => pinf
  | ninf, fin _ => ninf
  | ninf, pinf => ninf
  | _, _ => nan

/-- The `*` operator over exact arithmetic: the product of finite operands is
not rounded and does not overflow (`mulD` is the operator on doubles). -/
def mul : JsNumber → JsNumber → JsNumber
  | fin a, fin b => fin (a * b)
  | fin a, pinf => if a = 0 then nan else if 0 < a then pinf else ninf
  | fin a, ninf => if a = 0 then nan else if 0 < a then ninf else pinf
  | pinf, fin b => if b = 0 then nan else if 0 < b then pinf else ninf
  | ninf, fin b => if b = 0 then nan else if 0 < b then ninf else pinf
  | pinf, pinf => pinf
  | pinf, ninf => ninf
  | ninf, pinf => ninf
  | ninf, ninf => pinf
  | _, _ => nan

/-- The `/` operator over exact arithmetic: the quotient of finite operands is
not rounded (`divD` is the operator on doubles); a zero divisor is taken as
`+0`. -/
def div : JsNumber → JsNumber → JsNumber
  | fin a, fin b =>
    if b = 0 then (if a = 0 then nan else if 0 < a then pinf else ninf) else fin (a / b)
  | fin _, pinf => fin 0
  | fin _, ninf => fin 0
  | pinf, fin b => if 0 ≤ b then pinf else ninf
  | ninf, fin b => if 0 ≤ b then ninf else pinf
  | _, _ => nan

/-- The function `Math.abs`. -/
def abs : JsNumber → JsNumber
  | fin q => fin |q|
  | pinf => pinf
  | ninf => pinf
  | nan => nan

/-- The `<` operator on numbers: false as soon as one side is NaN. -/
def lt : JsNumber → JsNumber → Bool
  | fin a, fin b => decide (a < b)
  | fin _, pinf => true
  | ninf, fin _ => true
  | ninf, pinf => true
  | _, _ => false

/-- The `>=` operator on numbers: false as soon as one side is NaN. -/
def ge : JsNumber → JsNumber → Bool
  | fin a, fin b => decide (b ≤ a)
  | fin _, ninf => true
  | pinf, fin _ => true
  | pinf, pinf => true
  | pinf, ninf => true
  | ninf, ninf => true
  | _, _ => false

/-- The global function `isNaN` on a number. -/
def isNaN : JsNumber → Bool
  | nan => true
  | _ => false

/-- Whether the number is finite (neither an infinity nor NaN). -/
def isFinite : JsNumber → Bool
  | fin _ => true
  | _ => false

/-- The number a loop counter holds. -/
def ofNat (n : Nat) : JsNumber := fin (n : ℚ)

end JsNumber

open JsNumber

/-! ## Data -/

/-- A point `[x, y]` in grid space: `x` is the column, `y` the row. -/
abbrev Point := JsNumber × JsNumber

/-- An entry `[a, b]` of `segs`: either end may still be `undefined`. -/
abbrev RawSeg := Option Point × Option Point

/-- An entry `[a, b]` of the returned array `clean`. -/
abbrev Seg := Point × Point

/-- The scalar field `field[gy][gx]`. -/
abbrev Field := List (List JsNumber)

/-- The four corner values of one cell: `vTL`, `vTR`, `vBR`, `vBL`. -/
structure Cell where
  vTL : JsNumber
  vTR : JsNumber
  vBR : JsNumber
  vBL : JsNumber
  deriving DecidableEq

/-- The corners of a cell: top-left `(x, y)`, top-right `(x+1, y)`,
bottom-right `(x+1, y+1)`, bottom-left `(x, y+1)`. -/
inductive Corner where
  | TL
  | TR
  | BR
  | BL
  deriving DecidableEq

/-- The edges of a cell, named as the variables `top`, `right`, `bottom`, `left`. -/
inductive Edge where
  | top
  | right
  | bottom
  | left
  deriving DecidableEq

/-- The corner value held by `vTL`, `vTR`, `vBR` or `vBL`. -/
def Cell.val (c : Cell) : Corner → JsNumber
  | Corner.TL => c.vTL
  | Corner.TR => c.vTR
  | Corner.BR => c.vBR
  | Corner.BL => c.vBL

/-- All four corner values of the cell are finite. -/
def Cell.finite (c : Cell) : Prop :=
  c.vTL.isFinite = true ∧ c.vTR.isFinite = true ∧ c.vBR.isFinite = true ∧ c.vBL.isFinite = true

/-- The literal `1e-6` of `interp`. -/
def eps : JsNumber := fin (1 / 1000000)

/-! ## interp -/

/-- The local `t` of `interp`:
`(Math.abs(denom) < 1e-6) ? 0.5 : (threshold - av) / denom` with
`denom = bv - av`. -/
def interpT (threshold av bv : JsNumber) : JsNumber :=
  let denom := bv.sub av
  if (denom.abs).lt eps then fin (1 / 2) else (threshold.sub av).div denom

/-- The helper `interp(ax, ay, av, bx, by, bv)`, closed over `threshold`. -/
def interp (threshold ax ay av bx by_ bv : JsNumber) : Point :=
  let t := interpT threshold av bv
  let x := ax.add (t.mul (bx.sub ax))
  let y := ay.add (t.mul (by_.sub ay))
  (x, y)

/-! ## One cell -/

/-- The classification `v >= threshold ? 1 : 0`. -/
def inside (v threshold : JsNumber) : Nat := if v.ge threshold then 1 else 0

/-- The case index `(bTL<<3) | (bTR<<2) | (bBR<<1) | (bBL<<0)`. -/
def caseIndex (threshold : JsNumber) (c : Cell) : Nat :=
  (inside c.vTL threshold <<< 3) ||| (inside c.vTR threshold <<< 2)
    ||| (inside c.vBR threshold <<< 1) ||| (inside c.vBL threshold <<< 0)

/-- The variable `top`: `if (bTL !== bTR) top = interp(x, y, vTL, x+1, y, vTR)`. -/
def crossTop (threshold : JsNumber) (c : Cell) (x y : Nat) : Option Point :=
  if inside c.vTL threshold ≠ inside c.vTR threshold then
    some (interp threshold (ofNat x) (ofNat y) c.vTL (ofNat (x + 1)) (ofNat y) c.vTR)
  else none

/-- The variable `right`: `if (bTR !== bBR) right = interp(x+1, y, vTR, x+1, y+1, vBR)`. -/
def crossRight (threshold : JsNumber) (c : Cell) (x y : Nat) : Option Point :=
  if inside c.vTR threshold ≠ inside c.vBR threshold then
    some (interp threshold (ofNat (x + 1)) (ofNat y) c.vTR (ofNat (x + 1)) (ofNat (y + 1)) c.vBR)
  else none

/-- The variable `bottom`: `if (bBL !== bBR) bottom = interp(x, y+1, vBL, x+1, y+1, vBR)`. -/
def crossBottom (threshold : JsNumber) (c : Cell) (x y : Nat) : Option Point :=
  if inside c.vBL threshold ≠ inside c.vBR threshold then
    some (interp threshold (ofNat x) (ofNat (y + 1)) c.vBL (ofNat (x + 1)) (ofNat (y + 1)) c.vBR)
  else none

/-- The variable `left`: `if (bTL !== bBL) left = interp(x, y, vTL, x, y+1, vBL)`. -/
def crossLeft (threshold : JsNumber) (c : Cell) (x y : Nat) : Option Point :=
  if inside c.vTL threshold ≠ inside c.vBL threshold then
    some (interp threshold (ofNat x) (ofNat y) c.vTL (ofNat x) (ofNat (y + 1)) c.vBL)
  else none

/-- The grid point of a corner of the cell at column `x`, row `y`. -/
def Corner.pos (x y : Nat) : Corner → Point
  | Corner.TL => (JsNumber.ofNat x, JsNumber.ofNat y)
  | Corner.TR => (JsNumber.ofNat (x + 1), JsNumber.ofNat y)
  | Corner.BR => (JsNumber.ofNat (x + 1), JsNumber.ofNat (y + 1))
  | Corner.BL => (JsNumber.ofNat x, JsNumber.ofNat (y + 1))

/-- The two corners an edge runs between, in the order the calls of `interp`
pass them: top `(x,y) -> (x+1,y)`, right `(x+1,y) -> (x+1,y+1)`,
bottom `(x,y+1) -> (x+1,y+1)`, left `(x,y) -> (x,y+1)`. -/
def Edge.ends : Edge → Corner × Corner
  | Edge.top => (Corner.TL, Corner.TR)
  | Edge.right => (Corner.TR, Corner.BR)
  | Edge.bottom => (Corner.BL, Corner.BR)
  | Edge.left => (Corner.TL, Corner.BL)

/-- The edge has the corner as one of its two ends. -/
def Edge.touches (e : Edge) (k : Corner) : Prop := e.ends.1 = k ∨ e.ends.2 = k

/-- The point `interp` gives along an edge of the cell at column `x`, row `y`:
the crossing point of that edge. -/
def edgePoint (threshold : JsNumber) (c : Cell) (x y : Nat) (e : Edge) : Point :=
  interp threshold (Corner.pos x y e.ends.1).1 (Corner.pos x y e.ends.1).2 (c.val e.ends.1)
    (Corner.pos x y e.ends.2).1 (Corner.pos x y e.ends.2).2 (c.val e.ends.2)

/-- The crossing variable of an edge once the four `if` statements have run. -/
def cross (threshold : JsNumber) (c : Cell) (x y : Nat) : Edge → Option Point
  | Edge.top => crossTop threshold c x y
  | Edge.right => crossRight threshold c x y
  | Edge.bottom => crossBottom threshold c x y
  | Edge.left => crossLeft threshold c x y

/-- The `switch (idx)` statement: the entries it pushes onto `segs`, in order. -/
def switchSegs (idx : Nat) (top right bottom left : Option Point) : List RawSeg :=
  match idx with
  | 1 => [(left, bottom)]
  | 2 => [(bottom, right)]
  | 3 => [(left, right)]
  | 4 => [(top, right)]
  | 5 => [(top, left), (right, bottom)]
  | 6 => [(top, bottom)]
  | 7 => [(top, left)]
  | 8 => [(left, top)]
  | 9 => [(bottom, top)]
  | 10 => [(left, bottom), (top, right)]
  | 11 => [(right, top)]
  | 12 => [(right, left)]
  | 13 => [(right, bottom)]
  | 14 => [(bottom, left)]
  | _ => []

/-- The body of the inner loop after the corner reads: what the cell at column
`x`, row `y` pushes onto `segs`. -/
def cellSegments (threshold : JsNumber) (c : Cell) (x y : Nat) : List RawSeg :=
  let idx := caseIndex threshold c
  if idx = 0 ∨ idx = 15 then []
  else
    switchSegs idx (crossTop threshold c x y) (crossRight threshold c x y)
      (crossBottom threshold c x y) (crossLeft threshold c x y)

/-! ## The loops and the filter -/

/-- The four corner reads `field[y][x]`, `field[y][x+1]`, `field[y+1][x+1]`,
`field[y+1][x]`.  A missing row makes the read throw (`none`); a missing entry
of an existing row reads as `undefined` (`nan`). -/
def readCell (field : Field) (x y : Nat) : Option Cell :=
  match field[y]?, field[y + 1]? with
  | some rowT, some rowB =>
    some ⟨rowT.getD x nan, rowT.getD (x + 1) nan, rowB.getD (x + 1) nan, rowB.getD x nan⟩
  | _, _ => none

/-- The inner loop `for (let x = ...; x < w - 1; x++)` with `n` iterations
left to run from column `x`. -/
def colLoop (field : Field) (threshold : JsNumber) (y : Nat) : Nat → Nat → Option (List RawSeg)
  | 0, _ => some []
  | n + 1, x =>
    match readCell field x y with
    | none => none
    | some c =>
      match colLoop field threshold y n (x + 1) with
      | none => none
      | some rest => some (cellSegments threshold c x y ++ rest)

/-- The outer loop `for (let y = ...; y < h - 1; y++)` with `m` iterations left
to run from row `y`; `w1` is the trip count `w - 1` of the inner loop. -/
def rowLoop (field : Field) (threshold : JsNumber) (w1 : Nat) : Nat → Nat → Option (List RawSeg)
  | 0, _ => some []
  | m + 1, y =>
    match colLoop field threshold y w1 0 with
    | none => none
    | some row =>
      match rowLoop field threshold w1 m (y + 1) with
      | none => none
      | some rest => some (row ++ rest)

/-- One step of the final filter: the entry is dropped when an end is
`undefined` or a coordinate is NaN, else it is pushed onto `clean`. -/
def cleanSeg : RawSeg → Option Seg
  | (some a, some b) =>
    if isNaN a.1 || isNaN a.2 || isNaN b.1 || isNaN b.2 then none else some (a, b)
  | _ => none

/-- The final filter loop over `segs`. -/
def clean (segs : List RawSeg) : List Seg := segs.filterMap cleanSeg

/-- The array `segs` when both loops have run. -/
def rawSegments (field : Field) (threshold : JsNumber) : Option (List RawSeg) :=
  match field[0]? with
  | none => none
  | some row0 => rowLoop field threshold (row0.length - 1) (field.length - 1) 0

/-- The function `marchingSquaresSegments(field, threshold)`; `none` is a
thrown `TypeError` (`field[0].length` on a field with no row). -/
def marchingSquaresSegments (field : Field) (threshold : JsNumber) : Option (List Seg) :=
  (rawSegments field threshold).map clean

/-- What the cell at column `x`, row `y` pushes onto `segs` (nothing when
the corner reads throw). -/
def cellContribution (field : Field) (threshold : JsNumber) (x y : Nat) : List RawSeg :=
  match readCell field x y with
  | some c => cellSegments threshold c x y
  | none => []

/-- The corner `k` is classified differently from each of the other three. -/
def isLoneCorner (threshold : JsNumber) (c : Cell) (k : Corner) : Prop :=
  ∀ k2 : Corner, k2 ≠ k → inside (c.val k2) threshold ≠ inside (c.val k) threshold

/-- The case table as the specification words it, for the cases with one
segment: the edge of the first endpoint and the edge of the second. -/
def specTable : Nat → Option (Edge × Edge)
  | 1 => some (Edge.left, Edge.bottom)
  | 2 => some (Edge.bottom, Edge.right)
  | 3 => some (Edge.left, Edge.right)
  | 4 => some (Edge.top, Edge.right)
  | 6 => some (Edge.top, Edge.bottom)
  | 7 => some (Edge.top, Edge.left)
  | 8 => some (Edge.left, Edge.top)
  | 9 => some (Edge.bottom, Edge.top)
  | 11 => some (Edge.right, Edge.top)
  | 12 => some (Edge.right, Edge.left)
  | 13 => some (Edge.right, Edge.bottom)
  | 14 => some (Edge.bottom, Edge.left)
  | _ => none

/-- The local `t` of `interp` over the rationals, for finite edge values and a
finite threshold (see `interpT_fin`). -/
def fracQ (t a b : ℚ) : ℚ := if |b - a| < 1 / 1000000 then 1 / 2 else (t - a) / (b - a)

/-! ## Further functions of the sketch and vocabulary for their properties -/

/-- The test `Math.abs(denom) < 1e-6` of `interp`, with `denom = bv - av`. -/
def nearFlat (av bv : JsNumber) : Bool := ((bv.sub av).abs).lt eps

/-- The divisor of the division `(threshold - av) / denom` that `interp`
performs, `none` when it takes the `0.5` branch and performs none. -/
def interpDivisor (av bv : JsNumber) : Option JsNumber :=
  let denom := bv.sub av
  if (denom.abs).lt eps then none else some denom

/-- The entry `grid[y][x]` when both indices are within bounds. -/
def entry {α : Type} (grid : List (List α)) (y x : Nat) : Option α :=
  match grid[y]? with
  | some row => row[x]?
  | none => none

/-- The switch arms as pairs of edges: for each case index, the edges whose
crossing variables each pushed entry holds, in order. -/
def armEdges : Nat → List (Edge × Edge)
  | 1 => [(Edge.left, Edge.bottom)]
  | 2 => [(Edge.bottom, Edge.right)]
  | 3 => [(Edge.left, Edge.right)]
  | 4 => [(Edge.top, Edge.right)]
  | 5 => [(Edge.top, Edge.left), (Edge.right, Edge.bottom)]
  | 6 => [(Edge.top, Edge.bottom)]
  | 7 => [(Edge.top, Edge.left)]
  | 8 => [(Edge.left, Edge.top)]
  | 9 => [(Edge.bottom, Edge.top)]
  | 10 => [(Edge.left, Edge.bottom), (Edge.top, Edge.right)]
  | 11 => [(Edge.right, Edge.top)]
  | 12 => [(Edge.right, Edge.left)]
  | 13 => [(Edge.right, Edge.bottom)]
  | 14 => [(Edge.bottom, Edge.left)]
  | _ => []

/-- The column and row offset of a corner from the cell's top-left grid point. -/
def Corner.offset : Corner → Nat × Nat
  | Corner.TL => (0, 0)
  | Corner.TR => (1, 0)
  | Corner.BR => (1, 1)
  | Corner.BL => (0, 1)

/-- The four corner values of the cell are all equal. -/
def Cell.flat (c : Cell) : Prop := c.vTL = c.vTR ∧ c.vTR = c.vBR ∧ c.vBR = c.vBL

/-- The cell with a function applied to each corner value. -/
def Cell.map (f : JsNumber → JsNumber) (c : Cell) : Cell :=
  ⟨f c.vTL, f c.vTR, f c.vBR, f c.vBL⟩

/-- The field with every value multiplied by `k`. -/
def scaleField (k : ℚ) (field : Field) : Field :=
  field.map (fun row => row.map (fun v => (fin k).mul v))

/-- The field with `c` added to every value. -/
def shiftField (c : ℚ) (field : Field) : Field :=
  field.map (fun row => row.map (fun v => v.add (fin c)))

/-- The function `buildMask(cellB, thresh)`: `m[y][x] = (cellB[y][x] >= thresh)`
for `y < h`, `x < w` with `h = cellB.length`, `w = cellB[0].length`; `none` is
the `TypeError` of `cellB[0].length` on a grid with no row. -/
def buildMask (cellB : Field) (thresh : JsNumber) : Option (List (List Bool)) :=
  match cellB[0]? with
  | none => none
  | some row0 =>
    some ((List.range cellB.length).map (fun y =>
      (List.range row0.length).map (fun x => ((cellB.getD y []).getD x nan).ge thresh)))

/-- The threshold of layer `k` in `drawContourLayers`: `threshold - k * step`. -/
def layerThreshold (threshold step : JsNumber) (k : Nat) : JsNumber :=
  threshold.sub ((ofNat k).mul step)

/-- The loop of `drawContourLayers` with `n` layers left to run from layer `k`:
the segments extracted for each layer (the drawing calls are left out). -/
def layerLoop (field : Field) (threshold step : JsNumber) : Nat → Nat → Option (List (List Seg))
  | 0, _ => some []
  | n + 1, k =>
    match marchingSquaresSegments field (layerThreshold threshold step k) with
    | none => none
    | some segs =>
      match layerLoop field threshold step n (k + 1) with
      | none => none
      | some rest => some (segs :: rest)

/-- The contour extraction of `drawContourLayers(field, cellSize, threshold,
layers, step, mix)`: one call of `marchingSquaresSegments` per layer. -/
def drawContourLayers (field : Field) (threshold : JsNumber) (layers : Nat) (step : JsNumber) :
    Option (List (List Seg)) :=
  layerLoop field threshold step layers 0

/-- The grid point of a corner of the cell at column `x`, row `y`, as rationals. -/
def Corner.posQ (x y : Nat) : Corner → ℚ × ℚ
  | Corner.TL => ((x : ℚ), (y : ℚ))
  | Corner.TR => ((x : ℚ) + 1, (y : ℚ))
  | Corner.BR => ((x : ℚ) + 1, (y : ℚ) + 1)
  | Corner.BL => ((x : ℚ), (y : ℚ) + 1)

/-- The point at fraction `f` of the way along an edge of the cell at column
`x`, row `y`, from the edge's first end to its second. -/
def pointAt (x y : Nat) (e : Edge) (f : ℚ) : Point :=
  (fin ((Corner.posQ x y e.ends.1).1
      + f * ((Corner.posQ x y e.ends.2).1 - (Corner.posQ x y e.ends.1).1)),
   fin ((Corner.posQ x y e.ends.1).2
      + f * ((Corner.posQ x y e.ends.2).2 - (Corner.posQ x y e.ends.1).2)))

/-- The edges a switch arm uses as endpoints, in the order it uses them. -/
def usedEdges (idx : Nat) : List Edge := (armEdges idx).flatMap (fun p => [p.1, p.2])

/-- The point has finite coordinates, lies in the closed cell at column `x`,
row `y`, and on the boundary of that cell. -/
def onCellBoundary (x y : Nat) (p : Point) : Prop :=
  ∃ px py : ℚ, p = (fin px, fin py) ∧ (x : ℚ) ≤ px ∧ px ≤ (x : ℚ) + 1
    ∧ (y : ℚ) ≤ py ∧ py ≤ (y : ℚ) + 1
    ∧ (px = (x : ℚ) ∨ px = (x : ℚ) + 1 ∨ py = (y : ℚ) ∨ py = (y : ℚ) + 1)

/-- The point has finite coordinates inside the grid `[0, w-1] x [0, h-1]`. -/
def inGrid (w h : Nat) (p : Point) : Prop :=
  ∃ px py : ℚ, p = (fin px, fin py) ∧ 0 ≤ px ∧ px ≤ (w : ℚ) - 1 ∧ 0 ≤ py ∧ py ≤ (h : ℚ) - 1

/-- The point lies on the edge `e` of the cell at column `x`, row `y`,
strictly between the two ends of the edge. -/
def strictlyInsideEdge (x y : Nat) (e : Edge) (p : Point) : Prop :=
  ∃ f : ℚ, 0 < f ∧ f < 1 ∧ p = pointAt x y e f

/-! ## The same code on doubles

The functions above compute on finite values without rounding.  The
definitions below are the same code with each arithmetic operation giving the
double nearest to the exact result, as the source's `+`, `-`, `*` and `/` do.
Comparisons, `Math.abs` and `isNaN` are exact on doubles and are shared. -/

/-- Round to the nearest integer, a tie going to the even one. -/
def roundHalfEven (x : ℚ) : Int :=
  let f := ⌊x⌋
  if x - (f : ℚ) < 1 / 2 then f
  else if 1 / 2 < x - (f : ℚ) then f + 1
  else if f % 2 = 0 then f else f + 1

/-- The double nearest to the rational `q` (IEEE 754 binary64, round to
nearest, ties to even): a significand of 53 bits, a least unit of `2^-1074`,
and an infinity when the rounded magnitude reaches `2^1024`.  The sign of a
zero result is not kept. -/
def roundDouble (q : ℚ) : JsNumber :=
  if q = 0 then fin 0
  else
    let e : Int := max (Int.log 2 |q| - 52) (-1074)
    let r : ℚ := (roundHalfEven (|q| / (2 : ℚ) ^ e) : ℚ) * (2 : ℚ) ^ e
    if (2 : ℚ) ^ (1024 : ℕ) ≤ r then (if 0 < q then pinf else ninf)
    else fin (if 0 < q then r else -r)

/-- The magnitude `roundDouble` gives a positive rational before its overflow
test: the multiple of the unit `2^e` of its binade nearest to it. -/
def roundMag (q : ℚ) : ℚ :=
  let e : Int := max (Int.log 2 q - 52) (-1074)
  (roundHalfEven (q / (2 : ℚ) ^ e) : ℚ) * (2 : ℚ) ^ e

/-- The `+` operator on doubles: the exact sum rounded; as `add` when an
operand is not finite. -/
def addD : JsNumber → JsNumber → JsNumber
  | fin a, fin b => roundDouble (a + b)
  | a, b => a.add b

/-- The `-` operator on doubles: the exact difference rounded; as `sub` when
an operand is not finite. -/
def subD : JsNumber → JsNumber → JsNumber
  | fin a, fin b => roundDouble (a - b)
  | a, b => a.sub b

/-- The `*` operator on doubles: the exact product rounded; as `mul` when an
operand is not finite. -/
def mulD : JsNumber → JsNumber → JsNumber
  | fin a, fin b => roundDouble (a * b)
  | a, b => a.mul b

/-- The `/` operator on doubles: the exact quotient rounded; as `div` when the
divisor is zero or an operand is not finite. -/
def divD : JsNumber → JsNumber → JsNumber
  | fin a, fin b => if b = 0 then (fin a).div (fin b) else roundDouble (a / b)
  | a, b => a.div b

/-- The local `t` of `interp` on doubles. -/
def interpTD (threshold av bv : JsNumber) : JsNumber :=
  let denom := subD bv av
  if (denom.abs).lt eps then fin (1 / 2) else divD (subD threshold av) denom

/-- The helper `interp(ax, ay, av, bx, by, bv)` on doubles. -/
def interpD (threshold ax ay av bx by_ bv : JsNumber) : Point :=
  let t := interpTD threshold av bv
  let x := addD ax (mulD t (subD bx ax))
  let y := addD ay (mulD t (subD by_ ay))
  (x, y)

/-- The variable `top` on doubles. -/
def crossTopD (threshold : JsNumber) (c : Cell) (x y : Nat) : Option Point :=
  if inside c.vTL threshold ≠ inside c.vTR threshold then
    some (interpD threshold (ofNat x) (ofNat y) c.vTL (ofNat (x + 1)) (ofNat y) c.vTR)
  else none

/-- The variable `right` on doubles. -/
def crossRightD (threshold : JsNumber) (c : Cell) (x y : Nat) : Option Point :=
  if inside c.vTR threshold ≠ inside c.vBR threshold then
    some (interpD threshold (ofNat (x + 1)) (ofNat y) c.vTR (ofNat (x + 1)) (ofNat (y + 1)) c.vBR)
  else none

/-- The variable `bottom` on doubles. -/
def crossBottomD (threshold : JsNumber) (c : Cell) (x y : Nat) : Option Point :=
  if inside c.vBL threshold ≠ inside c.vBR threshold then
    some (interpD threshold (ofNat x) (ofNat (y + 1)) c.vBL (ofNat (x + 1)) (ofNat (y + 1)) c.vBR)
  else none

/-- The variable `left` on doubles. -/
def crossLeftD (threshold : JsNumber) (c : Cell) (x y : Nat) : Option Point :=
  if inside c.vTL threshold ≠ inside c.vBL threshold then
    some (interpD threshold (ofNat x) (ofNat y) c.vTL (ofNat x) (ofNat (y + 1)) c.vBL)
  else none

/-- The body of the inner loop after the corner reads, on doubles. -/
def cellSegmentsD (threshold : JsNumber) (c : Cell) (x y : Nat) : List RawSeg :=
  let idx := caseIndex threshold c
  if idx = 0 ∨ idx = 15 then []
  else
    switchSegs idx (crossTopD threshold c x y) (crossRightD threshold c x y)
      (crossBottomD threshold c x y) (crossLeftD threshold c x y)

/-- The crossing variable of an edge on doubles, once the four `if`
statements have run. -/
def crossD (threshold : JsNumber) (c : Cell) (x y : Nat) : Edge → Option Point
  | Edge.top => crossTopD threshold c x y
  | Edge.right => crossRightD threshold c x y
  | Edge.bottom => crossBottomD threshold c x y
  | Edge.left => crossLeftD threshold c x y

/-- The point `interp` gives on doubles along an edge of the cell at column
`x`, row `y`. -/
def edgePointD (threshold : JsNumber) (c : Cell) (x y : Nat) (e : Edge) : Point :=
  interpD threshold (Corner.pos x y e.ends.1).1 (Corner.pos x y e.ends.1).2 (c.val e.ends.1)
    (Corner.pos x y e.ends.2).1 (Corner.pos x y e.ends.2).2 (c.val e.ends.2)

/-- None of the four coordinates of the segment is NaN: the condition under
which the final filter keeps a segment with both ends defined. -/
def noNaN (s : Seg) : Bool := !(isNaN s.1.1 || isNaN s.1.2 || isNaN s.2.1 || isNaN s.2.2)

/-- The inner loop on doubles, with `n` iterations left to run from column `x`. -/
def colLoopD (field : Field) (threshold : JsNumber) (y : Nat) : Nat → Nat → Option (List RawSeg)
  | 0, _ => some []
  | n + 1, x =>
    match readCell field x y with
    | none => none
    | some c =>
      match colLoopD field threshold y n (x + 1) with
      | none => none
      | some rest => some (cellSegmentsD threshold c x y ++ rest)

/-- The outer loop on doubles, with `m` iterations left to run from row `y`. -/
def rowLoopD (field : Field) (threshold : JsNumber) (w1 : Nat) : Nat → Nat → Option (List RawSeg)
  | 0, _ => some []
  | m + 1, y =>
    match colLoopD field threshold y w1 0 with
    | none => none
    | some row =>
      match rowLoopD field threshold w1 m (y + 1) with
      | none => none
      | some rest => some (row ++ rest)

/-- The array `segs` when both loops have run, on doubles. -/
def rawSegmentsD (field : Field) (threshold : JsNumber) : Option (List RawSeg) :=
  match field[0]? with
  | none => none
  | some row0 => rowLoopD field threshold (row0.length - 1) (field.length - 1) 0

/-- The function `marchingSquaresSegments(field, threshold)` on doubles. -/
def marchingSquaresSegmentsD (field : Field) (threshold : JsNumber) : Option (List Seg) :=
  (rawSegmentsD field threshold).map clean

/-- What the cell at column `x`, row `y` pushes onto `segs` on doubles
(nothing when the corner reads throw). -/
def cellContributionD (field : Field) (threshold : JsNumber) (x y : Nat) : List RawSeg :=
  match readCell field x y with
  | some c => cellSegmentsD threshold c x y
  | none => []

/-- The threshold of layer `k` in `drawContourLayers` on doubles:
`threshold - k * step`. -/
def layerThresholdD (threshold step : JsNumber) (k : Nat) : JsNumber :=
  subD threshold (mulD (ofNat k) step)

/-- The double `2^1023`, about `8.99e307`. -/
def huge : ℚ := (2 : ℚ) ^ (1023 : ℕ)

/-- The double `2^-53`, about `1.11e-16`: half the gap between `1` and the
next double above it. -/
def halfUlp : ℚ := (2 : ℚ) ^ (-53 : ℤ)

/-- The double `1 - 2^-53`, printed `0.9999999999999999`: the double just
below `1`. -/
def belowOne : ℚ := 1 - (2 : ℚ) ^ (-53 : ℤ)

/-- The double `2^-47`, about `7.1e-15`. -/
def tinyStep : ℚ := (2 : ℚ) ^ (-47 : ℤ)

/-- Every value of the field is finite. -/
def fieldFinite (field : Field) : Prop := ∀ row ∈ field, ∀ v ∈ row, v.isFinite = true

end MarchingSquares

/-! # Beat gate of the music drawing sketch (Project 1.0/sketch_minimal.js) -/

namespace BeatSketch

/-- The global object `STATE`. -/
structure BeatState where
  beatLocked : Bool
  beatDivide : Int
  prevIsBeat : Bool
  risingEdge : Bool
  beatCount : Int
  beatWindowFrames : Int
  beatWindowMax : Int
  metroEnabled : Bool
  metroBpm : ℚ
  /-- The field `_metroLast`. -/
  metroLast : ℚ
  deriving DecidableEq

/-- The function `isBeatFrame()`: its return value and the global `STATE`
when it returns. -/
def isBeatFrame (STATE : BeatState) : Bool × BeatState :=
  if !STATE.beatLocked then (true, STATE)
  else if STATE.risingEdge then (true, STATE)
  else if STATE.beatWindowFrames > 0 then (true, STATE)
  else (false, STATE)

end BeatSketch

namespace MarchingSquares

open JsNumber

/-! ## Basic facts -/

theorem inside_eq_zero_or_one (v threshold : JsNumber) :
    inside v threshold = 0 ∨ inside v threshold = 1 := by
  unfold inside
  split <;> simp

theorem cross_eq_edgePoint (threshold : JsNumber) (c : Cell) (x y : Nat) (e : Edge) :
    cross threshold c x y e =
      if inside (c.val e.ends.1) threshold ≠ inside (c.val e.ends.2) threshold then
        some (edgePoint threshold c x y e)
      else none := by
  cases e <;> rfl

theorem caseIndex_eq_sum (threshold : JsNumber) (c : Cell) :
    caseIndex threshold c
      = 8 * inside c.vTL threshold + 4 * inside c.vTR threshold
        + 2 * inside c.vBR threshold + inside c.vBL threshold := by
  unfold caseIndex
  rcases inside_eq_zero_or_one c.vTL threshold with h1 | h1 <;>
  rcases inside_eq_zero_or_one c.vTR threshold with h2 | h2 <;>
  rcases inside_eq_zero_or_one c.vBR threshold with h3 | h3 <;>
  rcases inside_eq_zero_or_one c.vBL threshold with h4 | h4 <;>
  rw [h1, h2, h3, h4] <;> decide

theorem isFinite_iff (v : JsNumber) : v.isFinite = true ↔ ∃ q : ℚ, v = fin q := by
  cases v <;> simp [JsNumber.isFinite]

theorem interpT_fin (t a b : ℚ) : interpT (fin t) (fin a) (fin b) = fin (fracQ t a b) := by
  simp only [interpT, fracQ, JsNumber.sub, JsNumber.abs, JsNumber.lt, eps, decide_eq_true_eq]
  split_ifs with h
  · rfl
  · have hne : b - a ≠ 0 := by
      intro h0
      apply h
      rw [h0]
      norm_num
    simp [JsNumber.div, hne]

theorem interp_fin (t ax ay a bx by_ b : ℚ) :
    interp (fin t) (fin ax) (fin ay) (fin a) (fin bx) (fin by_) (fin b)
      = (fin (ax + fracQ t a b * (bx - ax)), fin (ay + fracQ t a b * (by_ - ay))) := by
  simp [interp, interpT_fin, JsNumber.sub, JsNumber.mul, JsNumber.add]

theorem edgePoint_fin (t : ℚ) (c : Cell) (hc : c.finite) (x y : Nat) (e : Edge) :
    ∃ p q : ℚ, edgePoint (fin t) c x y e = (fin p, fin q) := by
  obtain ⟨vTL, vTR, vBR, vBL⟩ := c
  obtain ⟨h1, h2, h3, h4⟩ := hc
  obtain ⟨a, rfl⟩ := (isFinite_iff _).1 h1
  obtain ⟨b, rfl⟩ := (isFinite_iff _).1 h2
  obtain ⟨c, rfl⟩ := (isFinite_iff _).1 h3
  obtain ⟨d, rfl⟩ := (isFinite_iff _).1 h4
  cases e <;>
    simp only [edgePoint, Edge.ends, Corner.pos, Cell.val, JsNumber.ofNat, interp_fin] <;>
    exact ⟨_, _, rfl⟩

theorem cleanSeg_edgePoint (t : ℚ) (c : Cell) (hc : c.finite) (x y : Nat) (e1 e2 : Edge) :
    cleanSeg (some (edgePoint (fin t) c x y e1), some (edgePoint (fin t) c x y e2))
      = some (edgePoint (fin t) c x y e1, edgePoint (fin t) c x y e2) := by
  obtain ⟨p1, q1, h1⟩ := edgePoint_fin t c hc x y e1
  obtain ⟨p2, q2, h2⟩ := edgePoint_fin t c hc x y e2
  rw [h1, h2]
  simp [cleanSeg, JsNumber.isNaN]

/-- A cell with finite corners and a threshold that is not finite has all
corners on the same side. -/
theorem caseIndex_of_not_finite (threshold : JsNumber) (c : Cell) (hc : c.finite)
    (ht : threshold.isFinite = false) :
    caseIndex threshold c = 0 ∨ caseIndex threshold c = 15 := by
  obtain ⟨vTL, vTR, vBR, vBL⟩ := c
  obtain ⟨h1, h2, h3, h4⟩ := hc
  obtain ⟨a, rfl⟩ := (isFinite_iff _).1 h1
  obtain ⟨b, rfl⟩ := (isFinite_iff _).1 h2
  obtain ⟨c, rfl⟩ := (isFinite_iff _).1 h3
  obtain ⟨d, rfl⟩ := (isFinite_iff _).1 h4
  cases threshold <;> simp [JsNumber.isFinite] at ht <;>
    simp [caseIndex_eq_sum, inside, JsNumber.ge]

theorem threshold_fin_of_case (threshold : JsNumber) (c : Cell) (hc : c.finite)
    (h0 : caseIndex threshold c ≠ 0) (h15 : caseIndex threshold c ≠ 15) :
    ∃ t : ℚ, threshold = fin t := by
  rw [← isFinite_iff]
  by_contra hn
  have hf : threshold.isFinite = false := by simpa using hn
  rcases caseIndex_of_not_finite threshold c hc hf with h | h
  · exact h0 h
  · exact h15 h

/-- The cell's pushes written with the crossing variables of its edges. -/
theorem cellSegments_eq_switch (threshold : JsNumber) (c : Cell) (x y : Nat)
    (h0 : caseIndex threshold c ≠ 0) (h15 : caseIndex threshold c ≠ 15) :
    cellSegments threshold c x y
      = switchSegs (caseIndex threshold c) (cross threshold c x y Edge.top)
          (cross threshold c x y Edge.right) (cross threshold c x y Edge.bottom)
          (cross threshold c x y Edge.left) := by
  simp [cellSegments, cross, h0, h15]

theorem crossD_eq_edgePointD (threshold : JsNumber) (c : Cell) (x y : Nat) (e : Edge) :
    crossD threshold c x y e =
      if inside (c.val e.ends.1) threshold ≠ inside (c.val e.ends.2) threshold then
        some (edgePointD threshold c x y e)
      else none := by
  cases e <;> rfl

/-- The cell's pushes on doubles written with the crossing variables of its
edges. -/
theorem cellSegmentsD_eq_switch (threshold : JsNumber) (c : Cell) (x y : Nat)
    (h0 : caseIndex threshold c ≠ 0) (h15 : caseIndex threshold c ≠ 15) :
    cellSegmentsD threshold c x y
      = switchSegs (caseIndex threshold c) (crossD threshold c x y Edge.top)
          (crossD threshold c x y Edge.right) (crossD threshold c x y Edge.bottom)
          (crossD threshold c x y Edge.left) := by
  simp [cellSegmentsD, crossD, h0, h15]

/-- The final filter on one pushed entry with both ends defined. -/
theorem cleanSeg_some (a b : Point) :
    cleanSeg (some a, some b) = if noNaN (a, b) then some (a, b) else none := by
  by_cases h : (isNaN a.1 || isNaN a.2 || isNaN b.1 || isNaN b.2) = true
  · simp [cleanSeg, noNaN, h]
  · simp [cleanSeg, noNaN, h]

/-- On entries with both ends defined the final filter keeps the segments with
no NaN coordinate. -/
theorem clean_map_some (l : List Seg) :
    clean (l.map (fun s => (some s.1, some s.2))) = l.filter noNaN := by
  induction l with
  | nil => rfl
  | cons s l ih =>
    have ih2 : List.filterMap cleanSeg (l.map (fun s => (some s.1, some s.2)))
        = l.filter noNaN := ih
    by_cases h : noNaN s = true
    · simp [clean, List.filterMap_cons, cleanSeg_some, h, ih2]
    · simp [clean, List.filterMap_cons, cleanSeg_some, h, ih2]

/-- The classification bits read off the case index. -/
theorem bits_of_caseIndex (threshold : JsNumber) (c : Cell) (k : Nat)
    (hk : caseIndex threshold c = k) :
    inside (c.val Corner.TL) threshold = k / 8 % 2 ∧ inside (c.val Corner.TR) threshold = k / 4 % 2
      ∧ inside (c.val Corner.BR) threshold = k / 2 % 2
      ∧ inside (c.val Corner.BL) threshold = k % 2 := by
  have hs := caseIndex_eq_sum threshold c
  have h1 := inside_eq_zero_or_one c.vTL threshold
  have h2 := inside_eq_zero_or_one c.vTR threshold
  have h3 := inside_eq_zero_or_one c.vBR threshold
  have h4 := inside_eq_zero_or_one c.vBL threshold
  simp only [Cell.val]
  omega

/-- A cell whose switch arm pushes one entry, between two edges whose ends are
classified differently, yields that one segment, and the filter keeps it. -/
theorem one_segment_of_arm (threshold : JsNumber) (c : Cell) (hc : c.finite) (x y : Nat)
    (e1 e2 : Edge)
    (h0 : caseIndex threshold c ≠ 0) (h15 : caseIndex threshold c ≠ 15)
    (harm : switchSegs (caseIndex threshold c) (cross threshold c x y Edge.top)
        (cross threshold c x y Edge.right) (cross threshold c x y Edge.bottom)
        (cross threshold c x y Edge.left)
          = [(cross threshold c x y e1, cross threshold c x y e2)])
    (hd1 : inside (c.val e1.ends.1) threshold ≠ inside (c.val e1.ends.2) threshold)
    (hd2 : inside (c.val e2.ends.1) threshold ≠ inside (c.val e2.ends.2) threshold) :
    cross threshold c x y e1 = some (edgePoint threshold c x y e1)
      ∧ cross threshold c x y e2 = some (edgePoint threshold c x y e2)
      ∧ cellSegments threshold c x y
          = [(some (edgePoint threshold c x y e1), some (edgePoint threshold c x y e2))]
      ∧ clean (cellSegments threshold c x y)
          = [(edgePoint threshold c x y e1, edgePoint threshold c x y e2)] := by
  obtain ⟨t, rfl⟩ := threshold_fin_of_case threshold c hc h0 h15
  have hc1 : cross (fin t) c x y e1 = some (edgePoint (fin t) c x y e1) := by
    rw [cross_eq_edgePoint, if_pos hd1]
  have hc2 : cross (fin t) c x y e2 = some (edgePoint (fin t) c x y e2) := by
    rw [cross_eq_edgePoint, if_pos hd2]
  have hseg : cellSegments (fin t) c x y
      = [(some (edgePoint (fin t) c x y e1), some (edgePoint (fin t) c x y e2))] := by
    rw [cellSegments_eq_switch _ _ _ _ h0 h15, harm, hc1, hc2]
  refine ⟨hc1, hc2, hseg, ?_⟩
  rw [hseg]
  simp [clean, cleanSeg_edgePoint t c hc]

/-- The same for an arm that pushes two entries. -/
theorem two_segments_of_arm (threshold : JsNumber) (c : Cell) (hc : c.finite) (x y : Nat)
    (e1 e2 e3 e4 : Edge)
    (h0 : caseIndex threshold c ≠ 0) (h15 : caseIndex threshold c ≠ 15)
    (harm : switchSegs (caseIndex threshold c) (cross threshold c x y Edge.top)
        (cross threshold c x y Edge.right) (cross threshold c x y Edge.bottom)
        (cross threshold c x y Edge.left)
          = [(cross threshold c x y e1, cross threshold c x y e2),
             (cross threshold c x y e3, cross threshold c x y e4)])
    (hd : ∀ e : Edge, inside (c.val e.ends.1) threshold ≠ inside (c.val e.ends.2) threshold) :
    cellSegments threshold c x y
        = [(some (edgePoint threshold c x y e1), some (edgePoint threshold c x y e2)),
           (some (edgePoint threshold c x y e3), some (edgePoint threshold c x y e4))]
      ∧ clean (cellSegments threshold c x y)
          = [(edgePoint threshold c x y e1, edgePoint threshold c x y e2),
             (edgePoint threshold c x y e3, edgePoint threshold c x y e4)] := by
  obtain ⟨t, rfl⟩ := threshold_fin_of_case threshold c hc h0 h15
  have hcr : ∀ e : Edge, cross (fin t) c x y e = some (edgePoint (fin t) c x y e) := by
    intro e
    rw [cross_eq_edgePoint, if_pos (hd e)]
  have hseg : cellSegments (fin t) c x y
      = [(some (edgePoint (fin t) c x y e1), some (edgePoint (fin t) c x y e2)),
         (some (edgePoint (fin t) c x y e3), some (edgePoint (fin t) c x y e4))] := by
    rw [cellSegments_eq_switch _ _ _ _ h0 h15, harm, hcr e1, hcr e2, hcr e3, hcr e4]
  refine ⟨hseg, ?_⟩
  rw [hseg]
  simp [clean, cleanSeg_edgePoint t c hc]

/-- A cell whose switch arm pushes one entry: over exact arithmetic it yields
that one segment; on doubles the same entry is pushed, and the filter keeps it
when none of its coordinates is NaN. -/
theorem one_segment_both (threshold : JsNumber) (c : Cell) (hc : c.finite) (x y : Nat)
    (e1 e2 : Edge)
    (h0 : caseIndex threshold c ≠ 0) (h15 : caseIndex threshold c ≠ 15)
    (harm : ∀ f : Edge → Option Point,
      switchSegs (caseIndex threshold c) (f Edge.top) (f Edge.right) (f Edge.bottom)
        (f Edge.left) = [(f e1, f e2)])
    (hd1 : inside (c.val e1.ends.1) threshold ≠ inside (c.val e1.ends.2) threshold)
    (hd2 : inside (c.val e2.ends.1) threshold ≠ inside (c.val e2.ends.2) threshold) :
    cross threshold c x y e1 = some (edgePoint threshold c x y e1)
      ∧ cross threshold c x y e2 = some (edgePoint threshold c x y e2)
      ∧ cellSegments threshold c x y
          = [(some (edgePoint threshold c x y e1), some (edgePoint threshold c x y e2))]
      ∧ clean (cellSegments threshold c x y)
          = [(edgePoint threshold c x y e1, edgePoint threshold c x y e2)]
      ∧ cellSegmentsD threshold c x y
          = [(some (edgePointD threshold c x y e1), some (edgePointD threshold c x y e2))]
      ∧ clean (cellSegmentsD threshold c x y)
          = [(edgePointD threshold c x y e1, edgePointD threshold c x y e2)].filter noNaN := by
  obtain ⟨a1, a2, a3, a4⟩ :=
    one_segment_of_arm threshold c hc x y e1 e2 h0 h15 (harm (cross threshold c x y)) hd1 hd2
  have hseg : cellSegmentsD threshold c x y
      = [(some (edgePointD threshold c x y e1), some (edgePointD threshold c x y e2))] := by
    rw [cellSegmentsD_eq_switch _ _ _ _ h0 h15, harm (crossD threshold c x y),
      crossD_eq_edgePointD, crossD_eq_edgePointD, if_pos hd1, if_pos hd2]
  refine ⟨a1, a2, a3, a4, hseg, ?_⟩
  rw [hseg]
  exact clean_map_some [(edgePointD threshold c x y e1, edgePointD threshold c x y e2)]

/-- The same for an arm that pushes two entries. -/
theorem two_segments_both (threshold : JsNumber) (c : Cell) (hc : c.finite) (x y : Nat)
    (e1 e2 e3 e4 : Edge)
    (h0 : caseIndex threshold c ≠ 0) (h15 : caseIndex threshold c ≠ 15)
    (harm : ∀ f : Edge → Option Point,
      switchSegs (caseIndex threshold c) (f Edge.top) (f Edge.right) (f Edge.bottom)
        (f Edge.left) = [(f e1, f e2), (f e3, f e4)])
    (hd : ∀ e : Edge, inside (c.val e.ends.1) threshold ≠ inside (c.val e.ends.2) threshold) :
    cellSegments threshold c x y
        = [(some (edgePoint threshold c x y e1), some (edgePoint threshold c x y e2)),
           (some (edgePoint threshold c x y e3), some (edgePoint threshold c x y e4))]
      ∧ clean (cellSegments threshold c x y)
          = [(edgePoint threshold c x y e1, edgePoint threshold c x y e2),
             (edgePoint threshold c x y e3, edgePoint threshold c x y e4)]
      ∧ cellSegmentsD threshold c x y
          = [(some (edgePointD threshold c x y e1), some (edgePointD threshold c x y e2)),
             (some (edgePointD threshold c x y e3), some (edgePointD threshold c x y e4))]
      ∧ clean (cellSegmentsD threshold c x y)
          = [(edgePointD threshold c x y e1, edgePointD threshold c x y e2),
             (edgePointD threshold c x y e3, edgePointD threshold c x y e4)].filter noNaN := by
  obtain ⟨a1, a2⟩ :=
    two_segments_of_arm threshold c hc x y e1 e2 e3 e4 h0 h15 (harm (cross threshold c x y)) hd
  have hcr : ∀ e : Edge, crossD threshold c x y e = some (edgePointD threshold c x y e) := by
    intro e
    rw [crossD_eq_edgePointD, if_pos (hd e)]
  have hseg : cellSegmentsD threshold c x y
      = [(some (edgePointD threshold c x y e1), some (edgePointD threshold c x y e2)),
         (some (edgePointD threshold c x y e3), some (edgePointD threshold c x y e4))] := by
    rw [cellSegmentsD_eq_switch _ _ _ _ h0 h15, harm (crossD threshold c x y),
      hcr e1, hcr e2, hcr e3, hcr e4]
  refine ⟨a1, a2, hseg, ?_⟩
  rw [hseg]
  exact clean_map_some [(edgePointD threshold c x y e1, edgePointD threshold c x y e2),
    (edgePointD threshold c x y e3, edgePointD threshold c x y e4)]

/-- The case indices a lone corner can give, corner by corner. -/
theorem caseIndex_of_lone (threshold : JsNumber) (c : Cell) (k : Corner)
    (h : isLoneCorner threshold c k) :
    match k with
    | Corner.TL => caseIndex threshold c = 7 ∨ caseIndex threshold c = 8
    | Corner.TR => caseIndex threshold c = 11 ∨ caseIndex threshold c = 4
    | Corner.BR => caseIndex threshold c = 13 ∨ caseIndex threshold c = 2
    | Corner.BL => caseIndex threshold c = 14 ∨ caseIndex threshold c = 1 := by
  have hs := caseIndex_eq_sum threshold c
  have h1 := inside_eq_zero_or_one c.vTL threshold
  have h2 := inside_eq_zero_or_one c.vTR threshold
  have h3 := inside_eq_zero_or_one c.vBR threshold
  have h4 := inside_eq_zero_or_one c.vBL threshold
  have a1 := h Corner.TL
  have a2 := h Corner.TR
  have a3 := h Corner.BR
  have a4 := h Corner.BL
  cases k <;> simp only [Cell.val, ne_eq, reduceCtorEq, not_false_eq_true, not_true_eq_false,
    true_implies, false_implies] at a1 a2 a3 a4 ⊢ <;> omega

/-- The inner loop appends the contributions of its cells, left to right. -/
theorem colLoop_eq (field : Field) (threshold : JsNumber) (y : Nat) :
    ∀ (n x : Nat) (segs : List RawSeg), colLoop field threshold y n x = some segs →
      segs = (List.range n).flatMap (fun i => cellContribution field threshold (x + i) y) := by
  intro n
  induction n with
  | zero =>
    intro x segs h
    simp only [colLoop, Option.some.injEq] at h
    simp [← h]
  | succ n ih =>
    intro x segs h
    simp only [colLoop] at h
    cases hc : readCell field x y with
    | none => simp [hc] at h
    | some c =>
      cases hr : colLoop field threshold y n (x + 1) with
      | none => simp [hc, hr] at h
      | some rest =>
        simp only [hc, hr, Option.some.injEq] at h
        rw [← h, ih (x + 1) rest hr, List.range_succ_eq_map, List.flatMap_cons,
          List.flatMap_map]
        simp only [cellContribution, hc, Nat.add_zero, Nat.succ_eq_add_one]
        congr 2
        funext i
        rw [Nat.add_assoc, Nat.add_comm 1 i]

/-- The outer loop appends the rows of cells, top to bottom. -/
theorem rowLoop_eq (field : Field) (threshold : JsNumber) (w1 : Nat) :
    ∀ (m y : Nat) (segs : List RawSeg), rowLoop field threshold w1 m y = some segs →
      segs = (List.range m).flatMap (fun j =>
        (List.range w1).flatMap (fun i => cellContribution field threshold i (y + j))) := by
  intro m
  induction m with
  | zero =>
    intro y segs h
    simp only [rowLoop, Option.some.injEq] at h
    simp [← h]
  | succ m ih =>
    intro y segs h
    simp only [rowLoop] at h
    cases hc : colLoop field threshold y w1 0 with
    | none => simp [hc] at h
    | some row =>
      cases hr : rowLoop field threshold w1 m (y + 1) with
      | none => simp [hc, hr] at h
      | some rest =>
        simp only [hc, hr, Option.some.injEq] at h
        rw [← h, ih (y + 1) rest hr, colLoop_eq field threshold y w1 0 row hc,
          List.range_succ_eq_map, List.flatMap_cons, List.flatMap_map]
        simp only [Nat.add_zero, Nat.zero_add, Nat.succ_eq_add_one]
        congr 2
        funext j
        rw [Nat.add_assoc, Nat.add_comm 1 j]

/-- The result is the concatenation, row by row and column by column, of what
the filter keeps of each cell. -/
theorem marchingSquaresSegments_eq_cells (row0 : List JsNumber) (rest : Field)
    (threshold : JsNumber) (segs : List Seg)
    (h : marchingSquaresSegments (row0 :: rest) threshold = some segs) :
    segs = (List.range rest.length).flatMap (fun y =>
      (List.range (row0.length - 1)).flatMap (fun x =>
        clean (cellContribution (row0 :: rest) threshold x y))) := by
  simp only [marchingSquaresSegments, rawSegments, List.getElem?_cons_zero, List.length_cons,
    Nat.add_sub_cancel, Option.map_eq_some'] at h
  obtain ⟨raw, hraw, rfl⟩ := h
  rw [rowLoop_eq _ _ _ _ _ _ hraw]
  simp only [clean, List.filterMap_flatMap, Nat.zero_add]

/-! ## The case index -/

/-- C1: the case index of a cell is `8*[vTL >= t] + 4*[vTR >= t] + 2*[vBR >= t] + [vBL >= t]`,
each bracket being 1 exactly when the corner value is `>=` the threshold, so it
lies in `0..15` with the top-left corner as most significant bit. -/
theorem caseIndex_eq_packed_bits (threshold : JsNumber) (c : Cell) :
    caseIndex threshold c
        = 8 * inside c.vTL threshold + 4 * inside c.vTR threshold
          + 2 * inside c.vBR threshold + 1 * inside c.vBL threshold
      ∧ caseIndex threshold c ≤ 15
      ∧ (∀ v : JsNumber, (inside v threshold = 1 ↔ v.ge threshold = true)
          ∧ (inside v threshold = 0 ↔ v.ge threshold = false))
      ∧ (∀ a t : ℚ, inside (fin a) (fin t) = if t ≤ a then 1 else 0) := by
  refine ⟨?_, ?_, ?_, ?_⟩
  · rw [caseIndex_eq_sum]
    omega
  · rw [caseIndex_eq_sum]
    have h1 := inside_eq_zero_or_one c.vTL threshold
    have h2 := inside_eq_zero_or_one c.vTR threshold
    have h3 := inside_eq_zero_or_one c.vBR threshold
    have h4 := inside_eq_zero_or_one c.vBL threshold
    omega
  · intro v
    unfold inside
    cases h : v.ge threshold <;> simp
  · intro a t
    simp [inside, JsNumber.ge]

/-! ## The case table -/

/-- C2: a cell whose four corners are all inside (case 15) or all outside
(case 0) pushes no segment, so it contributes nothing to the result. -/
theorem uniform_cell_no_segments (threshold : JsNumber) (c : Cell) (x y : Nat)
    (h : (inside c.vTL threshold = 1 ∧ inside c.vTR threshold = 1
            ∧ inside c.vBR threshold = 1 ∧ inside c.vBL threshold = 1)
          ∨ (inside c.vTL threshold = 0 ∧ inside c.vTR threshold = 0
            ∧ inside c.vBR threshold = 0 ∧ inside c.vBL threshold = 0)) :
    (caseIndex threshold c = 15 ∨ caseIndex threshold c = 0)
      ∧ cellSegments threshold c x y = []
      ∧ clean (cellSegments threshold c x y) = [] := by
  have hk : caseIndex threshold c = 15 ∨ caseIndex threshold c = 0 := by
    rw [caseIndex_eq_sum]
    omega
  have hs : cellSegments threshold c x y = [] := by
    rcases hk with hk | hk <;> simp [cellSegments, hk]
  exact ⟨hk, hs, by rw [hs]; rfl⟩

theorem uniform_cell_no_segments_witness :
    cellSegments (fin 5) ⟨fin 7, fin 9, fin 5, fin 6⟩ 0 0 = []
      ∧ cellSegments (fin 5) ⟨fin 1, fin 2, fin 3, fin 4⟩ 2 3 = [] :=
  ⟨(uniform_cell_no_segments (fin 5) ⟨fin 7, fin 9, fin 5, fin 6⟩ 0 0
      (Or.inl (by simp [inside, JsNumber.ge]; norm_num))).2.1,
   (uniform_cell_no_segments (fin 5) ⟨fin 1, fin 2, fin 3, fin 4⟩ 2 3
      (Or.inr (by simp [inside, JsNumber.ge]; norm_num))).2.1⟩

/-- C3 as amended: in a cell with finite corner values the case index is 1, 2,
4, 7, 8, 11, 13 or 14 exactly when one corner is classified differently from
the other three; the switch then pushes exactly one segment, whose two
endpoints are the crossing points of the two distinct edges that meet at that
corner.  Over exact arithmetic (no rounding, no overflow) the cell yields
exactly that segment; on doubles it yields that segment when none of its
coordinates is NaN, and no segment otherwise. -/
theorem lone_corner_one_segment (threshold : JsNumber) (c : Cell) (x y : Nat) (hc : c.finite) :
    (caseIndex threshold c ∈ [1, 2, 4, 7, 8, 11, 13, 14] ↔ ∃ k, isLoneCorner threshold c k)
      ∧ ∀ k : Corner, isLoneCorner threshold c k →
        ∃ e1 e2 : Edge, e1 ≠ e2 ∧ e1.touches k ∧ e2.touches k
          ∧ cross threshold c x y e1 = some (edgePoint threshold c x y e1)
          ∧ cross threshold c x y e2 = some (edgePoint threshold c x y e2)
          ∧ cellSegments threshold c x y
              = [(some (edgePoint threshold c x y e1), some (edgePoint threshold c x y e2))]
          ∧ clean (cellSegments threshold c x y)
              = [(edgePoint threshold c x y e1, edgePoint threshold c x y e2)]
          ∧ cellSegmentsD threshold c x y
              = [(some (edgePointD threshold c x y e1), some (edgePointD threshold c x y e2))]
          ∧ clean (cellSegmentsD threshold c x y)
              = [(edgePointD threshold c x y e1, edgePointD threshold c x y e2)].filter
                  noNaN := by
  refine ⟨⟨?_, ?_⟩, ?_⟩
  · intro hk
    simp only [List.mem_cons, List.mem_singleton, List.not_mem_nil, or_false] at hk
    rcases hk with h | h | h | h | h | h | h | h
    all_goals
      obtain ⟨b1, b2, b3, b4⟩ := bits_of_caseIndex threshold c _ h
      norm_num at b1 b2 b3 b4
    · exact ⟨Corner.BL, fun k2 hk2 => by cases k2 <;> simp_all⟩
    · exact ⟨Corner.BR, fun k2 hk2 => by cases k2 <;> simp_all⟩
    · exact ⟨Corner.TR, fun k2 hk2 => by cases k2 <;> simp_all⟩
    · exact ⟨Corner.TL, fun k2 hk2 => by cases k2 <;> simp_all⟩
    · exact ⟨Corner.TL, fun k2 hk2 => by cases k2 <;> simp_all⟩
    · exact ⟨Corner.TR, fun k2 hk2 => by cases k2 <;> simp_all⟩
    · exact ⟨Corner.BR, fun k2 hk2 => by cases k2 <;> simp_all⟩
    · exact ⟨Corner.BL, fun k2 hk2 => by cases k2 <;> simp_all⟩
  · rintro ⟨k, hk⟩
    have := caseIndex_of_lone threshold c k hk
    cases k <;> simp only at this <;> rcases this with h | h <;> simp [h]
  · intro k hk
    have hidx := caseIndex_of_lone threshold c k hk
    cases k <;> simp only at hidx <;> rcases hidx with h | h
    all_goals
      obtain ⟨b1, b2, b3, b4⟩ := bits_of_caseIndex threshold c _ h
      norm_num at b1 b2 b3 b4
      have h0 : caseIndex threshold c ≠ 0 := by omega
      have h15 : caseIndex threshold c ≠ 15 := by omega
    · exact ⟨Edge.top, Edge.left, by decide, Or.inl rfl, Or.inl rfl,
        one_segment_both threshold c hc x y _ _ h0 h15 (by rw [h]; intro f; rfl)
          (by simp [Edge.ends, b1, b2, b3, b4]) (by simp [Edge.ends, b1, b2, b3, b4])⟩
    · exact ⟨Edge.left, Edge.top, by decide, Or.inl rfl, Or.inl rfl,
        one_segment_both threshold c hc x y _ _ h0 h15 (by rw [h]; intro f; rfl)
          (by simp [Edge.ends, b1, b2, b3, b4]) (by simp [Edge.ends, b1, b2, b3, b4])⟩
    · exact ⟨Edge.right, Edge.top, by decide, Or.inl rfl, Or.inr rfl,
        one_segment_both threshold c hc x y _ _ h0 h15 (by rw [h]; intro f; rfl)
          (by simp [Edge.ends, b1, b2, b3, b4]) (by simp [Edge.ends, b1, b2, b3, b4])⟩
    · exact ⟨Edge.top, Edge.right, by decide, Or.inr rfl, Or.inl rfl,
        one_segment_both threshold c hc x y _ _ h0 h15 (by rw [h]; intro f; rfl)
          (by simp [Edge.ends, b1, b2, b3, b4]) (by simp [Edge.ends, b1, b2, b3, b4])⟩
    · exact ⟨Edge.right, Edge.bottom, by decide, Or.inr rfl, Or.inr rfl,
        one_segment_both threshold c hc x y _ _ h0 h15 (by rw [h]; intro f; rfl)
          (by simp [Edge.ends, b1, b2, b3, b4]) (by simp [Edge.ends, b1, b2, b3, b4])⟩
    · exact ⟨Edge.bottom, Edge.right, by decide, Or.inr rfl, Or.inr rfl,
        one_segment_both threshold c hc x y _ _ h0 h15 (by rw [h]; intro f; rfl)
          (by simp [Edge.ends, b1, b2, b3, b4]) (by simp [Edge.ends, b1, b2, b3, b4])⟩
    · exact ⟨Edge.bottom, Edge.left, by decide, Or.inl rfl, Or.inr rfl,
        one_segment_both threshold c hc x y _ _ h0 h15 (by rw [h]; intro f; rfl)
          (by simp [Edge.ends, b1, b2, b3, b4]) (by simp [Edge.ends, b1, b2, b3, b4])⟩
    · exact ⟨Edge.left, Edge.bottom, by decide, Or.inr rfl, Or.inl rfl,
        one_segment_both threshold c hc x y _ _ h0 h15 (by rw [h]; intro f; rfl)
          (by simp [Edge.ends, b1, b2, b3, b4]) (by simp [Edge.ends, b1, b2, b3, b4])⟩

theorem lone_corner_one_segment_witness :
    isLoneCorner (fin 5) ⟨fin 0, fin 0, fin 10, fin 0⟩ Corner.BR
      ∧ ∃ e1 e2 : Edge, e1 ≠ e2 ∧ e1.touches Corner.BR ∧ e2.touches Corner.BR
          ∧ cross (fin 5) ⟨fin 0, fin 0, fin 10, fin 0⟩ 0 0 e1
              = some (edgePoint (fin 5) ⟨fin 0, fin 0, fin 10, fin 0⟩ 0 0 e1)
          ∧ cross (fin 5) ⟨fin 0, fin 0, fin 10, fin 0⟩ 0 0 e2
              = some (edgePoint (fin 5) ⟨fin 0, fin 0, fin 10, fin 0⟩ 0 0 e2)
          ∧ cellSegments (fin 5) ⟨fin 0, fin 0, fin 10, fin 0⟩ 0 0
              = [(some (edgePoint (fin 5) ⟨fin 0, fin 0, fin 10, fin 0⟩ 0 0 e1),
                  some (edgePoint (fin 5) ⟨fin 0, fin 0, fin 10, fin 0⟩ 0 0 e2))]
          ∧ clean (cellSegments (fin 5) ⟨fin 0, fin 0, fin 10, fin 0⟩ 0 0)
              = [(edgePoint (fin 5) ⟨fin 0, fin 0, fin 10, fin 0⟩ 0 0 e1,
                  edgePoint (fin 5) ⟨fin 0, fin 0, fin 10, fin 0⟩ 0 0 e2)]
          ∧ cellSegmentsD (fin 5) ⟨fin 0, fin 0, fin 10, fin 0⟩ 0 0
              = [(some (edgePointD (fin 5) ⟨fin 0, fin 0, fin 10, fin 0⟩ 0 0 e1),
                  some (edgePointD (fin 5) ⟨fin 0, fin 0, fin 10, fin 0⟩ 0 0 e2))]
          ∧ clean (cellSegmentsD (fin 5) ⟨fin 0, fin 0, fin 10, fin 0⟩ 0 0)
              = [(edgePointD (fin 5) ⟨fin 0, fin 0, fin 10, fin 0⟩ 0 0 e1,
                  edgePointD (fin 5) ⟨fin 0, fin 0, fin 10, fin 0⟩ 0 0 e2)].filter noNaN :=
  have hk : isLoneCorner (fin 5) ⟨fin 0, fin 0, fin 10, fin 0⟩ Corner.BR := by
    intro k2 hk2
    cases k2 <;> simp_all [Cell.val, inside, JsNumber.ge] <;> norm_num
  ⟨hk, (lone_corner_one_segment (fin 5) ⟨fin 0, fin 0, fin 10, fin 0⟩ 0 0
    ⟨rfl, rfl, rfl, rfl⟩).2 Corner.BR hk⟩

/-- C4 as amended: with finite corner values, case 5 (exactly TR and BL
inside) pushes exactly the two segments top->left and right->bottom, and case
10 (exactly TL and BR inside) exactly left->bottom and top->right, in that
order, whatever the corner values are.  Over exact arithmetic (no rounding, no
overflow) the cell yields exactly these two segments; on doubles it yields
those of the two that have no NaN coordinate. -/
theorem saddle_segments (threshold : JsNumber) (c : Cell) (x y : Nat) (hc : c.finite) :
    (caseIndex threshold c = 5 ↔
        (inside c.vTL threshold = 0 ∧ inside c.vTR threshold = 1
          ∧ inside c.vBR threshold = 0 ∧ inside c.vBL threshold = 1))
      ∧ (caseIndex threshold c = 10 ↔
        (inside c.vTL threshold = 1 ∧ inside c.vTR threshold = 0
          ∧ inside c.vBR threshold = 1 ∧ inside c.vBL threshold = 0))
      ∧ (caseIndex threshold c = 5 →
          cellSegments threshold c x y
            = [(some (edgePoint threshold c x y Edge.top),
                  some (edgePoint threshold c x y Edge.left)),
               (some (edgePoint threshold c x y Edge.right),
                  some (edgePoint threshold c x y Edge.bottom))]
          ∧ clean (cellSegments threshold c x y)
            = [(edgePoint threshold c x y Edge.top, edgePoint threshold c x y Edge.left),
               (edgePoint threshold c x y Edge.right, edgePoint threshold c x y Edge.bottom)]
          ∧ cellSegmentsD threshold c x y
            = [(some (edgePointD threshold c x y Edge.top),
                  some (edgePointD threshold c x y Edge.left)),
               (some (edgePointD threshold c x y Edge.right),
                  some (edgePointD threshold c x y Edge.bottom))]
          ∧ clean (cellSegmentsD threshold c x y)
            = [(edgePointD threshold c x y Edge.top, edgePointD threshold c x y Edge.left),
               (edgePointD threshold c x y Edge.right,
                  edgePointD threshold c x y Edge.bottom)].filter noNaN)
      ∧ (caseIndex threshold c = 10 →
          cellSegments threshold c x y
            = [(some (edgePoint threshold c x y Edge.left),
                  some (edgePoint threshold c x y Edge.bottom)),
               (some (edgePoint threshold c x y Edge.top),
                  some (edgePoint threshold c x y Edge.right))]
          ∧ clean (cellSegments threshold c x y)
            = [(edgePoint threshold c x y Edge.left, edgePoint threshold c x y Edge.bottom),
               (edgePoint threshold c x y Edge.top, edgePoint threshold c x y Edge.right)]
          ∧ cellSegmentsD threshold c x y
            = [(some (edgePointD threshold c x y Edge.left),
                  some (edgePointD threshold c x y Edge.bottom)),
               (some (edgePointD threshold c x y Edge.top),
                  some (edgePointD threshold c x y Edge.right))]
          ∧ clean (cellSegmentsD threshold c x y)
            = [(edgePointD threshold c x y Edge.left, edgePointD threshold c x y Edge.bottom),
               (edgePointD threshold c x y Edge.top,
                  edgePointD threshold c x y Edge.right)].filter noNaN) := by
  have hs := caseIndex_eq_sum threshold c
  have h1 := inside_eq_zero_or_one c.vTL threshold
  have h2 := inside_eq_zero_or_one c.vTR threshold
  have h3 := inside_eq_zero_or_one c.vBR threshold
  have h4 := inside_eq_zero_or_one c.vBL threshold
  refine ⟨by omega, by omega, ?_, ?_⟩
  · intro h
    obtain ⟨b1, b2, b3, b4⟩ := bits_of_caseIndex threshold c _ h
    norm_num at b1 b2 b3 b4
    refine two_segments_both threshold c hc x y _ _ _ _ (by omega) (by omega)
      (by rw [h]; intro f; rfl) ?_
    intro e
    cases e <;> simp [Edge.ends, b1, b2, b3, b4]
  · intro h
    obtain ⟨b1, b2, b3, b4⟩ := bits_of_caseIndex threshold c _ h
    norm_num at b1 b2 b3 b4
    refine two_segments_both threshold c hc x y _ _ _ _ (by omega) (by omega)
      (by rw [h]; intro f; rfl) ?_
    intro e
    cases e <;> simp [Edge.ends, b1, b2, b3, b4]

theorem saddle_segments_witness :
    clean (cellSegments (fin 5) ⟨fin 0, fin 10, fin 0, fin 10⟩ 0 0)
      = [(edgePoint (fin 5) ⟨fin 0, fin 10, fin 0, fin 10⟩ 0 0 Edge.top,
          edgePoint (fin 5) ⟨fin 0, fin 10, fin 0, fin 10⟩ 0 0 Edge.left),
         (edgePoint (fin 5) ⟨fin 0, fin 10, fin 0, fin 10⟩ 0 0 Edge.right,
          edgePoint (fin 5) ⟨fin 0, fin 10, fin 0, fin 10⟩ 0 0 Edge.bottom)] :=
  ((saddle_segments (fin 5) ⟨fin 0, fin 10, fin 0, fin 10⟩ 0 0 ⟨rfl, rfl, rfl, rfl⟩).2.2.1
    (by rw [caseIndex_eq_sum]; simp [inside, JsNumber.ge]; norm_num)).2.1

/-- C5 as amended: with finite corner values, for every non-saddle case index
`k` in 1..14 the switch pushes exactly one segment, running from the crossing
point of the first edge the specification's table lists for `k` to that of the
second.  Over exact arithmetic (no rounding, no overflow) the cell yields
exactly that segment; on doubles it yields that segment when none of its
coordinates is NaN, and no segment otherwise. -/
theorem single_segment_table (threshold : JsNumber) (c : Cell) (x y : Nat) (hc : c.finite)
    (hk : caseIndex threshold c ∈ [1, 2, 3, 4, 6, 7, 8, 9, 11, 12, 13, 14]) :
    ∃ e1 e2 : Edge, specTable (caseIndex threshold c) = some (e1, e2)
      ∧ cross threshold c x y e1 = some (edgePoint threshold c x y e1)
      ∧ cross threshold c x y e2 = some (edgePoint threshold c x y e2)
      ∧ cellSegments threshold c x y
          = [(some (edgePoint threshold c x y e1), some (edgePoint threshold c x y e2))]
      ∧ clean (cellSegments threshold c x y)
          = [(edgePoint threshold c x y e1, edgePoint threshold c x y e2)]
      ∧ cellSegmentsD threshold c x y
          = [(some (edgePointD threshold c x y e1), some (edgePointD threshold c x y e2))]
      ∧ clean (cellSegmentsD threshold c x y)
          = [(edgePointD threshold c x y e1, edgePointD threshold c x y e2)].filter noNaN := by
  simp only [List.mem_cons, List.mem_singleton, List.not_mem_nil, or_false] at hk
  rcases hk with h | h | h | h | h | h | h | h | h | h | h | h
  all_goals
    obtain ⟨b1, b2, b3, b4⟩ := bits_of_caseIndex threshold c _ h
    norm_num at b1 b2 b3 b4
    have h0 : caseIndex threshold c ≠ 0 := by omega
    have h15 : caseIndex threshold c ≠ 15 := by omega
    have harm := one_segment_both threshold c hc x y
    rw [h] at harm ⊢
    refine ⟨_, _, rfl, harm _ _ (by omega) (by omega) (fun _ => rfl) ?_ ?_⟩
    · simp [Edge.ends, b1, b2, b3, b4]
    · simp [Edge.ends, b1, b2, b3, b4]

theorem single_segment_table_witness :
    ∃ e1 e2 : Edge, specTable (caseIndex (fin 5) ⟨fin 0, fin 10, fin 20, fin 1⟩) = some (e1, e2)
      ∧ cross (fin 5) ⟨fin 0, fin 10, fin 20, fin 1⟩ 3 4 e1
          = some (edgePoint (fin 5) ⟨fin 0, fin 10, fin 20, fin 1⟩ 3 4 e1)
      ∧ cross (fin 5) ⟨fin 0, fin 10, fin 20, fin 1⟩ 3 4 e2
          = some (edgePoint (fin 5) ⟨fin 0, fin 10, fin 20, fin 1⟩ 3 4 e2)
      ∧ cellSegments (fin 5) ⟨fin 0, fin 10, fin 20, fin 1⟩ 3 4
          = [(some (edgePoint (fin 5) ⟨fin 0, fin 10, fin 20, fin 1⟩ 3 4 e1),
              some (edgePoint (fin 5) ⟨fin 0, fin 10, fin 20, fin 1⟩ 3 4 e2))]
      ∧ clean (cellSegments (fin 5) ⟨fin 0, fin 10, fin 20, fin 1⟩ 3 4)
          = [(edgePoint (fin 5) ⟨fin 0, fin 10, fin 20, fin 1⟩ 3 4 e1,
              edgePoint (fin 5) ⟨fin 0, fin 10, fin 20, fin 1⟩ 3 4 e2)]
      ∧ cellSegmentsD (fin 5) ⟨fin 0, fin 10, fin 20, fin 1⟩ 3 4
          = [(some (edgePointD (fin 5) ⟨fin 0, fin 10, fin 20, fin 1⟩ 3 4 e1),
              some (edgePointD (fin 5) ⟨fin 0, fin 10, fin 20, fin 1⟩ 3 4 e2))]
      ∧ clean (cellSegmentsD (fin 5) ⟨fin 0, fin 10, fin 20, fin 1⟩ 3 4)
          = [(edgePointD (fin 5) ⟨fin 0, fin 10, fin 20, fin 1⟩ 3 4 e1,
              edgePointD (fin 5) ⟨fin 0, fin 10, fin 20, fin 1⟩ 3 4 e2)].filter noNaN :=
  single_segment_table (fin 5) ⟨fin 0, fin 10, fin 20, fin 1⟩ 3 4 ⟨rfl, rfl, rfl, rfl⟩
    (by rw [caseIndex_eq_sum]; simp [inside, JsNumber.ge]; norm_num)

/-! ## interp -/

theorem lt_false_of_ge (u v : JsNumber) (h : u.ge v = true) : u.lt v = false := by
  cases u <;> cases v <;> simp_all [JsNumber.ge, JsNumber.lt]

/-- C6: `interp` returns `A + f*(B - A)` with `f = (threshold - a)/(b - a)`
when `|b - a| >= 1e-6` and `f = 0.5` when `|b - a| < 1e-6`; with top-left value
0, top-right value 10 and threshold 4 the top crossing of the cell at column
`x`, row `y` is at column `x + 0.4`, row `y`. -/
theorem interp_formula (threshold ax ay av bx by_ bv : JsNumber) :
    ((bv.sub av).abs.ge eps = true →
        interp threshold ax ay av bx by_ bv
          = (ax.add (((threshold.sub av).div (bv.sub av)).mul (bx.sub ax)),
             ay.add (((threshold.sub av).div (bv.sub av)).mul (by_.sub ay))))
      ∧ ((bv.sub av).abs.lt eps = true →
        interp threshold ax ay av bx by_ bv
          = (ax.add ((fin (1 / 2)).mul (bx.sub ax)), ay.add ((fin (1 / 2)).mul (by_.sub ay))))
      ∧ (∀ (c : Cell) (x y : Nat), c.vTL = fin 0 → c.vTR = fin 10 →
        crossTop (fin 4) c x y = some (fin ((x : ℚ) + 2 / 5), fin ((y : ℚ) + 0))) := by
  refine ⟨?_, ?_, ?_⟩
  · intro h
    simp only [interp, interpT, lt_false_of_ge _ _ h]
    rfl
  · intro h
    simp only [interp, interpT, h]
    rfl
  · intro c x y h1 h2
    have hne : inside (fin 0) (fin 4) ≠ inside (fin 10) (fin 4) := by
      simp [inside, JsNumber.ge]
      norm_num
    have hf : fracQ 4 0 10 = 2 / 5 := by
      unfold fracQ
      norm_num [abs_of_nonneg]
    rw [crossTop, h1, h2, if_pos hne]
    simp only [JsNumber.ofNat, interp_fin, hf]
    norm_num

theorem interp_formula_witness :
    interp (fin 4) (fin 0) (fin 0) (fin 0) (fin 1) (fin 0) (fin 10)
      = ((fin 0).add ((((fin 4).sub (fin 0)).div ((fin 10).sub (fin 0))).mul
            ((fin 1).sub (fin 0))),
         (fin 0).add ((((fin 4).sub (fin 0)).div ((fin 10).sub (fin 0))).mul
            ((fin 0).sub (fin 0)))) :=
  (interp_formula (fin 4) (fin 0) (fin 0) (fin 0) (fin 1) (fin 0) (fin 10)).1
    (by simp [JsNumber.sub, JsNumber.abs, JsNumber.ge, eps]; norm_num [abs_of_nonneg])

/-- C8: on an edge with finite end values `a`, `b` with `|b - a| >= 1e-6`
and a finite threshold, the point `interp` returns is `A + f*(B - A)` for the
fraction `f` at which the value interpolated along the edge, `a + f*(b - a)`,
is exactly the threshold. -/
theorem crossing_value_eq_threshold (t a b : ℚ) (ax ay bx by_ : JsNumber)
    (h : ((fin b).sub (fin a)).abs.ge eps = true) :
    interp (fin t) ax ay (fin a) bx by_ (fin b)
        = (ax.add ((interpT (fin t) (fin a) (fin b)).mul (bx.sub ax)),
           ay.add ((interpT (fin t) (fin a) (fin b)).mul (by_.sub ay)))
      ∧ (fin a).add ((interpT (fin t) (fin a) (fin b)).mul ((fin b).sub (fin a))) = fin t := by
  refine ⟨rfl, ?_⟩
  have hge : (1 : ℚ) / 1000000 ≤ |b - a| := by
    simpa [JsNumber.sub, JsNumber.abs, JsNumber.ge, eps] using h
  have hne : b - a ≠ 0 := by
    intro h0
    rw [h0] at hge
    norm_num at hge
  have hf : fracQ t a b = (t - a) / (b - a) := by
    unfold fracQ
    rw [if_neg (not_lt.mpr hge)]
  rw [interpT_fin, hf]
  simp only [JsNumber.sub, JsNumber.mul, JsNumber.add]
  congr 1
  field_simp

theorem crossing_value_eq_threshold_witness :
    (fin 0).add ((interpT (fin 4) (fin 0) (fin 10)).mul ((fin 10).sub (fin 0))) = fin 4 :=
  (crossing_value_eq_threshold 4 0 10 (fin 0) (fin 0) (fin 1) (fin 0)
    (by simp [JsNumber.sub, JsNumber.abs, JsNumber.ge, eps]; norm_num [abs_of_nonneg])).2

/-! ## Classification at the threshold -/

/-- C9: a corner whose value equals the threshold is classified inside, and
an edge whose two ends have the same classification gets no crossing point:
its variable stays undefined; so it is for the top edge with both values 5 at
threshold 5. -/
theorem equal_classification_no_crossing :
    (∀ v : JsNumber, v ≠ nan → inside v v = 1)
      ∧ (∀ (threshold : JsNumber) (c : Cell) (x y : Nat) (e : Edge),
          inside (c.val e.ends.1) threshold = inside (c.val e.ends.2) threshold →
            cross threshold c x y e = none)
      ∧ (∀ (c : Cell) (x y : Nat), c.vTL = fin 5 → c.vTR = fin 5 →
          inside c.vTL (fin 5) = 1 ∧ inside c.vTR (fin 5) = 1
            ∧ crossTop (fin 5) c x y = none) := by
  refine ⟨?_, ?_, ?_⟩
  · intro v hv
    cases v <;> simp_all [inside, JsNumber.ge]
  · intro threshold c x y e h
    rw [cross_eq_edgePoint]
    simp [h]
  · intro c x y h1 h2
    simp [crossTop, h1, h2, inside, JsNumber.ge]

theorem equal_classification_no_crossing_witness :
    inside (fin 5) (fin 5) = 1
      ∧ cross (fin 5) ⟨fin 5, fin 5, fin 0, fin 0⟩ 0 0 Edge.top = none :=
  ⟨equal_classification_no_crossing.1 (fin 5) (by simp),
   equal_classification_no_crossing.2.1 (fin 5) ⟨fin 5, fin 5, fin 0, fin 0⟩ 0 0 Edge.top rfl⟩

/-! ## Whole fields -/

theorem rowLoop_zero_cols (field : Field) (threshold : JsNumber) :
    ∀ (m y : Nat), rowLoop field threshold 0 m y = some [] := by
  intro m
  induction m with
  | zero => intro y; rfl
  | succ m ih =>
    intro y
    simp [rowLoop, colLoop, ih]

/-- C7: for the field `[[0,0],[0,10]]` and threshold 5 the function returns
exactly one segment, from the bottom crossing `[0.5, 1]` to the right crossing
`[1, 0.5]` (points are `[column, row]`). -/
theorem example_two_by_two :
    marchingSquaresSegments [[fin 0, fin 0], [fin 0, fin 10]] (fin 5)
      = some [((fin (1 / 2), fin 1), (fin 1, fin (1 / 2)))] := by
  have hf : fracQ 5 0 10 = 1 / 2 := by
    unfold fracQ
    norm_num [abs_of_nonneg]
  have hi0 : inside (fin 0) (fin 5) = 0 := by
    simp [inside, JsNumber.ge]
  have hi1 : inside (fin 10) (fin 5) = 1 := by
    simp [inside, JsNumber.ge]
    norm_num
  simp [marchingSquaresSegments, rawSegments, rowLoop, colLoop, readCell, cellSegments,
    caseIndex_eq_sum, hi0, hi1, switchSegs, crossBottom, crossRight, JsNumber.ofNat,
    interp_fin, hf, clean, cleanSeg, JsNumber.isNaN]

/-- C10: a field of a single row, or a field with at least one row whose rows
all have a single column, gives the empty sequence for every threshold,
whatever its values. -/
theorem single_row_or_column_empty (field : Field) (threshold : JsNumber)
    (h : field.length = 1 ∨ (field ≠ [] ∧ ∀ row ∈ field, row.length = 1)) :
    marchingSquaresSegments field threshold = some [] := by
  rcases h with h | ⟨hne, hrow⟩
  · match field, h with
    | [row], _ => rfl
  · match field, hne with
    | row0 :: rest, _ =>
      have hw : row0.length = 1 := hrow row0 (List.mem_cons_self _ _)
      simp [marchingSquaresSegments, rawSegments, hw, rowLoop_zero_cols, clean]

theorem single_row_or_column_empty_witness :
    marchingSquaresSegments [[fin 1, fin 9, fin 3]] (fin 5) = some []
      ∧ marchingSquaresSegments [[fin 1], [fin 9], [fin 3]] (fin 5) = some [] :=
  ⟨single_row_or_column_empty [[fin 1, fin 9, fin 3]] (fin 5) (Or.inl rfl),
   single_row_or_column_empty [[fin 1], [fin 9], [fin 3]] (fin 5)
    (Or.inr ⟨by simp, by simp⟩)⟩

/-! ## Structure of the pushed segments -/

theorem switchSegs_eq_armEdges (f : Edge → Option Point) (idx : Nat) (h : idx ≤ 15) :
    switchSegs idx (f Edge.top) (f Edge.right) (f Edge.bottom) (f Edge.left)
      = (armEdges idx).map (fun p => (f p.1, f p.2)) := by
  interval_cases idx <;> rfl

theorem caseIndex_le (threshold : JsNumber) (c : Cell) : caseIndex threshold c ≤ 15 := by
  have hs := caseIndex_eq_sum threshold c
  have h1 := inside_eq_zero_or_one c.vTL threshold
  have h2 := inside_eq_zero_or_one c.vTR threshold
  have h3 := inside_eq_zero_or_one c.vBR threshold
  have h4 := inside_eq_zero_or_one c.vBL threshold
  omega

/-- The pushes of a cell, arm by arm, as crossing variables of edges. -/
theorem cellSegments_eq_armEdges (threshold : JsNumber) (c : Cell) (x y : Nat) :
    cellSegments threshold c x y
      = (armEdges (caseIndex threshold c)).map
          (fun p => (cross threshold c x y p.1, cross threshold c x y p.2)) := by
  by_cases h0 : caseIndex threshold c = 0
  · simp [cellSegments, h0, armEdges]
  by_cases h15 : caseIndex threshold c = 15
  · simp [cellSegments, h15, armEdges]
  rw [cellSegments_eq_switch threshold c x y h0 h15,
    switchSegs_eq_armEdges (cross threshold c x y) _ (caseIndex_le threshold c)]

/-- Every edge a switch arm uses has its two ends classified differently. -/
theorem armEdges_differ (threshold : JsNumber) (c : Cell) (e1 e2 : Edge)
    (h : (e1, e2) ∈ armEdges (caseIndex threshold c)) :
    inside (c.val e1.ends.1) threshold ≠ inside (c.val e1.ends.2) threshold
      ∧ inside (c.val e2.ends.1) threshold ≠ inside (c.val e2.ends.2) threshold := by
  have hs := caseIndex_eq_sum threshold c
  rcases inside_eq_zero_or_one c.vTL threshold with h1 | h1 <;>
  rcases inside_eq_zero_or_one c.vTR threshold with h2 | h2 <;>
  rcases inside_eq_zero_or_one c.vBR threshold with h3 | h3 <;>
  rcases inside_eq_zero_or_one c.vBL threshold with h4 | h4 <;>
  rw [h1, h2, h3, h4] at hs <;>
  norm_num at hs <;>
  rw [hs] at h <;>
  cases e1 <;> cases e2 <;>
  simp [armEdges] at h <;>
  simp [Edge.ends, Cell.val, h1, h2, h3, h4]

/-- Every entry a cell pushes holds two computed crossing points. -/
theorem mem_cellSegments (threshold : JsNumber) (c : Cell) (x y : Nat) (r : RawSeg)
    (h : r ∈ cellSegments threshold c x y) :
    ∃ e1 e2 : Edge, (e1, e2) ∈ armEdges (caseIndex threshold c)
      ∧ r = (some (edgePoint threshold c x y e1), some (edgePoint threshold c x y e2)) := by
  rw [cellSegments_eq_armEdges, List.mem_map] at h
  obtain ⟨⟨e1, e2⟩, hmem, rfl⟩ := h
  obtain ⟨d1, d2⟩ := armEdges_differ threshold c e1 e2 hmem
  refine ⟨e1, e2, hmem, ?_⟩
  simp only [cross_eq_edgePoint, if_pos d1, if_pos d2]

theorem length_cellSegments_le (threshold : JsNumber) (c : Cell) (x y : Nat) :
    (cellSegments threshold c x y).length ≤ 2 := by
  rw [cellSegments_eq_armEdges, List.length_map]
  have h := caseIndex_le threshold c
  interval_cases (caseIndex threshold c) <;> simp [armEdges]

/-! ## Structure of the pushed segments on doubles -/

/-- The pushes of a cell on doubles: for every cell each switch arm pushes
entries with both ends defined, the crossing points of the arm's edges. -/
theorem cellSegmentsD_eq_points (threshold : JsNumber) (c : Cell) (x y : Nat) :
    cellSegmentsD threshold c x y
      = (armEdges (caseIndex threshold c)).map
          (fun p => (some (edgePointD threshold c x y p.1),
            some (edgePointD threshold c x y p.2))) := by
  by_cases h0 : caseIndex threshold c = 0
  · simp [cellSegmentsD, h0, armEdges]
  by_cases h15 : caseIndex threshold c = 15
  · simp [cellSegmentsD, h15, armEdges]
  rw [cellSegmentsD_eq_switch threshold c x y h0 h15,
    switchSegs_eq_armEdges (crossD threshold c x y) _ (caseIndex_le threshold c)]
  apply List.map_congr_left
  intro p hp
  obtain ⟨d1, d2⟩ := armEdges_differ threshold c p.1 p.2 hp
  rw [crossD_eq_edgePointD, crossD_eq_edgePointD, if_pos d1, if_pos d2]

/-- What the filter keeps of a cell's pushes on doubles: the segments with no
NaN coordinate. -/
theorem clean_cellSegmentsD (threshold : JsNumber) (c : Cell) (x y : Nat) :
    clean (cellSegmentsD threshold c x y)
      = ((armEdges (caseIndex threshold c)).map
          (fun p => (edgePointD threshold c x y p.1, edgePointD threshold c x y p.2))).filter
            noNaN := by
  rw [cellSegmentsD_eq_points, ← clean_map_some, List.map_map]
  rfl

/-- The inner loop on doubles appends the contributions of its cells. -/
theorem colLoopD_eq (field : Field) (threshold : JsNumber) (y : Nat) :
    ∀ (n x : Nat) (segs : List RawSeg), colLoopD field threshold y n x = some segs →
      segs = (List.range n).flatMap (fun i => cellContributionD field threshold (x + i) y) := by
  intro n
  induction n with
  | zero =>
    intro x segs h
    simp only [colLoopD, Option.some.injEq] at h
    simp [← h]
  | succ n ih =>
    intro x segs h
    simp only [colLoopD] at h
    cases hc : readCell field x y with
    | none => simp [hc] at h
    | some c =>
      cases hr : colLoopD field threshold y n (x + 1) with
      | none => simp [hc, hr] at h
      | some rest =>
        simp only [hc, hr, Option.some.injEq] at h
        rw [← h, ih (x + 1) rest hr, List.range_succ_eq_map, List.flatMap_cons,
          List.flatMap_map]
        simp only [cellContributionD, hc, Nat.add_zero, Nat.succ_eq_add_one]
        congr 2
        funext i
        rw [Nat.add_assoc, Nat.add_comm 1 i]

/-- The outer loop on doubles appends the rows of cells. -/
theorem rowLoopD_eq (field : Field) (threshold : JsNumber) (w1 : Nat) :
    ∀ (m y : Nat) (segs : List RawSeg), rowLoopD field threshold w1 m y = some segs →
      segs = (List.range m).flatMap (fun j =>
        (List.range w1).flatMap (fun i => cellContributionD field threshold i (y + j))) := by
  intro m
  induction m with
  | zero =>
    intro y segs h
    simp only [rowLoopD, Option.some.injEq] at h
    simp [← h]
  | succ m ih =>
    intro y segs h
    simp only [rowLoopD] at h
    cases hc : colLoopD field threshold y w1 0 with
    | none => simp [hc] at h
    | some row =>
      cases hr : rowLoopD field threshold w1 m (y + 1) with
      | none => simp [hc, hr] at h
      | some rest =>
        simp only [hc, hr, Option.some.injEq] at h
        rw [← h, ih (y + 1) rest hr, colLoopD_eq field threshold y w1 0 row hc,
          List.range_succ_eq_map, List.flatMap_cons, List.flatMap_map]
        simp only [Nat.add_zero, Nat.zero_add, Nat.succ_eq_add_one]
        congr 2
        funext j
        rw [Nat.add_assoc, Nat.add_comm 1 j]

/-- Every entry of `segs` on doubles was pushed by a cell inside the loop
bounds. -/
theorem mem_rawSegmentsD_bounded (field : Field) (threshold : JsNumber) (raw : List RawSeg)
    (h : rawSegmentsD field threshold = some raw) (r : RawSeg) (hr : r ∈ raw) :
    ∃ (x y : Nat) (c : Cell), x < (field.headD []).length - 1 ∧ y < field.length - 1
      ∧ readCell field x y = some c ∧ r ∈ cellSegmentsD threshold c x y := by
  unfold rawSegmentsD at h
  cases field with
  | nil => simp at h
  | cons row0 rest =>
    simp only [List.getElem?_cons_zero] at h
    rw [rowLoopD_eq _ _ _ _ _ _ h] at hr
    simp only [List.mem_flatMap, List.mem_range] at hr
    obtain ⟨j, hj, i, hi, hmem⟩ := hr
    simp only [cellContributionD, Nat.zero_add] at hmem
    cases hc : readCell (row0 :: rest) i j with
    | none => simp [hc] at hmem
    | some c =>
      simp only [hc] at hmem
      exact ⟨i, j, c, by simpa using hi, hj, hc, hmem⟩

/-- Every segment returned on doubles joins the crossing points of the two
edges of one switch arm of a cell inside the loop bounds, and has no NaN
coordinate. -/
theorem mem_segmentsD_cell (field : Field) (threshold : JsNumber) (segs : List Seg)
    (h : marchingSquaresSegmentsD field threshold = some segs) (s : Seg) (hs : s ∈ segs) :
    ∃ (x y : Nat) (c : Cell) (e1 e2 : Edge),
      x < (field.headD []).length - 1 ∧ y < field.length - 1
        ∧ readCell field x y = some c ∧ (e1, e2) ∈ armEdges (caseIndex threshold c)
        ∧ s = (edgePointD threshold c x y e1, edgePointD threshold c x y e2)
        ∧ noNaN s = true := by
  simp only [marchingSquaresSegmentsD, Option.map_eq_some'] at h
  obtain ⟨raw, hraw, rfl⟩ := h
  simp only [clean, List.mem_filterMap] at hs
  obtain ⟨r, hr, hrs⟩ := hs
  obtain ⟨x, y, c, hx, hy, hc, hmem⟩ := mem_rawSegmentsD_bounded field threshold raw hraw r hr
  rw [cellSegmentsD_eq_points, List.mem_map] at hmem
  obtain ⟨⟨e1, e2⟩, harm, rfl⟩ := hmem
  rw [cleanSeg_some] at hrs
  by_cases hn : noNaN (edgePointD threshold c x y e1, edgePointD threshold c x y e2) = true
  · rw [if_pos hn] at hrs
    simp only [Option.some.injEq] at hrs
    subst hrs
    exact ⟨x, y, c, e1, e2, hx, hy, hc, harm, rfl, hn⟩
  · rw [if_neg hn] at hrs
    cases hrs

/-! ## Termination without error -/

theorem readCell_isSome (field : Field) (x y : Nat) (h : y + 1 < field.length) :
    ∃ c, readCell field x y = some c := by
  unfold readCell
  rw [List.getElem?_eq_getElem (by omega : y < field.length), List.getElem?_eq_getElem h]
  exact ⟨_, rfl⟩

theorem colLoop_isSome (field : Field) (threshold : JsNumber) (y : Nat)
    (h : y + 1 < field.length) :
    ∀ n x : Nat, ∃ segs, colLoop field threshold y n x = some segs := by
  intro n
  induction n with
  | zero => intro x; exact ⟨[], rfl⟩
  | succ n ih =>
    intro x
    obtain ⟨c, hc⟩ := readCell_isSome field x y h
    obtain ⟨rest, hr⟩ := ih (x + 1)
    exact ⟨cellSegments threshold c x y ++ rest, by simp [colLoop, hc, hr]⟩

theorem rowLoop_isSome (field : Field) (threshold : JsNumber) (w1 : Nat) :
    ∀ m y : Nat, y + m < field.length → ∃ segs, rowLoop field threshold w1 m y = some segs := by
  intro m
  induction m with
  | zero => intro y _; exact ⟨[], rfl⟩
  | succ m ih =>
    intro y h
    obtain ⟨row, hc⟩ := colLoop_isSome field threshold y (by omega) w1 0
    obtain ⟨rest, hr⟩ := ih (y + 1) (by omega)
    exact ⟨row ++ rest, by simp [rowLoop, hc, hr]⟩

/-- On a field with at least one row both loops run to their end. -/
theorem rawSegments_isSome (row0 : List JsNumber) (rest : Field) (threshold : JsNumber) :
    ∃ raw, rawSegments (row0 :: rest) threshold = some raw := by
  obtain ⟨raw, h⟩ := rowLoop_isSome (row0 :: rest) threshold (row0.length - 1)
    ((row0 :: rest).length - 1) 0 (by simp)
  exact ⟨raw, by simpa [rawSegments] using h⟩

theorem interpT_eq_divisor (threshold av bv : JsNumber) :
    interpT threshold av bv
      = match interpDivisor av bv with
        | none => fin (1 / 2)
        | some d => (threshold.sub av).div d := by
  simp only [interpT, interpDivisor]
  by_cases h : ((bv.sub av).abs).lt eps = true <;> simp [h]

/-- C11: on a field with at least one row whose height is less than 2 or whose
first row has fewer than 2 entries (empty rows included) the function returns
the empty sequence and raises no error. -/
theorem degenerate_shape_empty (row0 : List JsNumber) (rest : Field) (threshold : JsNumber)
    (h : (row0 :: rest).length < 2 ∨ row0.length < 2) :
    marchingSquaresSegments (row0 :: rest) threshold = some [] := by
  rcases h with h | h
  · have hrest : rest = [] := by
      cases rest with
      | nil => rfl
      | cons r rs =>
        simp only [List.length_cons] at h
        omega
    subst hrest
    rfl
  · have hw : row0.length - 1 = 0 := by omega
    simp [marchingSquaresSegments, rawSegments, hw, rowLoop_zero_cols, clean]

theorem degenerate_shape_empty_witness :
    marchingSquaresSegments [[], []] (fin 5) = some []
      ∧ marchingSquaresSegments [[fin 1, fin 9, fin 3]] (fin 5) = some [] :=
  ⟨degenerate_shape_empty [] [[]] (fin 5) (Or.inr (by simp)),
   degenerate_shape_empty [fin 1, fin 9, fin 3] [] (fin 5) (Or.inl (by simp))⟩

/-- C11, the failing input: on a field with zero rows `field[0].length` throws,
so no empty sequence is returned. -/
theorem zero_rows_throws :
    marchingSquaresSegments [] (fin 5) = none
      ∧ marchingSquaresSegments [] (fin 5) ≠ some [] := by
  constructor
  · rfl
  · intro h
    cases h

/-- C12: on a rectangular field of height and width at least 2 the function
returns a result; each of the four corner reads of every cell the loops visit
is within bounds; and the division in `interp` never has a zero divisor. -/
theorem rectangular_no_error (field : Field) (threshold : JsNumber) (w : Nat)
    (hh : 2 ≤ field.length) (hw : 2 ≤ w) (hrect : ∀ row ∈ field, row.length = w) :
    (∃ segs, marchingSquaresSegments field threshold = some segs)
      ∧ (∃ raw, rowLoop field threshold (w - 1) (field.length - 1) 0 = some raw
          ∧ rawSegments field threshold = some raw)
      ∧ (∀ y x : Nat, y < field.length - 1 → x < w - 1 →
          ∃ a b c d : JsNumber, entry field y x = some a ∧ entry field y (x + 1) = some b
            ∧ entry field (y + 1) (x + 1) = some c ∧ entry field (y + 1) x = some d
            ∧ readCell field x y = some ⟨a, b, c, d⟩)
      ∧ (∀ av bv : JsNumber, interpDivisor av bv ≠ some (fin 0))
      ∧ (∀ av bv : JsNumber, interpT threshold av bv
          = match interpDivisor av bv with
            | none => fin (1 / 2)
            | some d => (threshold.sub av).div d) := by
  refine ⟨?_, ?_, ?_, ?_, interpT_eq_divisor threshold⟩
  · cases field with
    | nil => simp at hh
    | cons row0 rest =>
      obtain ⟨raw, h⟩ := rawSegments_isSome row0 rest threshold
      exact ⟨clean raw, by simp [marchingSquaresSegments, h]⟩
  · cases field with
    | nil => simp at hh
    | cons row0 rest =>
      obtain ⟨raw, h⟩ := rawSegments_isSome row0 rest threshold
      have hw0 : row0.length = w := hrect row0 (List.mem_cons_self _ _)
      refine ⟨raw, ?_, h⟩
      simpa [rawSegments, hw0] using h
  · intro y x hy hx
    obtain ⟨rowT, hrT⟩ : ∃ r, field[y]? = some r :=
      ⟨_, List.getElem?_eq_getElem (by omega : y < field.length)⟩
    obtain ⟨rowB, hrB⟩ : ∃ r, field[y + 1]? = some r :=
      ⟨_, List.getElem?_eq_getElem (by omega : y + 1 < field.length)⟩
    have hlT : rowT.length = w := hrect rowT (List.getElem?_mem hrT)
    have hlB : rowB.length = w := hrect rowB (List.getElem?_mem hrB)
    obtain ⟨a, ha⟩ : ∃ a, rowT[x]? = some a :=
      ⟨_, List.getElem?_eq_getElem (by omega : x < rowT.length)⟩
    obtain ⟨b, hb⟩ : ∃ b, rowT[x + 1]? = some b :=
      ⟨_, List.getElem?_eq_getElem (by omega : x + 1 < rowT.length)⟩
    obtain ⟨c, hc⟩ : ∃ c, rowB[x + 1]? = some c :=
      ⟨_, List.getElem?_eq_getElem (by omega : x + 1 < rowB.length)⟩
    obtain ⟨d, hd⟩ : ∃ d, rowB[x]? = some d :=
      ⟨_, List.getElem?_eq_getElem (by omega : x < rowB.length)⟩
    refine ⟨a, b, c, d, ?_, ?_, ?_, ?_, ?_⟩
    · simp [entry, hrT, ha]
    · simp [entry, hrT, hb]
    · simp [entry, hrB, hc]
    · simp [entry, hrB, hd]
    · simp [readCell, hrT, hrB, ha, hb, hc, hd]
  · intro av bv h
    simp only [interpDivisor] at h
    by_cases hlt : ((bv.sub av).abs).lt eps = true
    · simp [hlt] at h
    · simp only [hlt, Bool.false_eq_true, if_false, Option.some.injEq] at h
      rw [h] at hlt
      simp [JsNumber.abs, JsNumber.lt, eps] at hlt

theorem rectangular_no_error_witness :
    ∃ segs, marchingSquaresSegments [[fin 0, fin 0], [fin 0, fin 10]] (fin 5) = some segs :=
  (rectangular_no_error [[fin 0, fin 0], [fin 0, fin 10]] (fin 5) 2 (by simp) (by norm_num)
    (by simp)).1

/-! ## What the filter lets through -/

/-- Along an edge of the grid one coordinate does not move; when neither
coordinate of the point `interp` returns is NaN, both are finite. -/
theorem interp_axis_finite (threshold av bv : JsNumber) (ax ay bx by_ : ℚ)
    (hax : bx - ax = 0 ∨ by_ - ay = 0)
    (h1 : (interp threshold (fin ax) (fin ay) av (fin bx) (fin by_) bv).1.isNaN = false)
    (h2 : (interp threshold (fin ax) (fin ay) av (fin bx) (fin by_) bv).2.isNaN = false) :
    (interp threshold (fin ax) (fin ay) av (fin bx) (fin by_) bv).1.isFinite = true
      ∧ (interp threshold (fin ax) (fin ay) av (fin bx) (fin by_) bv).2.isFinite = true := by
  simp only [interp] at h1 h2 ⊢
  generalize interpT threshold av bv = f at h1 h2 ⊢
  rcases hax with h | h <;> cases f <;>
    simp [JsNumber.sub, JsNumber.mul, JsNumber.add, JsNumber.isNaN, JsNumber.isFinite, h]
      at h1 h2 ⊢

theorem edgePoint_finite_of_not_nan (threshold : JsNumber) (c : Cell) (x y : Nat) (e : Edge)
    (h1 : (edgePoint threshold c x y e).1.isNaN = false)
    (h2 : (edgePoint threshold c x y e).2.isNaN = false) :
    (edgePoint threshold c x y e).1.isFinite = true
      ∧ (edgePoint threshold c x y e).2.isFinite = true := by
  cases e
  · exact interp_axis_finite threshold c.vTL c.vTR x y ((x + 1 : ℕ) : ℚ) y
      (Or.inr (sub_self _)) h1 h2
  · exact interp_axis_finite threshold c.vTR c.vBR ((x + 1 : ℕ) : ℚ) y ((x + 1 : ℕ) : ℚ)
      ((y + 1 : ℕ) : ℚ) (Or.inl (sub_self _)) h1 h2
  · exact interp_axis_finite threshold c.vBL c.vBR x ((y + 1 : ℕ) : ℚ) ((x + 1 : ℕ) : ℚ)
      ((y + 1 : ℕ) : ℚ) (Or.inr (sub_self _)) h1 h2
  · exact interp_axis_finite threshold c.vTL c.vBL x y x ((y + 1 : ℕ) : ℚ)
      (Or.inl (sub_self _)) h1 h2

theorem cleanSeg_eq_some (r : RawSeg) (s : Seg) (h : cleanSeg r = some s) :
    r = (some s.1, some s.2) ∧ s.1.1.isNaN = false ∧ s.1.2.isNaN = false
      ∧ s.2.1.isNaN = false ∧ s.2.2.isNaN = false := by
  obtain ⟨a, b⟩ := r
  cases a with
  | none => simp [cleanSeg] at h
  | some a =>
    cases b with
    | none => simp [cleanSeg] at h
    | some b =>
      simp only [cleanSeg] at h
      split at h
      · cases h
      · rename_i hn
        simp only [Option.some.injEq] at h
        subst h
        simpa [and_assoc] using hn

/-- Every entry of `segs` was pushed by a cell the loops visited. -/
theorem mem_rawSegments (field : Field) (threshold : JsNumber) (raw : List RawSeg)
    (h : rawSegments field threshold = some raw) (r : RawSeg) (hr : r ∈ raw) :
    ∃ (x y : Nat) (c : Cell), readCell field x y = some c ∧ r ∈ cellSegments threshold c x y := by
  unfold rawSegments at h
  cases h0 : field[0]? with
  | none => simp [h0] at h
  | some row0 =>
    simp only [h0] at h
    rw [rowLoop_eq _ _ _ _ _ _ h] at hr
    simp only [List.mem_flatMap, List.mem_range] at hr
    obtain ⟨j, _, i, _, hmem⟩ := hr
    simp only [cellContribution, Nat.zero_add] at hmem
    cases hc : readCell field i j with
    | none => simp [hc] at hmem
    | some c =>
      simp only [hc] at hmem
      exact ⟨i, j, c, hc, hmem⟩

/-- What the filter keeps of a cell's pushes has four finite coordinates. -/
theorem cleanSeg_cell_finite (threshold : JsNumber) (c : Cell) (x y : Nat) (r : RawSeg)
    (s : Seg) (hr : r ∈ cellSegments threshold c x y) (hs : cleanSeg r = some s) :
    s.1.1.isFinite = true ∧ s.1.2.isFinite = true
      ∧ s.2.1.isFinite = true ∧ s.2.2.isFinite = true := by
  obtain ⟨e1, e2, _, hre⟩ := mem_cellSegments threshold c x y r hr
  obtain ⟨hrs, n1, n2, n3, n4⟩ := cleanSeg_eq_some r s hs
  rw [hre] at hrs
  simp only [Prod.mk.injEq, Option.some.injEq] at hrs
  obtain ⟨hp, hq⟩ := hrs
  rw [← hp] at n1 n2 ⊢
  rw [← hq] at n3 n4 ⊢
  obtain ⟨f1, f2⟩ := edgePoint_finite_of_not_nan threshold c x y e1 n1 n2
  obtain ⟨f3, f4⟩ := edgePoint_finite_of_not_nan threshold c x y e2 n3 n4
  exact ⟨f1, f2, f3, f4⟩

/-- C13: whatever the field holds (NaN and infinities included), every
returned segment comes from an entry of `segs` with both endpoints defined and
has four finite coordinates; an entry of `segs` with an undefined endpoint or a
coordinate that is not finite is dropped by the final filter. -/
theorem returned_segments_finite (field : Field) (threshold : JsNumber) (raw : List RawSeg)
    (h : rawSegments field threshold = some raw) :
    marchingSquaresSegments field threshold = some (clean raw)
      ∧ (∀ s ∈ clean raw, (some s.1, some s.2) ∈ raw
          ∧ s.1.1.isFinite = true ∧ s.1.2.isFinite = true
          ∧ s.2.1.isFinite = true ∧ s.2.2.isFinite = true)
      ∧ (∀ r ∈ raw,
          (r.1 = none ∨ r.2 = none
            ∨ ∃ p : Point, (r.1 = some p ∨ r.2 = some p)
                ∧ (p.1.isFinite = false ∨ p.2.isFinite = false)) →
          cleanSeg r = none) := by
  refine ⟨by simp [marchingSquaresSegments, h], ?_, ?_⟩
  · intro s hs
    simp only [clean, List.mem_filterMap] at hs
    obtain ⟨r, hr, hrs⟩ := hs
    obtain ⟨x, y, c, _, hmem⟩ := mem_rawSegments field threshold raw h r hr
    have hfin := cleanSeg_cell_finite threshold c x y r s hmem hrs
    have hr2 := (cleanSeg_eq_some r s hrs).1
    rw [hr2] at hr
    exact ⟨hr, hfin⟩
  · intro r hr hbad
    obtain ⟨x, y, c, _, hmem⟩ := mem_rawSegments field threshold raw h r hr
    cases hcs : cleanSeg r with
    | none => rfl
    | some s =>
      exfalso
      obtain ⟨f1, f2, f3, f4⟩ := cleanSeg_cell_finite threshold c x y r s hmem hcs
      have hr2 := (cleanSeg_eq_some r s hcs).1
      rw [hr2] at hbad
      rcases hbad with hb | hb | ⟨p, hp, hnf⟩
      · cases hb
      · cases hb
      · rcases hp with hp | hp <;>
          simp only [Option.some.injEq] at hp <;>
          subst hp <;>
          rcases hnf with hnf | hnf <;>
          simp_all

theorem returned_segments_finite_witness :
    marchingSquaresSegments [[fin 0, pinf, fin 0], [fin 0, fin 10, nan]] (fin 5)
      = some (clean [(some (fin 0, fin 0), some (fin (1 / 2), fin 1)),
          (some (nan, nan), some (nan, nan))]) :=
  (returned_segments_finite [[fin 0, pinf, fin 0], [fin 0, fin 10, nan]] (fin 5)
    [(some (fin 0, fin 0), some (fin (1 / 2), fin 1)), (some (nan, nan), some (nan, nan))]
    (by
      have hf : fracQ 5 0 10 = 1 / 2 := by
        unfold fracQ
        norm_num [abs_of_nonneg]
      have hi0 : inside (fin 0) (fin 5) = 0 := by
        simp [inside, JsNumber.ge]
      have hi1 : inside (fin 10) (fin 5) = 1 := by
        simp [inside, JsNumber.ge]
        norm_num
      have hi2 : inside pinf (fin 5) = 1 := by
        simp [inside, JsNumber.ge]
      have hi3 : inside nan (fin 5) = 0 := by
        simp [inside, JsNumber.ge]
      simp [rawSegments, rowLoop, colLoop, readCell, cellSegments,
        caseIndex_eq_sum, hi0, hi1, hi2, hi3, switchSegs, crossTop, crossBottom, JsNumber.ofNat,
        interp_fin, hf, interp, interpT, JsNumber.sub, JsNumber.abs, JsNumber.lt, JsNumber.div,
        JsNumber.mul, JsNumber.add, eps]
      norm_num [JsNumber.mul, JsNumber.add])).1

/-! ## How many segments -/

theorem length_flatMap_range_le {α : Type} (f : Nat → List α) (b : Nat)
    (hf : ∀ i, (f i).length ≤ b) :
    ∀ n : Nat, ((List.range n).flatMap f).length ≤ n * b := by
  intro n
  induction n with
  | zero => simp
  | succ n ih =>
    rw [List.range_succ, List.flatMap_append, List.length_append, Nat.succ_mul]
    have := hf n
    simp only [List.flatMap_cons, List.flatMap_nil, List.append_nil]
    omega

theorem length_clean_cellContribution_le (field : Field) (threshold : JsNumber) (x y : Nat) :
    (clean (cellContribution field threshold x y)).length ≤ 2 := by
  refine le_trans (List.length_filterMap_le _ _) ?_
  unfold cellContribution
  split
  · exact length_cellSegments_le _ _ _ _
  · simp

/-- C17: each cell contributes at most 2 segments, and on a field of height
`h >= 1` whose first row has `w` entries the function returns a sequence of
length at most `2*(h-1)*(w-1)`. -/
theorem segment_count_bound (row0 : List JsNumber) (rest : Field) (threshold : JsNumber) :
    (∀ (c : Cell) (x y : Nat), (cellSegments threshold c x y).length ≤ 2
        ∧ (clean (cellSegments threshold c x y)).length ≤ 2)
      ∧ ∃ segs, marchingSquaresSegments (row0 :: rest) threshold = some segs
          ∧ segs.length ≤ 2 * ((row0 :: rest).length - 1) * (row0.length - 1) := by
  refine ⟨fun c x y => ⟨length_cellSegments_le _ _ _ _,
    le_trans (List.length_filterMap_le _ _) (length_cellSegments_le _ _ _ _)⟩, ?_⟩
  obtain ⟨raw, hraw⟩ := rawSegments_isSome row0 rest threshold
  have hm : marchingSquaresSegments (row0 :: rest) threshold = some (clean raw) := by
    simp [marchingSquaresSegments, hraw]
  refine ⟨clean raw, hm, ?_⟩
  rw [marchingSquaresSegments_eq_cells row0 rest threshold (clean raw) hm]
  have hin : ∀ y, ((List.range (row0.length - 1)).flatMap (fun x =>
      clean (cellContribution (row0 :: rest) threshold x y))).length
        ≤ (row0.length - 1) * 2 :=
    fun y => length_flatMap_range_le _ 2
      (fun x => length_clean_cellContribution_le _ _ x y) _
  have hout := length_flatMap_range_le _ _ hin rest.length
  simp only [List.length_cons, Nat.add_sub_cancel]
  calc _ ≤ rest.length * ((row0.length - 1) * 2) := hout
    _ = 2 * rest.length * (row0.length - 1) := by ring

/-! ## Flat cells -/

theorem cellSegments_flat (threshold : JsNumber) (c : Cell) (x y : Nat) (h : c.flat) :
    cellSegments threshold c x y = [] := by
  obtain ⟨vTL, vTR, vBR, vBL⟩ := c
  obtain ⟨h1, h2, h3⟩ := h
  simp only at h1 h2 h3
  subst h1 h2 h3
  rcases inside_eq_zero_or_one vTL threshold with hi | hi <;>
    simp [cellSegments, caseIndex_eq_sum, hi]

theorem cellSegments_defined (threshold : JsNumber) (c : Cell) (x y : Nat) (r : RawSeg)
    (hr : r ∈ cellSegments threshold c x y) : r.1.isSome = true ∧ r.2.isSome = true := by
  obtain ⟨e1, e2, _, rfl⟩ := mem_cellSegments threshold c x y r hr
  exact ⟨rfl, rfl⟩

/-- C19 as amended: a cell whose four corner values are all equal pushes no
segment at all, and every segment the case switch pushes, for any cell, has
both endpoints defined; what the final filter removes has a NaN coordinate. -/
theorem flat_cell_pushes_nothing (threshold : JsNumber) (c : Cell) (x y : Nat) :
    (c.flat → cellSegments threshold c x y = [])
      ∧ (∀ r ∈ cellSegments threshold c x y, r.1.isSome = true ∧ r.2.isSome = true)
      ∧ (∀ r ∈ cellSegments threshold c x y, cleanSeg r = none →
          ∃ p : Point, (r.1 = some p ∨ r.2 = some p)
            ∧ (p.1.isNaN = true ∨ p.2.isNaN = true)) := by
  refine ⟨cellSegments_flat threshold c x y, cellSegments_defined threshold c x y, ?_⟩
  intro r hr hcs
  obtain ⟨e1, e2, _, rfl⟩ := mem_cellSegments threshold c x y r hr
  simp only [cleanSeg, ite_eq_left_iff, reduceCtorEq, imp_false, not_not, Bool.or_eq_true] at hcs
  rcases hcs with ((h | h) | h) | h
  · exact ⟨_, Or.inl rfl, Or.inl h⟩
  · exact ⟨_, Or.inl rfl, Or.inr h⟩
  · exact ⟨_, Or.inr rfl, Or.inl h⟩
  · exact ⟨_, Or.inr rfl, Or.inr h⟩

theorem flat_cell_pushes_nothing_witness :
    cellSegments (fin 5) ⟨fin 7, fin 7, fin 7, fin 7⟩ 0 0 = [] :=
  (flat_cell_pushes_nothing (fin 5) ⟨fin 7, fin 7, fin 7, fin 7⟩ 0 0).1 ⟨rfl, rfl, rfl⟩

/-- C19 as stated fails: no field and threshold make a cell with four equal
corner values push a segment with an undefined endpoint. -/
theorem no_undefined_endpoint_on_flat_cell :
    ¬ ∃ (field : Field) (threshold : JsNumber) (x y : Nat) (c : Cell),
        readCell field x y = some c ∧ c.flat
          ∧ ∃ r ∈ cellSegments threshold c x y, r.1 = none ∨ r.2 = none := by
  rintro ⟨field, threshold, x, y, c, _, hflat, r, hr, _⟩
  rw [cellSegments_flat threshold c x y hflat] at hr
  cases hr

/-! ## Changing every value of the field -/

theorem getD_map_nan (f : JsNumber → JsNumber) (hf : f nan = nan) (row : List JsNumber)
    (x : Nat) : (row.map f).getD x nan = f (row.getD x nan) := by
  simp only [List.getD_eq_getElem?_getD, List.getElem?_map]
  cases row[x]? <;> simp [hf]

theorem readCell_map (f : JsNumber → JsNumber) (hf : f nan = nan) (field : Field) (x y : Nat) :
    readCell (field.map (fun row => row.map f)) x y = (readCell field x y).map (Cell.map f) := by
  unfold readCell
  simp only [List.getElem?_map]
  cases field[y]? <;> cases field[y + 1]? <;>
    simp only [Option.map_none', Option.map_some', Cell.map, getD_map_nan f hf]

theorem Cell.val_map (f : JsNumber → JsNumber) (c : Cell) (k : Corner) :
    (Cell.map f c).val k = f (c.val k) := by
  cases k <;> rfl

/-- The inner loop gives the same entries on two fields whose visited cells
push the same entries. -/
theorem colLoop_congr (field field2 : Field) (t t2 : JsNumber) (y : Nat)
    (f : JsNumber → JsNumber)
    (hread : ∀ x, readCell field2 x y = (readCell field x y).map (Cell.map f)) :
    ∀ n x : Nat,
      (∀ i, i < n → ∀ c, readCell field (x + i) y = some c →
        cellSegments t2 (Cell.map f c) (x + i) y = cellSegments t c (x + i) y) →
      colLoop field2 t2 y n x = colLoop field t y n x := by
  intro n
  induction n with
  | zero => intro x _; rfl
  | succ n ih =>
    intro x h
    have hrec : colLoop field2 t2 y n (x + 1) = colLoop field t y n (x + 1) := by
      apply ih
      intro i hi c hc
      have := h (i + 1) (by omega) c (by rw [← hc]; congr 1; omega)
      rw [show x + 1 + i = x + (i + 1) by omega]
      exact this
    simp only [colLoop, hread x, hrec]
    cases hc : readCell field x y with
    | none => rfl
    | some c =>
      have := h 0 (by omega) c (by simpa using hc)
      simp only [Nat.add_zero] at this
      simp [this]

theorem rowLoop_congr (field field2 : Field) (t t2 : JsNumber) (w1 : Nat)
    (f : JsNumber → JsNumber)
    (hread : ∀ x y, readCell field2 x y = (readCell field x y).map (Cell.map f)) :
    ∀ m y : Nat,
      (∀ j, j < m → ∀ i, i < w1 → ∀ c, readCell field i (y + j) = some c →
        cellSegments t2 (Cell.map f c) i (y + j) = cellSegments t c i (y + j)) →
      rowLoop field2 t2 w1 m y = rowLoop field t w1 m y := by
  intro m
  induction m with
  | zero => intro y _; rfl
  | succ m ih =>
    intro y h
    have hrec : rowLoop field2 t2 w1 m (y + 1) = rowLoop field t w1 m (y + 1) := by
      apply ih
      intro j hj i hi c hc
      have := h (j + 1) (by omega) i hi c (by rw [← hc]; congr 1; omega)
      rw [show y + 1 + j = y + (j + 1) by omega]
      exact this
    have hcol : colLoop field2 t2 y w1 0 = colLoop field t y w1 0 := by
      apply colLoop_congr field field2 t t2 y f (fun x => hread x y)
      intro i hi c hc
      have := h 0 (by omega) i hi c (by simpa using hc)
      simpa using this
    simp only [rowLoop, hcol, hrec]

/-- The function gives the same result on the field with `f` applied to every
value, with threshold `t2`, as on the field itself with threshold `t`, when
every cell the loops visit pushes the same entries. -/
theorem marchingSquaresSegments_congr (field : Field) (t t2 : JsNumber)
    (f : JsNumber → JsNumber) (hf : f nan = nan)
    (h : ∀ y x : Nat, y < field.length - 1 → x < (field.headD []).length - 1 →
      ∀ c, readCell field x y = some c →
        cellSegments t2 (Cell.map f c) x y = cellSegments t c x y) :
    marchingSquaresSegments (field.map (fun row => row.map f)) t2
      = marchingSquaresSegments field t := by
  cases field with
  | nil => rfl
  | cons row0 rest =>
    simp only [marchingSquaresSegments, rawSegments, List.map_cons, List.getElem?_cons_zero,
      List.length_cons, List.length_map, Nat.add_sub_cancel]
    congr 1
    have := rowLoop_congr (row0 :: rest) ((row0 :: rest).map (fun row => row.map f)) t t2
      (row0.length - 1) f (readCell_map f hf (row0 :: rest)) rest.length 0
      (by
        intro j hj i hi c hc
        simp only [Nat.zero_add] at hc ⊢
        exact h j i (by simpa using hj) (by simpa using hi) c hc)
    simpa using this

/-- A cell pushes the same entries after `f` is applied to its corner values
when `f` keeps every classification and the crossing fraction of every edge
whose ends are classified differently. -/
theorem cellSegments_map (t t2 : JsNumber) (f : JsNumber → JsNumber) (c : Cell) (x y : Nat)
    (hin : ∀ v, inside (f v) t2 = inside v t)
    (hT : ∀ e : Edge, inside (c.val e.ends.1) t ≠ inside (c.val e.ends.2) t →
      interpT t2 (f (c.val e.ends.1)) (f (c.val e.ends.2))
        = interpT t (c.val e.ends.1) (c.val e.ends.2)) :
    caseIndex t2 (Cell.map f c) = caseIndex t c
      ∧ cellSegments t2 (Cell.map f c) x y = cellSegments t c x y := by
  have hidx : caseIndex t2 (Cell.map f c) = caseIndex t c := by
    simp only [caseIndex, Cell.map, hin]
  refine ⟨hidx, ?_⟩
  rw [cellSegments_eq_armEdges, cellSegments_eq_armEdges, hidx]
  apply List.map_congr_left
  rintro ⟨e1, e2⟩ hmem
  obtain ⟨d1, d2⟩ := armEdges_differ t c e1 e2 hmem
  have hcross : ∀ e : Edge, inside (c.val e.ends.1) t ≠ inside (c.val e.ends.2) t →
      cross t2 (Cell.map f c) x y e = cross t c x y e := by
    intro e hd
    have hd2 : inside ((Cell.map f c).val e.ends.1) t2
        ≠ inside ((Cell.map f c).val e.ends.2) t2 := by
      simpa only [Cell.val_map, hin] using hd
    rw [cross_eq_edgePoint, cross_eq_edgePoint, if_pos hd, if_pos hd2]
    simp only [edgePoint, interp, Cell.val_map, hT e hd]
  simp only [hcross e1 d1, hcross e2 d2]

/-! ### Adding a constant -/

theorem sub_add_fin (a b : JsNumber) (c : ℚ) :
    (b.add (fin c)).sub (a.add (fin c)) = b.sub a := by
  cases a <;> cases b <;> simp [JsNumber.add, JsNumber.sub]

theorem ge_add_fin (v t : JsNumber) (c : ℚ) :
    (v.add (fin c)).ge (t.add (fin c)) = v.ge t := by
  cases v <;> cases t <;> simp [JsNumber.add, JsNumber.ge]

theorem interpT_add_fin (t a b : JsNumber) (c : ℚ) :
    interpT (t.add (fin c)) (a.add (fin c)) (b.add (fin c)) = interpT t a b := by
  simp only [interpT, sub_add_fin]

/-- C16: adding a constant `c` to every value of the field and to the
threshold leaves the returned sequence unchanged (exact arithmetic). -/
theorem shift_invariant (field : Field) (threshold : JsNumber) (c : ℚ) :
    marchingSquaresSegments (shiftField c field) (threshold.add (fin c))
      = marchingSquaresSegments field threshold := by
  unfold shiftField
  apply marchingSquaresSegments_congr field threshold (threshold.add (fin c))
    (fun v => v.add (fin c)) rfl
  intro y x _ _ cell _
  refine (cellSegments_map threshold (threshold.add (fin c)) (fun v => v.add (fin c)) cell x y
    ?_ ?_).2
  · intro v
    simp only [inside, ge_add_fin]
  · intro e _
    exact interpT_add_fin _ _ _ c

/-! ### Multiplying by a positive factor -/

theorem sub_mul_fin (k : ℚ) (hk : 0 < k) (a b : JsNumber) :
    ((fin k).mul b).sub ((fin k).mul a) = (fin k).mul (b.sub a) := by
  have hk0 : k ≠ 0 := hk.ne.symm
  cases a <;> cases b <;> simp [JsNumber.mul, JsNumber.sub, hk, hk0, mul_sub]

theorem ge_mul_fin (k : ℚ) (hk : 0 < k) (v t : JsNumber) :
    ((fin k).mul v).ge ((fin k).mul t) = v.ge t := by
  have hk0 : k ≠ 0 := hk.ne.symm
  cases v <;> cases t <;> simp [JsNumber.mul, JsNumber.ge, hk, hk0]

theorem div_mul_fin (k : ℚ) (hk : 0 < k) (n d : JsNumber) :
    ((fin k).mul n).div ((fin k).mul d) = n.div d := by
  have hk0 : k ≠ 0 := hk.ne.symm
  cases n with
  | fin n =>
    cases d with
    | fin d =>
      by_cases hd : d = 0
      · simp [JsNumber.mul, JsNumber.div, hk, hk0, hd, mul_pos_iff_of_pos_left]
      · simp [JsNumber.mul, JsNumber.div, hk, hk0, hd, mul_div_mul_left]
    | pinf => simp [JsNumber.mul, JsNumber.div, hk, hk0]
    | ninf => simp [JsNumber.mul, JsNumber.div, hk, hk0]
    | nan => simp [JsNumber.mul, JsNumber.div]
  | pinf =>
    cases d <;> simp [JsNumber.mul, JsNumber.div, hk, hk0, mul_nonneg_iff_of_pos_left]
  | ninf =>
    cases d <;> simp [JsNumber.mul, JsNumber.div, hk, hk0, mul_nonneg_iff_of_pos_left]
  | nan => cases d <;> simp [JsNumber.mul, JsNumber.div]

theorem interpT_mul_fin (k : ℚ) (hk : 0 < k) (t a b : JsNumber)
    (h : nearFlat ((fin k).mul a) ((fin k).mul b) = nearFlat a b) :
    interpT ((fin k).mul t) ((fin k).mul a) ((fin k).mul b) = interpT t a b := by
  simp only [nearFlat] at h
  simp only [interpT, h]
  split
  · rfl
  · rw [sub_mul_fin k hk, sub_mul_fin k hk, div_mul_fin k hk]

/-- The field `[[a, b], [a, b]]` with `a` below the threshold and `b` not: one
segment from the top crossing to the bottom crossing. -/
theorem two_columns_segment (a b t : ℚ) (ha : a < t) (hb : t ≤ b) :
    marchingSquaresSegments [[fin a, fin b], [fin a, fin b]] (fin t)
      = some [((fin (fracQ t a b), fin 0), (fin (fracQ t a b), fin 1))] := by
  have hi0 : inside (fin a) (fin t) = 0 := by
    simp [inside, JsNumber.ge, ha]
  have hi1 : inside (fin b) (fin t) = 1 := by
    simp [inside, JsNumber.ge, hb]
  simp [marchingSquaresSegments, rawSegments, rowLoop, colLoop, readCell, cellSegments,
    caseIndex_eq_sum, hi0, hi1, switchSegs, crossTop, crossBottom, JsNumber.ofNat,
    interp_fin, clean, cleanSeg, JsNumber.isNaN]

/-- C15 as amended: over exact arithmetic (no rounding, no overflow),
multiplying every value of the field and the threshold by a positive factor
`k` keeps the case index of every cell, and it keeps the
returned sequence when, on every edge of a visited cell whose ends are
classified differently, the test `|b - a| < 1e-6` of `interp` has the same
outcome for the scaled values as for the original ones. -/
theorem scale_invariant_of_same_eps_test (field : Field) (threshold : JsNumber) (k : ℚ)
    (hk : 0 < k)
    (h : ∀ y x : Nat, y < field.length - 1 → x < (field.headD []).length - 1 →
      ∀ c, readCell field x y = some c → ∀ e : Edge,
        inside (c.val e.ends.1) threshold ≠ inside (c.val e.ends.2) threshold →
        nearFlat ((fin k).mul (c.val e.ends.1)) ((fin k).mul (c.val e.ends.2))
          = nearFlat (c.val e.ends.1) (c.val e.ends.2)) :
    (∀ c : Cell, caseIndex ((fin k).mul threshold) (Cell.map (fun v => (fin k).mul v) c)
        = caseIndex threshold c)
      ∧ marchingSquaresSegments (scaleField k field) ((fin k).mul threshold)
          = marchingSquaresSegments field threshold := by
  have hin : ∀ v, inside ((fin k).mul v) ((fin k).mul threshold) = inside v threshold := by
    intro v
    simp only [inside, ge_mul_fin k hk]
  refine ⟨fun c => by simp only [caseIndex, Cell.map, hin], ?_⟩
  unfold scaleField
  apply marchingSquaresSegments_congr field threshold ((fin k).mul threshold)
    (fun v => (fin k).mul v) (by simp [JsNumber.mul])
  intro y x hy hx cell hcell
  refine (cellSegments_map threshold ((fin k).mul threshold) (fun v => (fin k).mul v) cell x y
    hin ?_).2
  intro e hd
  exact interpT_mul_fin k hk _ _ _ (h y x hy hx cell hcell e hd)

theorem scale_invariant_of_same_eps_test_witness :
    marchingSquaresSegments (scaleField 2 [[fin 0, fin 0], [fin 0, fin 10]]) ((fin 2).mul (fin 5))
      = marchingSquaresSegments [[fin 0, fin 0], [fin 0, fin 10]] (fin 5) :=
  (scale_invariant_of_same_eps_test [[fin 0, fin 0], [fin 0, fin 10]] (fin 5) 2 (by norm_num)
    (by
      intro y x hy hx c hc e _
      have hy0 : y = 0 := by simpa using hy
      have hx0 : x = 0 := by simpa using hx
      subst hy0 hx0
      simp only [readCell, List.getElem?_cons_zero, Nat.zero_add, List.getElem?_cons_succ,
        Option.some.injEq] at hc
      subst hc
      cases e <;>
        simp [nearFlat, Cell.val, Edge.ends, JsNumber.mul, JsNumber.sub, JsNumber.abs,
          JsNumber.lt, eps] <;>
        norm_num [abs_of_nonneg])).2

/-- C15 as stated fails: with values 0 and 5e-7 and threshold 5e-7 the edges
crossed fall under the `1e-6` test and give the midpoint, while after scaling
by 10 they do not and give the end of the edge. -/
theorem scale_changes_segments :
    marchingSquaresSegments
        (scaleField 10 [[fin 0, fin (1 / 2000000)], [fin 0, fin (1 / 2000000)]])
        ((fin 10).mul (fin (1 / 2000000)))
      ≠ marchingSquaresSegments [[fin 0, fin (1 / 2000000)], [fin 0, fin (1 / 2000000)]]
          (fin (1 / 2000000)) := by
  have hs : scaleField 10 [[fin 0, fin (1 / 2000000)], [fin 0, fin (1 / 2000000)]]
      = [[fin 0, fin (1 / 200000)], [fin 0, fin (1 / 200000)]] := by
    simp only [scaleField, List.map_cons, List.map_nil, JsNumber.mul]
    norm_num
  have ht : (fin 10).mul (fin (1 / 2000000)) = fin (1 / 200000) := by
    simp only [JsNumber.mul]
    norm_num
  have hf1 : fracQ (1 / 200000) 0 (1 / 200000) = 1 := by
    unfold fracQ
    norm_num [abs_of_nonneg]
  have hf2 : fracQ (1 / 2000000) 0 (1 / 2000000) = 1 / 2 := by
    unfold fracQ
    norm_num [abs_of_nonneg]
  rw [hs, ht, two_columns_segment 0 (1 / 200000) (1 / 200000) (by norm_num) (le_refl _),
    two_columns_segment 0 (1 / 2000000) (1 / 2000000) (by norm_num) (le_refl _), hf1, hf2]
  simp only [ne_eq, Option.some.injEq, List.cons.injEq, Prod.mk.injEq, JsNumber.fin.injEq,
    and_true, and_self]
  norm_num

/-! ## The layer loop -/

theorem marchingSquaresSegments_isSome (row0 : List JsNumber) (rest : Field)
    (threshold : JsNumber) :
    ∃ segs, marchingSquaresSegments (row0 :: rest) threshold = some segs := by
  obtain ⟨raw, h⟩ := rawSegments_isSome row0 rest threshold
  exact ⟨clean raw, by simp [marchingSquaresSegments, h]⟩

/-- The layer loop makes one call per layer, at the layer's threshold. -/
theorem layerLoop_eq (row0 : List JsNumber) (rest : Field) (threshold step : JsNumber) :
    ∀ n k : Nat, ∃ L, layerLoop (row0 :: rest) threshold step n k = some L
      ∧ L.length = n
      ∧ ∀ i, i < n →
          L[i]? = marchingSquaresSegments (row0 :: rest) (layerThreshold threshold step (k + i)) := by
  intro n
  induction n with
  | zero => intro k; exact ⟨[], rfl, rfl, fun i hi => absurd hi (Nat.not_lt_zero i)⟩
  | succ n ih =>
    intro k
    obtain ⟨segs, hs⟩ :=
      marchingSquaresSegments_isSome row0 rest (layerThreshold threshold step k)
    obtain ⟨L, hL, hlen, hget⟩ := ih (k + 1)
    refine ⟨segs :: L, by simp [layerLoop, hs, hL], by simp [hlen], ?_⟩
    intro i hi
    cases i with
    | zero => simpa using hs.symm
    | succ i =>
      have := hget i (by omega)
      rw [List.getElem?_cons_succ, this]
      congr 2
      omega

/-! ## The mask and the layers -/

theorem entry_eq_some {α : Type} (grid : List (List α)) (y x : Nat) (v : α) :
    entry grid y x = some v ↔ ∃ row, grid[y]? = some row ∧ row[x]? = some v := by
  unfold entry
  cases grid[y]? <;> simp

theorem entry_range_map {α : Type} (h w : Nat) (g : Nat → Nat → α) (y x : Nat) :
    entry ((List.range h).map (fun y => (List.range w).map (fun x => g y x))) y x
      = if y < h ∧ x < w then some (g y x) else none := by
  unfold entry
  by_cases hy : y < h
  · by_cases hx : x < w
    · simp [List.getElem?_range hy, List.getElem?_range hx, hy, hx]
    · have hx2 : (List.range w)[x]? = none := List.getElem?_eq_none (by simpa using hx)
      simp [List.getElem?_range hy, hx2, hx]
  · have hy2 : (List.range h)[y]? = none := List.getElem?_eq_none (by simpa using hy)
    simp [hy2, hy]

theorem ge_trans_js (v t2 t1 : JsNumber) (h1 : v.ge t2 = true) (h2 : t2.ge t1 = true) :
    v.ge t1 = true := by
  cases v <;> cases t2 <;> cases t1 <;> simp_all [JsNumber.ge]
  exact le_trans h2 h1

/-- The mask of a grid with at least one row, entry by entry. -/
theorem buildMask_cons (row0 : List JsNumber) (rest : Field) (thresh : JsNumber) :
    ∃ m, buildMask (row0 :: rest) thresh = some m
      ∧ m.length = (row0 :: rest).length ∧ (∀ row ∈ m, row.length = row0.length)
      ∧ ∀ y x : Nat, entry m y x
          = if y < (row0 :: rest).length ∧ x < row0.length then
              some ((((row0 :: rest).getD y []).getD x nan).ge thresh)
            else none := by
  refine ⟨(List.range (row0 :: rest).length).map (fun y =>
      (List.range row0.length).map (fun x => (((row0 :: rest).getD y []).getD x nan).ge thresh)),
    by simp only [buildMask, List.getElem?_cons_zero], by simp, ?_, ?_⟩
  · intro row hrow
    simp only [List.mem_map] at hrow
    obtain ⟨_, _, rfl⟩ := hrow
    simp
  · intro y x
    exact entry_range_map _ _ _ y x

/-- C18: on a rectangular grid with at least one row `buildMask` returns a
grid of the same height and width, whose entry at each grid position is true
exactly when `marchingSquaresSegments` classifies the value there as inside,
for the value itself and for it read as a corner of any cell. -/
theorem buildMask_matches_classification (field : Field) (thresh : JsNumber) (w : Nat)
    (hne : field ≠ []) (hrect : ∀ row ∈ field, row.length = w) :
    ∃ m, buildMask field thresh = some m
      ∧ m.length = field.length ∧ (∀ row ∈ m, row.length = w)
      ∧ (∀ (y x : Nat) (v : JsNumber), entry field y x = some v →
          (inside v thresh = 1 ↔ entry m y x = some true))
      ∧ (∀ (x y : Nat) (c : Cell) (k : Corner), readCell field x y = some c →
          x + k.offset.1 < w →
          entry field (y + k.offset.2) (x + k.offset.1) = some (c.val k)
            ∧ (inside (c.val k) thresh = 1
                ↔ entry m (y + k.offset.2) (x + k.offset.1) = some true)) := by
  cases field with
  | nil => exact absurd rfl hne
  | cons row0 rest =>
    obtain ⟨m, hm, hlen, hrows, hentry⟩ := buildMask_cons row0 rest thresh
    have hw0 : row0.length = w := hrect row0 (List.mem_cons_self _ _)
    have key : ∀ (y x : Nat) (v : JsNumber), entry (row0 :: rest) y x = some v →
        (inside v thresh = 1 ↔ entry m y x = some true) := by
      intro y x v hv
      obtain ⟨row, hr, hx⟩ := (entry_eq_some _ y x v).1 hv
      obtain ⟨hy, _⟩ := List.getElem?_eq_some_iff.1 hr
      obtain ⟨hxl, _⟩ := List.getElem?_eq_some_iff.1 hx
      have hrl : row.length = w := hrect row (List.getElem?_mem hr)
      have hval : ((row0 :: rest).getD y []).getD x nan = v := by
        simp [List.getD_eq_getElem?_getD, hr, hx]
      rw [hentry, if_pos ⟨hy, by omega⟩, hval]
      unfold inside
      cases v.ge thresh <;> simp
    refine ⟨m, hm, hlen, fun row hrow => by rw [hrows row hrow, hw0], key, ?_⟩
    intro x y c k hc hk
    have hval : entry (row0 :: rest) (y + k.offset.2) (x + k.offset.1) = some (c.val k) := by
      unfold readCell at hc
      cases hT : (row0 :: rest)[y]? with
      | none => simp [hT] at hc
      | some rowT =>
        cases hB : (row0 :: rest)[y + 1]? with
        | none => simp [hT, hB] at hc
        | some rowB =>
          simp only [hT, hB, Option.some.injEq] at hc
          subst hc
          have hlT : rowT.length = w := hrect rowT (List.getElem?_mem hT)
          have hlB : rowB.length = w := hrect rowB (List.getElem?_mem hB)
          cases k <;> simp only [Corner.offset, Nat.add_zero] at hk ⊢ <;>
            rw [entry_eq_some]
          · exact ⟨rowT, hT, by simp [Cell.val, List.getElem?_eq_getElem, hlT, hk]⟩
          · exact ⟨rowT, hT, by simp [Cell.val, List.getElem?_eq_getElem, hlT, hk]⟩
          · exact ⟨rowB, hB, by simp [Cell.val, List.getElem?_eq_getElem, hlB, hk]⟩
          · exact ⟨rowB, hB, by simp [Cell.val, List.getElem?_eq_getElem, hlB, hk]⟩
    exact ⟨hval, key _ _ _ hval⟩

theorem buildMask_matches_classification_witness :
    ∃ m, buildMask [[fin 0, fin 0], [fin 0, fin 10]] (fin 5) = some m
      ∧ m.length = [[fin 0, fin 0], [fin 0, fin 10]].length ∧ (∀ row ∈ m, row.length = 2)
      ∧ (∀ (y x : Nat) (v : JsNumber), entry [[fin 0, fin 0], [fin 0, fin 10]] y x = some v →
          (inside v (fin 5) = 1 ↔ entry m y x = some true))
      ∧ (∀ (x y : Nat) (c : Cell) (k : Corner),
          readCell [[fin 0, fin 0], [fin 0, fin 10]] x y = some c →
          x + k.offset.1 < 2 →
          entry [[fin 0, fin 0], [fin 0, fin 10]] (y + k.offset.2) (x + k.offset.1)
              = some (c.val k)
            ∧ (inside (c.val k) (fin 5) = 1
                ↔ entry m (y + k.offset.2) (x + k.offset.1) = some true)) :=
  buildMask_matches_classification [[fin 0, fin 0], [fin 0, fin 10]] (fin 5) 2 (by simp)
    (by simp)

/-- C20 as amended: `drawContourLayers` extracts the contours of layer `k` at
threshold `threshold - k*step`, for `k = 0..layers-1`; over exact arithmetic
(no rounding), for a finite threshold and a finite `step > 0`, these thresholds
are strictly descending; and the inside regions are nested for all numbers:
with `t1 <= t2`, a value classified inside at `t2` is inside at `t1`, and a mask
entry true at `t2` is true at `t1`. -/
theorem layers_descending_and_nested :
    (∀ (row0 : List JsNumber) (rest : Field) (threshold step : JsNumber) (layers : Nat),
        ∃ L, drawContourLayers (row0 :: rest) threshold layers step = some L
          ∧ L.length = layers
          ∧ ∀ k, k < layers →
              L[k]? = marchingSquaresSegments (row0 :: rest) (layerThreshold threshold step k))
      ∧ (∀ (t s : ℚ) (k : Nat), layerThreshold (fin t) (fin s) k = fin (t - k * s))
      ∧ (∀ (t s : ℚ), 0 < s → ∀ j k : Nat, j < k →
          (layerThreshold (fin t) (fin s) k).lt (layerThreshold (fin t) (fin s) j) = true)
      ∧ (∀ v t1 t2 : JsNumber, t2.ge t1 = true → inside v t2 = 1 → inside v t1 = 1)
      ∧ (∀ (field : Field) (t1 t2 : JsNumber) (m1 m2 : List (List Bool)) (y x : Nat),
          t2.ge t1 = true → buildMask field t1 = some m1 → buildMask field t2 = some m2 →
          entry m2 y x = some true → entry m1 y x = some true) := by
  have hthr : ∀ (t s : ℚ) (k : Nat), layerThreshold (fin t) (fin s) k = fin (t - k * s) := by
    intro t s k
    simp [layerThreshold, JsNumber.ofNat, JsNumber.mul, JsNumber.sub]
  refine ⟨?_, hthr, ?_, ?_, ?_⟩
  · intro row0 rest threshold step layers
    obtain ⟨L, hL, hlen, hget⟩ := layerLoop_eq row0 rest threshold step layers 0
    refine ⟨L, hL, hlen, ?_⟩
    intro k hk
    simpa using hget k hk
  · intro t s hs j k hjk
    rw [hthr, hthr]
    simp only [JsNumber.lt, decide_eq_true_eq]
    have hc : (j : ℚ) < (k : ℚ) := by exact_mod_cast hjk
    have := mul_lt_mul_of_pos_right hc hs
    linarith
  · intro v t1 t2 h12 h2
    unfold inside at h2 ⊢
    by_cases hv : v.ge t2 = true
    · simp [ge_trans_js v t2 t1 hv h12]
    · simp [hv] at h2
  · intro field t1 t2 m1 m2 y x h12 h1 h2 he
    cases field with
    | nil => simp [buildMask] at h1
    | cons row0 rest =>
      obtain ⟨n1, hn1, _, _, e1⟩ := buildMask_cons row0 rest t1
      obtain ⟨n2, hn2, _, _, e2⟩ := buildMask_cons row0 rest t2
      rw [h1] at hn1
      rw [h2] at hn2
      cases hn1
      cases hn2
      rw [e2] at he
      rw [e1]
      split at he
      · rename_i hc
        rw [if_pos hc]
        simp only [Option.some.injEq] at he
        rw [ge_trans_js _ t2 t1 he h12]
      · cases he

theorem layers_descending_and_nested_witness :
    (layerThreshold (fin 128) (fin 14) 2).lt (layerThreshold (fin 128) (fin 14) 1) = true
      ∧ inside (fin 120) (fin 100) = 1 :=
  ⟨layers_descending_and_nested.2.2.1 128 14 (by norm_num) 1 2 (by norm_num),
   layers_descending_and_nested.2.2.2.1 (fin 120) (fin 100) (fin 114)
    (by simp [JsNumber.ge]; norm_num) (by simp [inside, JsNumber.ge]; norm_num)⟩

/-! ## Cells of a rectangular field -/

/-- On a rectangular field each corner value of a cell inside the grid is an
entry of the field. -/
theorem readCell_val_mem (field : Field) (w : Nat) (hrect : ∀ row ∈ field, row.length = w)
    (x y : Nat) (c : Cell) (hx : x + 1 < w) (hc : readCell field x y = some c) (k : Corner) :
    ∃ row ∈ field, c.val k ∈ row := by
  unfold readCell at hc
  cases hT : field[y]? with
  | none => simp [hT] at hc
  | some rowT =>
    cases hB : field[y + 1]? with
    | none => simp [hT, hB] at hc
    | some rowB =>
      simp only [hT, hB, Option.some.injEq] at hc
      subst hc
      have hmT : rowT ∈ field := List.getElem?_mem hT
      have hmB : rowB ∈ field := List.getElem?_mem hB
      have hlT : rowT.length = w := hrect rowT hmT
      have hlB : rowB.length = w := hrect rowB hmB
      have h1 : x < rowT.length := by omega
      have h2 : x + 1 < rowT.length := by omega
      have h3 : x + 1 < rowB.length := by omega
      have h4 : x < rowB.length := by omega
      cases k
      · exact ⟨rowT, hmT, by
          simp only [Cell.val, List.getD_eq_getElem?_getD, List.getElem?_eq_getElem h1,
            Option.getD_some]
          exact List.getElem_mem _⟩
      · exact ⟨rowT, hmT, by
          simp only [Cell.val, List.getD_eq_getElem?_getD, List.getElem?_eq_getElem h2,
            Option.getD_some]
          exact List.getElem_mem _⟩
      · exact ⟨rowB, hmB, by
          simp only [Cell.val, List.getD_eq_getElem?_getD, List.getElem?_eq_getElem h3,
            Option.getD_some]
          exact List.getElem_mem _⟩
      · exact ⟨rowB, hmB, by
          simp only [Cell.val, List.getD_eq_getElem?_getD, List.getElem?_eq_getElem h4,
            Option.getD_some]
          exact List.getElem_mem _⟩

theorem readCell_finite (field : Field) (w : Nat) (hrect : ∀ row ∈ field, row.length = w)
    (hfin : fieldFinite field) (x y : Nat) (c : Cell) (hx : x + 1 < w)
    (hc : readCell field x y = some c) : c.finite := by
  have h : ∀ k : Corner, (c.val k).isFinite = true := by
    intro k
    obtain ⟨row, hrow, hv⟩ := readCell_val_mem field w hrect x y c hx hc k
    exact hfin row hrow _ hv
  exact ⟨h Corner.TL, h Corner.TR, h Corner.BR, h Corner.BL⟩

/-- Every entry of `segs` was pushed by a cell inside the loop bounds. -/
theorem mem_rawSegments_bounded (field : Field) (threshold : JsNumber) (raw : List RawSeg)
    (h : rawSegments field threshold = some raw) (r : RawSeg) (hr : r ∈ raw) :
    ∃ (x y : Nat) (c : Cell), x < (field.headD []).length - 1 ∧ y < field.length - 1
      ∧ readCell field x y = some c ∧ r ∈ cellSegments threshold c x y := by
  unfold rawSegments at h
  cases field with
  | nil => simp at h
  | cons row0 rest =>
    simp only [List.getElem?_cons_zero] at h
    rw [rowLoop_eq _ _ _ _ _ _ h] at hr
    simp only [List.mem_flatMap, List.mem_range] at hr
    obtain ⟨j, hj, i, hi, hmem⟩ := hr
    simp only [cellContribution, Nat.zero_add] at hmem
    cases hc : readCell (row0 :: rest) i j with
    | none => simp [hc] at hmem
    | some c =>
      simp only [hc] at hmem
      exact ⟨i, j, c, by simpa using hi, hj, hc, hmem⟩

/-- Every returned segment joins the crossing points of the two edges of one
switch arm of a cell inside the loop bounds. -/
theorem mem_segments_cell (field : Field) (threshold : JsNumber) (segs : List Seg)
    (h : marchingSquaresSegments field threshold = some segs) (s : Seg) (hs : s ∈ segs) :
    ∃ (x y : Nat) (c : Cell) (e1 e2 : Edge),
      x < (field.headD []).length - 1 ∧ y < field.length - 1
        ∧ readCell field x y = some c ∧ (e1, e2) ∈ armEdges (caseIndex threshold c)
        ∧ s = (edgePoint threshold c x y e1, edgePoint threshold c x y e2) := by
  simp only [marchingSquaresSegments, Option.map_eq_some'] at h
  obtain ⟨raw, hraw, rfl⟩ := h
  simp only [clean, List.mem_filterMap] at hs
  obtain ⟨r, hr, hrs⟩ := hs
  obtain ⟨x, y, c, hx, hy, hc, hmem⟩ := mem_rawSegments_bounded field threshold raw hraw r hr
  obtain ⟨e1, e2, harm, hre⟩ := mem_cellSegments threshold c x y r hmem
  obtain ⟨hr2, _⟩ := cleanSeg_eq_some r s hrs
  rw [hre] at hr2
  simp only [Prod.mk.injEq, Option.some.injEq] at hr2
  exact ⟨x, y, c, e1, e2, hx, hy, hc, harm, Prod.ext hr2.1.symm hr2.2.symm⟩

theorem headD_length_of_rect (field : Field) (w : Nat) (hrect : ∀ row ∈ field, row.length = w)
    (x : Nat) (hx : x < (field.headD []).length - 1) : x + 1 < w := by
  cases field with
  | nil => simp at hx
  | cons row0 rest =>
    have := hrect row0 (List.mem_cons_self _ _)
    simp only [List.headD_cons] at hx
    omega

/-! ## Shared edges -/

/-- C24: the crossing variable of the right edge of the cell at `(x, y)` is the
one of the left edge of the cell at `(x+1, y)`, and that of the bottom edge of
the cell at `(x, y)` is the one of the top edge of the cell at `(x, y+1)`:
they hold the same point when the ends of the shared edge are classified
differently (and both stay undefined when not). -/
theorem crossings_shared_between_cells (field : Field) (threshold : JsNumber) (x y : Nat)
    (c : Cell) (hc : readCell field x y = some c) :
    (∀ c2 : Cell, readCell field (x + 1) y = some c2 →
        c.vTR = c2.vTL ∧ c.vBR = c2.vBL
          ∧ cross threshold c x y Edge.right = cross threshold c2 (x + 1) y Edge.left
          ∧ (inside c.vTR threshold ≠ inside c.vBR threshold →
              cross threshold c x y Edge.right = some (edgePoint threshold c x y Edge.right)
                ∧ cross threshold c2 (x + 1) y Edge.left
                    = some (edgePoint threshold c2 (x + 1) y Edge.left)
                ∧ edgePoint threshold c x y Edge.right
                    = edgePoint threshold c2 (x + 1) y Edge.left))
      ∧ (∀ c3 : Cell, readCell field x (y + 1) = some c3 →
        c.vBL = c3.vTL ∧ c.vBR = c3.vTR
          ∧ cross threshold c x y Edge.bottom = cross threshold c3 x (y + 1) Edge.top
          ∧ (inside c.vBL threshold ≠ inside c.vBR threshold →
              cross threshold c x y Edge.bottom = some (edgePoint threshold c x y Edge.bottom)
                ∧ cross threshold c3 x (y + 1) Edge.top
                    = some (edgePoint threshold c3 x (y + 1) Edge.top)
                ∧ edgePoint threshold c x y Edge.bottom
                    = edgePoint threshold c3 x (y + 1) Edge.top)) := by
  unfold readCell at hc
  cases hT : field[y]? with
  | none => simp [hT] at hc
  | some rowT =>
    cases hB : field[y + 1]? with
    | none => simp [hT, hB] at hc
    | some rowB =>
      simp only [hT, hB, Option.some.injEq] at hc
      subst hc
      constructor
      · intro c2 h2
        simp only [readCell, hT, hB, Option.some.injEq] at h2
        subst h2
        refine ⟨rfl, rfl, rfl, ?_⟩
        intro hd
        refine ⟨?_, ?_, rfl⟩
        · rw [cross_eq_edgePoint]
          exact if_pos hd
        · rw [cross_eq_edgePoint]
          exact if_pos hd
      · intro c3 h3
        cases hC : field[y + 1 + 1]? with
        | none => simp [readCell, hB, hC] at h3
        | some rowC =>
          simp only [readCell, hB, hC, Option.some.injEq] at h3
          subst h3
          refine ⟨rfl, rfl, rfl, ?_⟩
          intro hd
          refine ⟨?_, ?_, rfl⟩
          · rw [cross_eq_edgePoint]
            exact if_pos hd
          · rw [cross_eq_edgePoint]
            exact if_pos hd

theorem crossings_shared_between_cells_witness :
    cross (fin 5) ⟨fin 0, fin 10, fin 0, fin 0⟩ 0 0 Edge.right
      = cross (fin 5) ⟨fin 10, fin 0, fin 0, fin 0⟩ (0 + 1) 0 Edge.left :=
  ((crossings_shared_between_cells [[fin 0, fin 10, fin 0], [fin 0, fin 0, fin 0]] (fin 5) 0 0
    ⟨fin 0, fin 10, fin 0, fin 0⟩ (by simp [readCell])).1 ⟨fin 10, fin 0, fin 0, fin 0⟩
    (by simp [readCell])).2.2.1

/-! ## Edges used by the switch -/

theorem filterMap_map_of_some {α β γ : Type} (l : List α) (g : α → β) (f : β → Option γ)
    (g2 : α → γ) (h : ∀ a ∈ l, f (g a) = some (g2 a)) :
    (l.map g).filterMap f = l.map g2 := by
  induction l with
  | nil => rfl
  | cons a l ih =>
    have ha := h a (List.mem_cons_self _ _)
    have hl := ih (fun b hb => h b (List.mem_cons_of_mem _ hb))
    simp [List.filterMap_cons, ha, hl]

/-- With finite corners the filter keeps every entry a cell pushes. -/
theorem clean_cellSegments_finite (threshold : JsNumber) (c : Cell) (x y : Nat)
    (hc : c.finite) :
    cellSegments threshold c x y
        = (armEdges (caseIndex threshold c)).map
            (fun p => (some (edgePoint threshold c x y p.1),
              some (edgePoint threshold c x y p.2)))
      ∧ clean (cellSegments threshold c x y)
        = (armEdges (caseIndex threshold c)).map
            (fun p => (edgePoint threshold c x y p.1, edgePoint threshold c x y p.2)) := by
  have hseg : cellSegments threshold c x y
      = (armEdges (caseIndex threshold c)).map
          (fun p => (some (edgePoint threshold c x y p.1),
            some (edgePoint threshold c x y p.2))) := by
    rw [cellSegments_eq_armEdges]
    apply List.map_congr_left
    rintro ⟨e1, e2⟩ hmem
    obtain ⟨d1, d2⟩ := armEdges_differ threshold c e1 e2 hmem
    simp only [cross_eq_edgePoint, if_pos d1, if_pos d2]
  refine ⟨hseg, ?_⟩
  by_cases h0 : caseIndex threshold c = 0
  · simp [cellSegments, h0, armEdges, clean]
  by_cases h15 : caseIndex threshold c = 15
  · simp [cellSegments, h15, armEdges, clean]
  obtain ⟨t, rfl⟩ := threshold_fin_of_case threshold c hc h0 h15
  rw [hseg]
  exact filterMap_map_of_some _ _ _ _ (fun p _ => cleanSeg_edgePoint t c hc x y p.1 p.2)

/-- The edges a switch arm uses are the edges with differently classified
ends, each used once. -/
theorem usedEdges_count (threshold : JsNumber) (c : Cell)
    (h0 : caseIndex threshold c ≠ 0) (h15 : caseIndex threshold c ≠ 15) (e : Edge) :
    (usedEdges (caseIndex threshold c)).count e
      = if inside (c.val e.ends.1) threshold ≠ inside (c.val e.ends.2) threshold then 1
        else 0 := by
  have hs := caseIndex_eq_sum threshold c
  rcases inside_eq_zero_or_one c.vTL threshold with h1 | h1 <;>
  rcases inside_eq_zero_or_one c.vTR threshold with h2 | h2 <;>
  rcases inside_eq_zero_or_one c.vBR threshold with h3 | h3 <;>
  rcases inside_eq_zero_or_one c.vBL threshold with h4 | h4 <;>
  rw [h1, h2, h3, h4] at hs <;>
  norm_num at hs <;>
  first
    | exact absurd hs h0
    | exact absurd hs h15
    | (rw [hs]
       cases e <;>
         simp [usedEdges, armEdges, Edge.ends, Cell.val, h1, h2, h3, h4])

/-- C23 as amended: in a cell with finite corner values and case index in
1..14 the edges used as endpoints by the pushed segments are exactly the edges
whose two ends are classified differently, each used once (two edges per
segment), and every pushed endpoint is a computed crossing point, on doubles
as over exact arithmetic.  Over exact arithmetic (no rounding, no overflow)
the filter keeps every segment, so on a rectangular field of finite values it
removes nothing; on doubles it removes exactly the segments with a NaN
coordinate. -/
theorem used_edges_are_crossing_edges (threshold : JsNumber) (c : Cell) (x y : Nat)
    (hc : c.finite) (hk : 1 ≤ caseIndex threshold c ∧ caseIndex threshold c ≤ 14) :
    (∀ e : Edge, (usedEdges (caseIndex threshold c)).count e
        = if inside (c.val e.ends.1) threshold ≠ inside (c.val e.ends.2) threshold then 1
          else 0)
      ∧ (usedEdges (caseIndex threshold c)).length
          = 2 * (cellSegments threshold c x y).length
      ∧ cellSegments threshold c x y
          = (armEdges (caseIndex threshold c)).map
              (fun p => (some (edgePoint threshold c x y p.1),
                some (edgePoint threshold c x y p.2)))
      ∧ clean (cellSegments threshold c x y)
          = (armEdges (caseIndex threshold c)).map
              (fun p => (edgePoint threshold c x y p.1, edgePoint threshold c x y p.2))
      ∧ (clean (cellSegments threshold c x y)).length = (cellSegments threshold c x y).length
      ∧ (∀ (field : Field) (w : Nat) (raw : List RawSeg),
          (∀ row ∈ field, row.length = w) → fieldFinite field →
          rawSegments field threshold = some raw →
          (clean raw).length = raw.length
            ∧ ∀ r ∈ raw, ∃ s : Seg, r = (some s.1, some s.2) ∧ cleanSeg r = some s)
      ∧ cellSegmentsD threshold c x y
          = (armEdges (caseIndex threshold c)).map
              (fun p => (some (edgePointD threshold c x y p.1),
                some (edgePointD threshold c x y p.2)))
      ∧ clean (cellSegmentsD threshold c x y)
          = ((armEdges (caseIndex threshold c)).map
              (fun p => (edgePointD threshold c x y p.1,
                edgePointD threshold c x y p.2))).filter noNaN
      ∧ (∀ (field : Field) (raw : List RawSeg), rawSegmentsD field threshold = some raw →
          ∀ r ∈ raw, ∃ s : Seg, r = (some s.1, some s.2)
            ∧ cleanSeg r = if noNaN s then some s else none) := by
  obtain ⟨hseg, hclean⟩ := clean_cellSegments_finite threshold c x y hc
  refine ⟨usedEdges_count threshold c (by omega) (by omega), ?_, hseg, hclean, ?_, ?_,
    cellSegmentsD_eq_points threshold c x y, clean_cellSegmentsD threshold c x y, ?_⟩
  · rw [hseg, List.length_map]
    have hle := hk.2
    have hge := hk.1
    unfold usedEdges
    interval_cases (caseIndex threshold c) <;> rfl
  · rw [hclean, hseg, List.length_map, List.length_map]
  · intro field w raw hrect hfin hraw
    have hall : ∀ r ∈ raw, ∃ s : Seg, r = (some s.1, some s.2) ∧ cleanSeg r = some s := by
      intro r hr
      obtain ⟨x2, y2, c2, hx, _, hc2, hmem⟩ :=
        mem_rawSegments_bounded field threshold raw hraw r hr
      have hfc : c2.finite :=
        readCell_finite field w hrect hfin x2 y2 c2 (headD_length_of_rect field w hrect x2 hx) hc2
      have hcl := (clean_cellSegments_finite threshold c2 x2 y2 hfc).2
      obtain ⟨e1, e2, harm, rfl⟩ := mem_cellSegments threshold c2 x2 y2 r hmem
      refine ⟨(edgePoint threshold c2 x2 y2 e1, edgePoint threshold c2 x2 y2 e2), rfl, ?_⟩
      by_cases h0 : caseIndex threshold c2 = 0
      · rw [h0] at harm
        simp [armEdges] at harm
      by_cases h15 : caseIndex threshold c2 = 15
      · rw [h15] at harm
        simp [armEdges] at harm
      obtain ⟨t, rfl⟩ := threshold_fin_of_case threshold c2 hfc h0 h15
      exact cleanSeg_edgePoint t c2 hfc x2 y2 e1 e2
    refine ⟨?_, hall⟩
    unfold clean
    have : raw.filterMap cleanSeg = raw.map (fun r => (r.1.getD (nan, nan), r.2.getD (nan, nan))) := by
      have := filterMap_map_of_some raw id cleanSeg
        (fun r => (r.1.getD (nan, nan), r.2.getD (nan, nan)))
        (by
          intro r hr
          obtain ⟨s, hrs, hcs⟩ := hall r hr
          rw [id, hcs, hrs]
          rfl)
      simpa using this
    rw [this, List.length_map]
  · intro field raw hraw r hr
    obtain ⟨x2, y2, c2, _, _, _, hmem⟩ :=
      mem_rawSegmentsD_bounded field threshold raw hraw r hr
    rw [cellSegmentsD_eq_points, List.mem_map] at hmem
    obtain ⟨p, _, rfl⟩ := hmem
    exact ⟨(edgePointD threshold c2 x2 y2 p.1, edgePointD threshold c2 x2 y2 p.2), rfl,
      cleanSeg_some _ _⟩

theorem used_edges_are_crossing_edges_witness :
    clean (cellSegments (fin 5) ⟨fin 0, fin 10, fin 20, fin 1⟩ 3 4)
      = (armEdges (caseIndex (fin 5) ⟨fin 0, fin 10, fin 20, fin 1⟩)).map
          (fun p => (edgePoint (fin 5) ⟨fin 0, fin 10, fin 20, fin 1⟩ 3 4 p.1,
            edgePoint (fin 5) ⟨fin 0, fin 10, fin 20, fin 1⟩ 3 4 p.2)) :=
  (used_edges_are_crossing_edges (fin 5) ⟨fin 0, fin 10, fin 20, fin 1⟩ 3 4 ⟨rfl, rfl, rfl, rfl⟩
    (by rw [caseIndex_eq_sum]; simp [inside, JsNumber.ge]; norm_num)).2.2.2.1

/-! ## Where the crossing points lie -/

theorem fracQ_mem_Icc (t a b : ℚ) (h : inside (fin a) (fin t) ≠ inside (fin b) (fin t)) :
    0 ≤ fracQ t a b ∧ fracQ t a b ≤ 1 := by
  simp only [inside, JsNumber.ge, decide_eq_true_eq] at h
  unfold fracQ
  split_ifs with hs
  · norm_num
  · by_cases h1 : t ≤ a <;> by_cases h2 : t ≤ b <;> simp only [h1, h2, if_true, if_false] at h
    · exact absurd rfl h
    · have hd : b - a < 0 := by linarith
      exact ⟨div_nonneg_of_nonpos (by linarith) hd.le, (div_le_one_of_neg hd).2 (by linarith)⟩
    · have hd : 0 < b - a := by linarith
      exact ⟨div_nonneg (by linarith) hd.le, (div_le_one hd).2 (by linarith)⟩
    · exact absurd rfl h

theorem fracQ_mem_Ioo (t a b : ℚ) (h : inside (fin a) (fin t) ≠ inside (fin b) (fin t))
    (ha : a ≠ t) (hb : b ≠ t) : 0 < fracQ t a b ∧ fracQ t a b < 1 := by
  simp only [inside, JsNumber.ge, decide_eq_true_eq] at h
  unfold fracQ
  split_ifs with hs
  · norm_num
  · by_cases h1 : t ≤ a <;> by_cases h2 : t ≤ b <;> simp only [h1, h2, if_true, if_false] at h
    · exact absurd rfl h
    · have hd : b - a < 0 := by linarith
      have hta : t - a < 0 := lt_of_le_of_ne (by linarith) (fun e => ha (by linarith))
      exact ⟨div_pos_of_neg_of_neg hta hd, (div_lt_one_of_neg hd).2 (by linarith)⟩
    · have hd : 0 < b - a := by linarith
      have htb : t < b := lt_of_le_of_ne h2 (fun e => hb e.symm)
      exact ⟨div_pos (by linarith) hd, (div_lt_one hd).2 (by linarith)⟩
    · exact absurd rfl h

/-- With finite corners and a finite threshold, the crossing point of an edge
is the point at the crossing fraction along that edge. -/
theorem edgePoint_eq_pointAt (t : ℚ) (c : Cell) (hc : c.finite) (x y : Nat) (e : Edge) :
    ∃ a b : ℚ, c.val e.ends.1 = fin a ∧ c.val e.ends.2 = fin b
      ∧ interpT (fin t) (c.val e.ends.1) (c.val e.ends.2) = fin (fracQ t a b)
      ∧ edgePoint (fin t) c x y e = pointAt x y e (fracQ t a b) := by
  obtain ⟨vTL, vTR, vBR, vBL⟩ := c
  obtain ⟨h1, h2, h3, h4⟩ := hc
  obtain ⟨a, rfl⟩ := (isFinite_iff _).1 h1
  obtain ⟨b, rfl⟩ := (isFinite_iff _).1 h2
  obtain ⟨c, rfl⟩ := (isFinite_iff _).1 h3
  obtain ⟨d, rfl⟩ := (isFinite_iff _).1 h4
  cases e
  · exact ⟨a, b, rfl, rfl, interpT_fin t a b, by
      simp [edgePoint, Edge.ends, Corner.pos, Cell.val, JsNumber.ofNat, interp_fin, pointAt,
        Corner.posQ]⟩
  · exact ⟨b, c, rfl, rfl, interpT_fin t b c, by
      simp [edgePoint, Edge.ends, Corner.pos, Cell.val, JsNumber.ofNat, interp_fin, pointAt,
        Corner.posQ]⟩
  · exact ⟨d, c, rfl, rfl, interpT_fin t d c, by
      simp [edgePoint, Edge.ends, Corner.pos, Cell.val, JsNumber.ofNat, interp_fin, pointAt,
        Corner.posQ]⟩
  · exact ⟨a, d, rfl, rfl, interpT_fin t a d, by
      simp [edgePoint, Edge.ends, Corner.pos, Cell.val, JsNumber.ofNat, interp_fin, pointAt,
        Corner.posQ]⟩

theorem pointAt_onCellBoundary (x y : Nat) (e : Edge) (f : ℚ) (h0 : 0 ≤ f) (h1 : f ≤ 1) :
    onCellBoundary x y (pointAt x y e f) := by
  cases e <;> refine ⟨_, _, rfl, ?_⟩ <;>
    simp only [Corner.posQ, Edge.ends] <;>
    refine ⟨?_, ?_, ?_, ?_, ?_⟩ <;>
    first
      | linarith
      | (left; linarith)
      | (right; left; linarith)
      | (right; right; left; linarith)
      | (right; right; right; linarith)

theorem onCellBoundary_inGrid (x y w h : Nat) (p : Point) (hx : x + 1 < w) (hy : y + 1 < h)
    (hp : onCellBoundary x y p) : inGrid w h p := by
  obtain ⟨px, py, rfl, a1, a2, a3, a4, _⟩ := hp
  have hxq : (x : ℚ) + 1 + 1 ≤ (w : ℚ) := by exact_mod_cast hx
  have hyq : (y : ℚ) + 1 + 1 ≤ (h : ℚ) := by exact_mod_cast hy
  have x0 : (0 : ℚ) ≤ (x : ℚ) := Nat.cast_nonneg x
  have y0 : (0 : ℚ) ≤ (y : ℚ) := Nat.cast_nonneg y
  exact ⟨px, py, rfl, by linarith, by linarith, by linarith, by linarith⟩

/-- The crossing point of an edge whose ends are classified differently, in a
cell with finite corners at a finite threshold. -/
theorem edgePoint_within (t : ℚ) (c : Cell) (hc : c.finite) (x y : Nat) (e : Edge)
    (hd : inside (c.val e.ends.1) (fin t) ≠ inside (c.val e.ends.2) (fin t)) :
    ∃ f : ℚ, interpT (fin t) (c.val e.ends.1) (c.val e.ends.2) = fin f ∧ 0 ≤ f ∧ f ≤ 1
      ∧ edgePoint (fin t) c x y e = pointAt x y e f
      ∧ onCellBoundary x y (edgePoint (fin t) c x y e) := by
  obtain ⟨a, b, ha, hb, hT, hP⟩ := edgePoint_eq_pointAt t c hc x y e
  rw [ha, hb] at hd
  obtain ⟨f0, f1⟩ := fracQ_mem_Icc t a b hd
  exact ⟨fracQ t a b, hT, f0, f1, hP, by rw [hP]; exact pointAt_onCellBoundary x y e _ f0 f1⟩

/-- C22 as amended: over exact arithmetic (no rounding, no overflow), on a
rectangular field of finite values with a finite threshold, the crossing
fraction of every edge whose ends are classified differently lies in
`[0, 1]`, and both endpoints of every returned segment lie on the boundary of
the cell at column `x`, row `y` that produced it, with x coordinate in
`[x, x+1]` and y coordinate in `[y, y+1]`, inside the grid `[0, w-1] x [0, h-1]`. -/
theorem crossings_within_cell (field : Field) (w : Nat) (t : ℚ)
    (hrect : ∀ row ∈ field, row.length = w) (hfin : fieldFinite field) :
    (∀ (c : Cell) (x y : Nat), c.finite → ∀ e : Edge,
        inside (c.val e.ends.1) (fin t) ≠ inside (c.val e.ends.2) (fin t) →
        ∃ f : ℚ, interpT (fin t) (c.val e.ends.1) (c.val e.ends.2) = fin f ∧ 0 ≤ f ∧ f ≤ 1
          ∧ edgePoint (fin t) c x y e = pointAt x y e f
          ∧ onCellBoundary x y (edgePoint (fin t) c x y e))
      ∧ (∀ (x y : Nat) (c : Cell), x + 1 < w → readCell field x y = some c →
          ∀ s ∈ clean (cellSegments (fin t) c x y),
            onCellBoundary x y s.1 ∧ onCellBoundary x y s.2)
      ∧ (∀ segs : List Seg, marchingSquaresSegments field (fin t) = some segs →
          ∀ s ∈ segs, ∃ x y : Nat, x + 1 < w ∧ y + 1 < field.length
            ∧ onCellBoundary x y s.1 ∧ onCellBoundary x y s.2
            ∧ inGrid w field.length s.1 ∧ inGrid w field.length s.2) := by
  refine ⟨fun c x y hc e hd => edgePoint_within t c hc x y e hd, ?_, ?_⟩
  · intro x y c hx hc s hs
    have hfc := readCell_finite field w hrect hfin x y c hx hc
    rw [(clean_cellSegments_finite (fin t) c x y hfc).2, List.mem_map] at hs
    obtain ⟨⟨e1, e2⟩, harm, rfl⟩ := hs
    obtain ⟨d1, d2⟩ := armEdges_differ (fin t) c e1 e2 harm
    exact ⟨(edgePoint_within t c hfc x y e1 d1).choose_spec.2.2.2.2,
      (edgePoint_within t c hfc x y e2 d2).choose_spec.2.2.2.2⟩
  · intro segs hsegs s hs
    obtain ⟨x, y, c, e1, e2, hx, hy, hc, harm, rfl⟩ :=
      mem_segments_cell field (fin t) segs hsegs s hs
    have hxw := headD_length_of_rect field w hrect x hx
    have hfc := readCell_finite field w hrect hfin x y c hxw hc
    obtain ⟨d1, d2⟩ := armEdges_differ (fin t) c e1 e2 harm
    have b1 := (edgePoint_within t c hfc x y e1 d1).choose_spec.2.2.2.2
    have b2 := (edgePoint_within t c hfc x y e2 d2).choose_spec.2.2.2.2
    exact ⟨x, y, hxw, by omega, b1, b2,
      onCellBoundary_inGrid x y w field.length _ hxw (by omega) b1,
      onCellBoundary_inGrid x y w field.length _ hxw (by omega) b2⟩

theorem fieldFinite_two_columns (a b : ℚ) :
    fieldFinite [[fin a, fin b], [fin a, fin b]] := by
  intro row hrow v hv
  simp only [List.mem_cons, List.mem_singleton, List.not_mem_nil, or_false, or_self] at hrow
  subst hrow
  simp only [List.mem_cons, List.mem_singleton, List.not_mem_nil, or_false] at hv
  rcases hv with rfl | rfl <;> rfl

theorem crossings_within_cell_witness :
    ∃ x y : Nat, x + 1 < 2 ∧ y + 1 < [[fin 0, fin 10], [fin 0, fin 10]].length
      ∧ onCellBoundary x y (fin (fracQ 5 0 10), fin 0)
      ∧ onCellBoundary x y (fin (fracQ 5 0 10), fin 1)
      ∧ inGrid 2 [[fin 0, fin 10], [fin 0, fin 10]].length (fin (fracQ 5 0 10), fin 0)
      ∧ inGrid 2 [[fin 0, fin 10], [fin 0, fin 10]].length (fin (fracQ 5 0 10), fin 1) :=
  (crossings_within_cell [[fin 0, fin 10], [fin 0, fin 10]] 2 5 (by simp)
    (fieldFinite_two_columns 0 10)).2.2
    [((fin (fracQ 5 0 10), fin 0), (fin (fracQ 5 0 10), fin 1))]
    (two_columns_segment 0 10 5 (by norm_num) (by norm_num))
    ((fin (fracQ 5 0 10), fin 0), (fin (fracQ 5 0 10), fin 1)) (List.mem_singleton.2 rfl)

theorem armEdges_ne (idx : Nat) (e1 e2 : Edge) (h : (e1, e2) ∈ armEdges idx) : e1 ≠ e2 := by
  cases e1 <;> cases e2 <;>
    first
      | decide
      | (exfalso
         unfold armEdges at h
         split at h <;> simp at h)

theorem pointAt_ne (x y : Nat) (e1 e2 : Edge) (f1 f2 : ℚ) (hne : e1 ≠ e2)
    (a1 : 0 < f1) (b1 : f1 < 1) (a2 : 0 < f2) (b2 : f2 < 1) :
    pointAt x y e1 f1 ≠ pointAt x y e2 f2 := by
  cases e1 <;> cases e2 <;>
    first
      | exact absurd rfl hne
      | (intro h
         simp only [pointAt, Corner.posQ, Edge.ends, Prod.mk.injEq, JsNumber.fin.injEq] at h
         obtain ⟨hx, hy⟩ := h
         linarith)

/-- A point strictly inside a cell edge is not a grid point. -/
theorem pointAt_ne_gridPoint (x y : Nat) (e : Edge) (f : ℚ) (a : 0 < f) (b : f < 1)
    (i j : Nat) : pointAt x y e f ≠ (JsNumber.ofNat i, JsNumber.ofNat j) := by
  intro h
  have key : ∀ (n m : Nat) (q : ℚ), (n : ℚ) < q → q < (n : ℚ) + 1 → q ≠ (m : ℚ) := by
    intro n m q h1 h2 hq
    rw [hq] at h1 h2
    have h3 : n < m := by exact_mod_cast h1
    have h4 : m < n + 1 := by exact_mod_cast h2
    omega
  cases e <;>
    simp only [pointAt, Corner.posQ, Edge.ends, JsNumber.ofNat, Prod.mk.injEq,
      JsNumber.fin.injEq] at h <;>
    obtain ⟨hx, hy⟩ := h
  · exact key x i _ (by linarith) (by linarith) hx
  · exact key y j _ (by linarith) (by linarith) hy
  · exact key x i _ (by linarith) (by linarith) hx
  · exact key y j _ (by linarith) (by linarith) hy

theorem edgePoint_strictly_inside (t : ℚ) (c : Cell) (hc : c.finite)
    (hne : ∀ k : Corner, c.val k ≠ fin t) (x y : Nat) (e : Edge)
    (hd : inside (c.val e.ends.1) (fin t) ≠ inside (c.val e.ends.2) (fin t)) :
    ∃ f : ℚ, interpT (fin t) (c.val e.ends.1) (c.val e.ends.2) = fin f ∧ 0 < f ∧ f < 1
      ∧ edgePoint (fin t) c x y e = pointAt x y e f := by
  obtain ⟨a, b, ha, hb, hT, hP⟩ := edgePoint_eq_pointAt t c hc x y e
  have hat : a ≠ t := fun h => hne e.ends.1 (by rw [ha, h])
  have hbt : b ≠ t := fun h => hne e.ends.2 (by rw [hb, h])
  rw [ha, hb] at hd
  obtain ⟨f0, f1⟩ := fracQ_mem_Ioo t a b hd hat hbt
  exact ⟨fracQ t a b, hT, f0, f1, hP⟩

/-- C25 as amended: over exact arithmetic (no rounding, no overflow), on a
rectangular field of finite values none of which equals the finite threshold,
the crossing fraction of every edge whose ends are
classified differently lies strictly between 0 and 1; every returned segment
has two distinct endpoints, each strictly inside one of two different edges of
its cell, and neither endpoint is a grid point. -/
theorem crossings_strictly_inside_edges (field : Field) (w : Nat) (t : ℚ)
    (hrect : ∀ row ∈ field, row.length = w) (hfin : fieldFinite field)
    (hne : ∀ row ∈ field, ∀ v ∈ row, v ≠ fin t) :
    (∀ (x y : Nat) (c : Cell), x + 1 < w → readCell field x y = some c → ∀ e : Edge,
        inside (c.val e.ends.1) (fin t) ≠ inside (c.val e.ends.2) (fin t) →
        ∃ f : ℚ, interpT (fin t) (c.val e.ends.1) (c.val e.ends.2) = fin f ∧ 0 < f ∧ f < 1
          ∧ edgePoint (fin t) c x y e = pointAt x y e f)
      ∧ (∀ segs : List Seg, marchingSquaresSegments field (fin t) = some segs →
          ∀ s ∈ segs, s.1 ≠ s.2
            ∧ (∃ (x y : Nat) (e1 e2 : Edge), x + 1 < w ∧ y + 1 < field.length ∧ e1 ≠ e2
                ∧ strictlyInsideEdge x y e1 s.1 ∧ strictlyInsideEdge x y e2 s.2)
            ∧ (∀ i j : Nat, s.1 ≠ (JsNumber.ofNat i, JsNumber.ofNat j)
                ∧ s.2 ≠ (JsNumber.ofNat i, JsNumber.ofNat j))) := by
  have hcell : ∀ (x y : Nat) (c : Cell), x + 1 < w → readCell field x y = some c →
      c.finite ∧ ∀ k : Corner, c.val k ≠ fin t := by
    intro x y c hx hc
    refine ⟨readCell_finite field w hrect hfin x y c hx hc, ?_⟩
    intro k
    obtain ⟨row, hrow, hv⟩ := readCell_val_mem field w hrect x y c hx hc k
    exact hne row hrow _ hv
  constructor
  · intro x y c hx hc e hd
    obtain ⟨hfc, hnc⟩ := hcell x y c hx hc
    exact edgePoint_strictly_inside t c hfc hnc x y e hd
  · intro segs hsegs s hs
    obtain ⟨x, y, c, e1, e2, hx, hy, hc, harm, rfl⟩ :=
      mem_segments_cell field (fin t) segs hsegs s hs
    have hxw := headD_length_of_rect field w hrect x hx
    obtain ⟨hfc, hnc⟩ := hcell x y c hxw hc
    obtain ⟨d1, d2⟩ := armEdges_differ (fin t) c e1 e2 harm
    have hee := armEdges_ne _ e1 e2 harm
    obtain ⟨f1, _, p1, q1, hP1⟩ := edgePoint_strictly_inside t c hfc hnc x y e1 d1
    obtain ⟨f2, _, p2, q2, hP2⟩ := edgePoint_strictly_inside t c hfc hnc x y e2 d2
    simp only [hP1, hP2]
    refine ⟨pointAt_ne x y e1 e2 f1 f2 hee p1 q1 p2 q2,
      ⟨x, y, e1, e2, hxw, by omega, hee, ⟨f1, p1, q1, rfl⟩, ⟨f2, p2, q2, rfl⟩⟩, ?_⟩
    intro i j
    exact ⟨pointAt_ne_gridPoint x y e1 f1 p1 q1 i j, pointAt_ne_gridPoint x y e2 f2 p2 q2 i j⟩

theorem crossings_strictly_inside_edges_witness :
    ((fin (fracQ 5 0 10), fin 0) : Point) ≠ (fin (fracQ 5 0 10), fin 1) :=
  ((crossings_strictly_inside_edges [[fin 0, fin 10], [fin 0, fin 10]] 2 5 (by simp)
    (fieldFinite_two_columns 0 10)
    (by
      intro row hrow v hv
      simp only [List.mem_cons, List.mem_singleton, List.not_mem_nil, or_false, or_self]
        at hrow
      subst hrow
      simp only [List.mem_cons, List.mem_singleton, List.not_mem_nil, or_false] at hv
      rcases hv with rfl | rfl <;> simp only [ne_eq, JsNumber.fin.injEq] <;> norm_num)).2
    [((fin (fracQ 5 0 10), fin 0), (fin (fracQ 5 0 10), fin 1))]
    (two_columns_segment 0 10 5 (by norm_num) (by norm_num))
    ((fin (fracQ 5 0 10), fin 0), (fin (fracQ 5 0 10), fin 1)) (List.mem_singleton.2 rfl)).1

/-! ## Symmetries of the case table -/

/-- C27: for every non-saddle case index `k` the switch arm of case `15 - k`
pushes one segment between the same two edges as the arm of case `k`, with the
two endpoints in the opposite order. -/
theorem case_table_complement_symmetric (k : Nat)
    (hk : k ∈ [1, 2, 3, 4, 6, 7, 8, 9, 11, 12, 13, 14]) :
    ∃ e1 e2 : Edge, e1 ≠ e2
      ∧ armEdges k = [(e1, e2)] ∧ armEdges (15 - k) = [(e2, e1)]
      ∧ ∀ f : Edge → Option Point,
          switchSegs k (f Edge.top) (f Edge.right) (f Edge.bottom) (f Edge.left)
              = [(f e1, f e2)]
            ∧ switchSegs (15 - k) (f Edge.top) (f Edge.right) (f Edge.bottom) (f Edge.left)
              = [(f e2, f e1)] := by
  simp only [List.mem_cons, List.mem_singleton, List.not_mem_nil, or_false] at hk
  rcases hk with h | h | h | h | h | h | h | h | h | h | h | h <;> subst h
  · exact ⟨Edge.left, Edge.bottom, by decide, rfl, rfl, fun f => ⟨rfl, rfl⟩⟩
  · exact ⟨Edge.bottom, Edge.right, by decide, rfl, rfl, fun f => ⟨rfl, rfl⟩⟩
  · exact ⟨Edge.left, Edge.right, by decide, rfl, rfl, fun f => ⟨rfl, rfl⟩⟩
  · exact ⟨Edge.top, Edge.right, by decide, rfl, rfl, fun f => ⟨rfl, rfl⟩⟩
  · exact ⟨Edge.top, Edge.bottom, by decide, rfl, rfl, fun f => ⟨rfl, rfl⟩⟩
  · exact ⟨Edge.top, Edge.left, by decide, rfl, rfl, fun f => ⟨rfl, rfl⟩⟩
  · exact ⟨Edge.left, Edge.top, by decide, rfl, rfl, fun f => ⟨rfl, rfl⟩⟩
  · exact ⟨Edge.bottom, Edge.top, by decide, rfl, rfl, fun f => ⟨rfl, rfl⟩⟩
  · exact ⟨Edge.right, Edge.top, by decide, rfl, rfl, fun f => ⟨rfl, rfl⟩⟩
  · exact ⟨Edge.right, Edge.left, by decide, rfl, rfl, fun f => ⟨rfl, rfl⟩⟩
  · exact ⟨Edge.right, Edge.bottom, by decide, rfl, rfl, fun f => ⟨rfl, rfl⟩⟩
  · exact ⟨Edge.bottom, Edge.left, by decide, rfl, rfl, fun f => ⟨rfl, rfl⟩⟩

theorem case_table_complement_symmetric_witness :
    ∃ e1 e2 : Edge, e1 ≠ e2
      ∧ armEdges 3 = [(e1, e2)] ∧ armEdges (15 - 3) = [(e2, e1)]
      ∧ ∀ f : Edge → Option Point,
          switchSegs 3 (f Edge.top) (f Edge.right) (f Edge.bottom) (f Edge.left)
              = [(f e1, f e2)]
            ∧ switchSegs (15 - 3) (f Edge.top) (f Edge.right) (f Edge.bottom) (f Edge.left)
              = [(f e2, f e1)] :=
  case_table_complement_symmetric 3 (by decide)

/-- C26: in both saddle cases (index 5 and index 10) the cell has exactly two
outside corners, and each of its two segments joins the two edges that meet at
one of them, one segment per outside corner; no segment joins the two edges
that meet at an inside corner. -/
theorem saddle_cuts_outside_corners (threshold : JsNumber) (c : Cell) (x y : Nat)
    (h : caseIndex threshold c = 5 ∨ caseIndex threshold c = 10) :
    ∃ (k1 k2 : Corner) (e1 e2 e3 e4 : Edge), k1 ≠ k2
      ∧ inside (c.val k1) threshold = 0 ∧ inside (c.val k2) threshold = 0
      ∧ (∀ k : Corner, inside (c.val k) threshold = 0 → k = k1 ∨ k = k2)
      ∧ armEdges (caseIndex threshold c) = [(e1, e2), (e3, e4)]
      ∧ cellSegments threshold c x y
          = [(cross threshold c x y e1, cross threshold c x y e2),
             (cross threshold c x y e3, cross threshold c x y e4)]
      ∧ e1 ≠ e2 ∧ e1.touches k1 ∧ e2.touches k1
      ∧ e3 ≠ e4 ∧ e3.touches k2 ∧ e4.touches k2
      ∧ (∀ k : Corner, inside (c.val k) threshold = 1 →
          ¬ (e1.touches k ∧ e2.touches k) ∧ ¬ (e3.touches k ∧ e4.touches k)) := by
  rcases h with h | h
  · obtain ⟨b1, b2, b3, b4⟩ := bits_of_caseIndex threshold c _ h
    norm_num at b1 b2 b3 b4
    refine ⟨Corner.TL, Corner.BR, Edge.top, Edge.left, Edge.right, Edge.bottom, by decide,
      b1, b3, ?_, by rw [h]; rfl, by rw [cellSegments_eq_armEdges, h]; rfl, by decide,
      Or.inl rfl, Or.inl rfl, by decide, Or.inr rfl, Or.inr rfl, ?_⟩
    · intro k hk
      cases k <;> simp_all
    · intro k hk
      cases k <;> simp_all [Edge.touches, Edge.ends]
  · obtain ⟨b1, b2, b3, b4⟩ := bits_of_caseIndex threshold c _ h
    norm_num at b1 b2 b3 b4
    refine ⟨Corner.BL, Corner.TR, Edge.left, Edge.bottom, Edge.top, Edge.right, by decide,
      b4, b2, ?_, by rw [h]; rfl, by rw [cellSegments_eq_armEdges, h]; rfl, by decide,
      Or.inr rfl, Or.inl rfl, by decide, Or.inr rfl, Or.inl rfl, ?_⟩
    · intro k hk
      cases k <;> simp_all
    · intro k hk
      cases k <;> simp_all [Edge.touches, Edge.ends]

theorem saddle_cuts_outside_corners_witness :
    ∃ (k1 k2 : Corner) (e1 e2 e3 e4 : Edge), k1 ≠ k2
      ∧ inside ((⟨fin 0, fin 10, fin 0, fin 10⟩ : Cell).val k1) (fin 5) = 0
      ∧ inside ((⟨fin 0, fin 10, fin 0, fin 10⟩ : Cell).val k2) (fin 5) = 0
      ∧ (∀ k : Corner, inside ((⟨fin 0, fin 10, fin 0, fin 10⟩ : Cell).val k) (fin 5) = 0 →
          k = k1 ∨ k = k2)
      ∧ armEdges (caseIndex (fin 5) ⟨fin 0, fin 10, fin 0, fin 10⟩) = [(e1, e2), (e3, e4)]
      ∧ cellSegments (fin 5) ⟨fin 0, fin 10, fin 0, fin 10⟩ 0 0
          = [(cross (fin 5) ⟨fin 0, fin 10, fin 0, fin 10⟩ 0 0 e1,
              cross (fin 5) ⟨fin 0, fin 10, fin 0, fin 10⟩ 0 0 e2),
             (cross (fin 5) ⟨fin 0, fin 10, fin 0, fin 10⟩ 0 0 e3,
              cross (fin 5) ⟨fin 0, fin 10, fin 0, fin 10⟩ 0 0 e4)]
      ∧ e1 ≠ e2 ∧ e1.touches k1 ∧ e2.touches k1
      ∧ e3 ≠ e4 ∧ e3.touches k2 ∧ e4.touches k2
      ∧ (∀ k : Corner, inside ((⟨fin 0, fin 10, fin 0, fin 10⟩ : Cell).val k) (fin 5) = 1 →
          ¬ (e1.touches k ∧ e2.touches k) ∧ ¬ (e3.touches k ∧ e4.touches k)) :=
  saddle_cuts_outside_corners (fin 5) ⟨fin 0, fin 10, fin 0, fin 10⟩ 0 0
    (Or.inl (by rw [caseIndex_eq_sum]; simp [inside, JsNumber.ge]; norm_num))

/-! ## Arithmetic on doubles

Facts about `roundDouble` and the operators built on it, used to evaluate the
code on doubles at concrete inputs. -/

theorem int_log_two_eq (a : ℚ) (l : Int) (h1 : (2 : ℚ) ^ l ≤ a) (h2 : a < (2 : ℚ) ^ (l + 1)) :
    Int.log 2 a = l := by
  have ha : 0 < a := lt_of_lt_of_le (zpow_pos (by norm_num) l) h1
  have hb : (1 : ℕ) < 2 := by norm_num
  have e1 : l ≤ Int.log 2 a := (Int.zpow_le_iff_le_log hb ha).1 (by simpa using h1)
  have e2 : Int.log 2 a < l + 1 := (Int.lt_zpow_iff_log_lt hb ha).1 (by simpa using h2)
  omega

theorem roundHalfEven_of (x : ℚ) (f : Int) (h1 : (f : ℚ) ≤ x) (h2 : x < (f : ℚ) + 1) :
    roundHalfEven x
      = if x - (f : ℚ) < 1 / 2 then f
        else if 1 / 2 < x - (f : ℚ) then f + 1
        else if f % 2 = 0 then f else f + 1 := by
  have hf : ⌊x⌋ = f := Int.floor_eq_iff.2 ⟨h1, h2⟩
  simp only [roundHalfEven, hf]

theorem roundDouble_of (q : ℚ) (l e m : Int) (hq : q ≠ 0)
    (h1 : (2 : ℚ) ^ l ≤ |q|) (h2 : |q| < (2 : ℚ) ^ (l + 1))
    (he : e = max (l - 52) (-1074))
    (hm : roundHalfEven (|q| / (2 : ℚ) ^ e) = m) :
    roundDouble q
      = if (2 : ℚ) ^ (1024 : ℕ) ≤ (m : ℚ) * (2 : ℚ) ^ e then (if 0 < q then pinf else ninf)
        else fin (if 0 < q then (m : ℚ) * (2 : ℚ) ^ e else -((m : ℚ) * (2 : ℚ) ^ e)) := by
  simp only [roundDouble, if_neg hq, int_log_two_eq _ l h1 h2, ← he, hm]

/-- A rational with a 53-bit significand at a normal exponent is a double. -/
theorem roundDouble_exact (q : ℚ) (l m : Int) (hq : q ≠ 0)
    (h1 : (2 : ℚ) ^ l ≤ |q|) (h2 : |q| < (2 : ℚ) ^ (l + 1))
    (hl : -1022 ≤ l) (hx : |q| = (m : ℚ) * (2 : ℚ) ^ (l - 52))
    (hlt : |q| < (2 : ℚ) ^ (1024 : ℕ)) :
    roundDouble q = fin q := by
  have he : l - 52 = max (l - 52) (-1074) := by
    rw [max_eq_left]
    omega
  have hpos : (0 : ℚ) < (2 : ℚ) ^ (l - 52) := zpow_pos (by norm_num) _
  have hm : roundHalfEven (|q| / (2 : ℚ) ^ (l - 52)) = m := by
    rw [hx, mul_div_assoc, div_self hpos.ne.symm, mul_one,
      roundHalfEven_of _ m (le_refl _) (by linarith)]
    norm_num
  rw [roundDouble_of q l (l - 52) m hq h1 h2 he hm, ← hx, if_neg (not_le.2 hlt)]
  congr 1
  by_cases h0 : 0 < q
  · rw [if_pos h0, abs_of_pos h0]
  · have hneg : q < 0 := lt_of_le_of_ne (not_lt.1 h0) hq
    rw [if_neg h0, abs_of_neg hneg, neg_neg]

theorem roundDouble_of_pos (q : ℚ) (l e m : Int) (hq : 0 < q)
    (h1 : (2 : ℚ) ^ l ≤ q) (h2 : q < (2 : ℚ) ^ (l + 1))
    (he : e = max (l - 52) (-1074))
    (hm : roundHalfEven (q / (2 : ℚ) ^ e) = m) :
    roundDouble q
        = (if (2 : ℚ) ^ (1024 : ℕ) ≤ (m : ℚ) * (2 : ℚ) ^ e then pinf
            else fin ((m : ℚ) * (2 : ℚ) ^ e))
      ∧ roundDouble (-q)
        = (if (2 : ℚ) ^ (1024 : ℕ) ≤ (m : ℚ) * (2 : ℚ) ^ e then ninf
            else fin (-((m : ℚ) * (2 : ℚ) ^ e))) := by
  have hn : ¬ (0 < -q) := by linarith
  constructor
  · rw [roundDouble_of q l e m hq.ne.symm (by rwa [abs_of_pos hq]) (by rwa [abs_of_pos hq]) he
      (by rwa [abs_of_pos hq])]
    simp only [if_pos hq]
  · rw [roundDouble_of (-q) l e m (by linarith) (by rwa [abs_neg, abs_of_pos hq])
      (by rwa [abs_neg, abs_of_pos hq]) he (by rwa [abs_neg, abs_of_pos hq])]
    simp only [if_neg hn]

/-- A positive rational with a 53-bit significand at a normal exponent is a
double, and so is its negation. -/
theorem roundDouble_exact_pos (q : ℚ) (l m : Int) (hq : 0 < q)
    (h1 : (2 : ℚ) ^ l ≤ q) (h2 : q < (2 : ℚ) ^ (l + 1))
    (hl : -1022 ≤ l) (hx : q = (m : ℚ) * (2 : ℚ) ^ (l - 52))
    (hlt : q < (2 : ℚ) ^ (1024 : ℕ)) :
    roundDouble q = fin q ∧ roundDouble (-q) = fin (-q) := by
  have ha : |q| = q := abs_of_pos hq
  have hb : |(-q)| = q := by rw [abs_neg, ha]
  constructor
  · exact roundDouble_exact q l m hq.ne.symm (by rw [ha]; exact h1) (by rw [ha]; exact h2) hl
      (by rw [ha]; exact hx) (by rw [ha]; exact hlt)
  · exact roundDouble_exact (-q) l m (by linarith) (by rw [hb]; exact h1)
      (by rw [hb]; exact h2) hl (by rw [hb]; exact hx) (by rw [hb]; exact hlt)

theorem roundDouble_zero : roundDouble 0 = fin 0 := by
  simp [roundDouble]

theorem roundDouble_one : roundDouble 1 = fin 1 :=
  (roundDouble_exact_pos 1 0 (2 ^ 52) (by norm_num) (by norm_num) (by norm_num) (by norm_num)
    (by norm_num) (by norm_num)).1

theorem roundDouble_neg_one : roundDouble (-1) = fin (-1) :=
  (roundDouble_exact_pos 1 0 (2 ^ 52) (by norm_num) (by norm_num) (by norm_num) (by norm_num)
    (by norm_num) (by norm_num)).2

/-- The sum `2^1023 + 2^1023` overflows, to either side. -/
theorem roundDouble_two_pow_1024 :
    roundDouble ((2 : ℚ) ^ (1024 : ℕ)) = pinf
      ∧ roundDouble (-(2 : ℚ) ^ (1024 : ℕ)) = ninf := by
  have hm : roundHalfEven ((2 : ℚ) ^ (1024 : ℕ) / (2 : ℚ) ^ (972 : ℤ)) = 2 ^ 52 := by
    rw [roundHalfEven_of _ (2 ^ 52) (by norm_num) (by norm_num)]
    norm_num
  have h := roundDouble_of_pos _ 1024 972 (2 ^ 52) (by norm_num) (by norm_num) (by norm_num)
    (by norm_num) hm
  constructor
  · rw [h.1]
    norm_num
  · rw [h.2]
    norm_num

/-- The value `2^-53` is a double, and so is its negation. -/
theorem roundDouble_two_pow_neg_53 :
    roundDouble ((2 : ℚ) ^ (-53 : ℤ)) = fin ((2 : ℚ) ^ (-53 : ℤ))
      ∧ roundDouble (-(2 : ℚ) ^ (-53 : ℤ)) = fin (-(2 : ℚ) ^ (-53 : ℤ)) :=
  roundDouble_exact_pos _ (-53) (2 ^ 52) (by norm_num) (by norm_num) (by norm_num)
    (by norm_num) (by norm_num) (by norm_num)

/-- The sum `1 + 2^-53` lies half way between the doubles `1` and `1 + 2^-52`
and rounds to the even one, `1`. -/
theorem roundDouble_one_add_half_ulp : roundDouble (1 + (2 : ℚ) ^ (-53 : ℤ)) = fin 1 := by
  have hm : roundHalfEven ((1 + (2 : ℚ) ^ (-53 : ℤ)) / (2 : ℚ) ^ (-52 : ℤ)) = 2 ^ 52 := by
    rw [roundHalfEven_of _ (2 ^ 52) (by norm_num) (by norm_num)]
    norm_num
  rw [(roundDouble_of_pos _ 0 (-52) (2 ^ 52) (by norm_num) (by norm_num) (by norm_num)
    (by norm_num) hm).1]
  norm_num

theorem roundDouble_255 : roundDouble 255 = fin 255 :=
  (roundDouble_exact_pos 255 7 (255 * 2 ^ 45) (by norm_num) (by norm_num) (by norm_num)
    (by norm_num) (by norm_num) (by norm_num)).1

theorem roundDouble_two_pow_neg_47 :
    roundDouble ((2 : ℚ) ^ (-47 : ℤ)) = fin ((2 : ℚ) ^ (-47 : ℤ)) :=
  (roundDouble_exact_pos _ (-47) (2 ^ 52) (by norm_num) (by norm_num) (by norm_num)
    (by norm_num) (by norm_num) (by norm_num)).1

/-- The difference `255 - 2^-47` is nearer to the double `255` than to the one
below it, `255 - 2^-45`. -/
theorem roundDouble_255_sub : roundDouble (255 - (2 : ℚ) ^ (-47 : ℤ)) = fin 255 := by
  have hm : roundHalfEven ((255 - (2 : ℚ) ^ (-47 : ℤ)) / (2 : ℚ) ^ (-45 : ℤ))
      = 255 * 2 ^ 45 := by
    rw [roundHalfEven_of _ (255 * 2 ^ 45 - 1) (by norm_num) (by norm_num)]
    norm_num
  rw [(roundDouble_of_pos _ 7 (-45) (255 * 2 ^ 45) (by norm_num) (by norm_num) (by norm_num)
    (by norm_num) hm).1]
  norm_num

/-! ### The values used as inputs -/

theorem huge_pos : 0 < huge := by
  unfold huge
  positivity

theorem roundDouble_huge_add_huge :
    roundDouble (huge - -huge) = pinf ∧ roundDouble (-huge - huge) = ninf := by
  have h1 : huge - -huge = (2 : ℚ) ^ (1024 : ℕ) := by
    unfold huge
    norm_num
  have h2 : -huge - huge = -(2 : ℚ) ^ (1024 : ℕ) := by
    unfold huge
    norm_num
  rw [h1, h2]
  exact roundDouble_two_pow_1024

theorem halfUlp_pos : 0 < halfUlp := by
  unfold halfUlp
  positivity

theorem roundDouble_halfUlp :
    roundDouble halfUlp = fin halfUlp ∧ roundDouble (-halfUlp) = fin (-halfUlp) :=
  roundDouble_two_pow_neg_53

theorem belowOne_sub_one : belowOne - 1 = -halfUlp := by
  unfold belowOne halfUlp
  ring

theorem belowOne_lt_one : belowOne < 1 := by
  have := halfUlp_pos
  have := belowOne_sub_one
  linarith

theorem belowOne_pos : 0 < belowOne := by
  unfold belowOne
  norm_num

theorem roundDouble_one_add_halfUlp : roundDouble (1 + halfUlp) = fin 1 :=
  roundDouble_one_add_half_ulp

theorem tinyStep_pos : 0 < tinyStep := by
  unfold tinyStep
  positivity

/-! ### Crossing points on doubles -/

theorem mulD_nan_left (v : JsNumber) : mulD nan v = nan := by
  cases v <;> rfl

theorem addD_nan_right (v : JsNumber) : addD v nan = nan := by
  cases v <;> rfl

theorem interpD_of_nan (threshold ax ay av bx by_ bv : JsNumber)
    (h : interpTD threshold av bv = nan) :
    interpD threshold ax ay av bx by_ bv = (nan, nan) := by
  simp only [interpD, h, mulD_nan_left, addD_nan_right]

theorem cleanSeg_nan_left (q : Option Point) : cleanSeg (some (nan, nan), q) = none := by
  cases q <;> simp [cleanSeg, JsNumber.isNaN]

theorem cleanSeg_nan_right (p : Option Point) : cleanSeg (p, some (nan, nan)) = none := by
  cases p <;> simp [cleanSeg, JsNumber.isNaN]

/-- Between the values `-2^1023` and `2^1023` at threshold `2^1023` both
differences overflow and the crossing fraction is `Infinity / Infinity`. -/
theorem interpTD_overflow : interpTD (fin huge) (fin (-huge)) (fin huge) = nan := by
  simp only [interpTD, subD, roundDouble_huge_add_huge.1]
  simp [JsNumber.abs, JsNumber.lt, divD, JsNumber.div]

theorem inside_neg_huge : inside (fin (-huge)) (fin huge) = 0 := by
  have := huge_pos
  simp only [inside, JsNumber.ge, decide_eq_true_eq]
  rw [if_neg (by linarith)]

theorem inside_huge : inside (fin huge) (fin huge) = 1 := by
  simp [inside, JsNumber.ge]

/-- On a field of two rows and two columns the loops visit one cell. -/
theorem marchingSquaresSegmentsD_two_by_two (a b c d threshold : JsNumber) :
    rawSegmentsD [[a, b], [d, c]] threshold = some (cellSegmentsD threshold ⟨a, b, c, d⟩ 0 0)
      ∧ marchingSquaresSegmentsD [[a, b], [d, c]] threshold
        = some (clean (cellSegmentsD threshold ⟨a, b, c, d⟩ 0 0)) := by
  simp [marchingSquaresSegmentsD, rawSegmentsD, rowLoopD, colLoopD, readCell]

/-- From the value `2^1023` to the value `-2^1023` at threshold `2^1023` the
denominator overflows and the fraction is `0 / -Infinity`. -/
theorem interpTD_overflow_zero : interpTD (fin huge) (fin huge) (fin (-huge)) = fin 0 := by
  simp only [interpTD, subD, roundDouble_huge_add_huge.2, sub_self, roundDouble_zero]
  simp [JsNumber.abs, JsNumber.lt, divD, JsNumber.div]

/-- With fraction `0` the point is the first end of the edge, for the grid
points of the cell at column 0, row 0. -/
theorem interpD_first_end (threshold av bv : JsNumber)
    (h : interpTD threshold av bv = fin 0) :
    interpD threshold (JsNumber.ofNat (0 + 1)) (JsNumber.ofNat 0) av (JsNumber.ofNat (0 + 1))
        (JsNumber.ofNat (0 + 1)) bv = (fin 1, fin 0)
      ∧ interpD threshold (JsNumber.ofNat 0) (JsNumber.ofNat (0 + 1)) av (JsNumber.ofNat (0 + 1))
        (JsNumber.ofNat (0 + 1)) bv = (fin 0, fin 1) := by
  simp [interpD, h, JsNumber.ofNat, subD, mulD, addD, roundDouble_zero, roundDouble_one]

theorem overflow_cell_segments :
    cellSegmentsD (fin huge) ⟨fin (-huge), fin huge, fin (-huge), fin (-huge)⟩ 0 0
      = [(some (nan, nan),
          crossRightD (fin huge) ⟨fin (-huge), fin huge, fin (-huge), fin (-huge)⟩ 0 0)] := by
  have hidx : caseIndex (fin huge) ⟨fin (-huge), fin huge, fin (-huge), fin (-huge)⟩ = 4 := by
    rw [caseIndex_eq_sum]
    simp [inside_neg_huge, inside_huge]
  simp [cellSegmentsD, hidx, switchSegs, crossTopD, inside_neg_huge, inside_huge,
    interpD_of_nan _ _ _ _ _ _ _ interpTD_overflow]

theorem overflow_saddle_segments :
    clean (cellSegmentsD (fin huge) ⟨fin (-huge), fin huge, fin (-huge), fin huge⟩ 0 0)
      = [((fin 1, fin 0), (fin 0, fin 1))] := by
  have hidx : caseIndex (fin huge) ⟨fin (-huge), fin huge, fin (-huge), fin huge⟩ = 5 := by
    rw [caseIndex_eq_sum]
    simp [inside_neg_huge, inside_huge]
  have hp := interpD_first_end (fin huge) (fin huge) (fin (-huge)) interpTD_overflow_zero
  simp [cellSegmentsD, hidx, switchSegs, crossTopD, crossLeftD, crossRightD, crossBottomD,
    inside_neg_huge, inside_huge, interpD_of_nan _ _ _ _ _ _ _ interpTD_overflow, hp.1, hp.2,
    clean, cleanSeg, JsNumber.isNaN]

theorem overflow_two_corner_segments :
    cellSegmentsD (fin huge) ⟨fin (-huge), fin huge, fin huge, fin (-huge)⟩ 0 0
      = [(some (nan, nan), some (nan, nan))] := by
  have hidx : caseIndex (fin huge) ⟨fin (-huge), fin huge, fin huge, fin (-huge)⟩ = 6 := by
    rw [caseIndex_eq_sum]
    simp [inside_neg_huge, inside_huge]
  simp [cellSegmentsD, hidx, switchSegs, crossTopD, crossBottomD, inside_neg_huge, inside_huge,
    interpD_of_nan _ _ _ _ _ _ _ interpTD_overflow]

/-! ### The operators on finite operands -/

theorem subD_fin (a b : ℚ) : subD (fin a) (fin b) = roundDouble (a - b) := rfl

theorem addD_fin (a b : ℚ) : addD (fin a) (fin b) = roundDouble (a + b) := rfl

theorem mulD_fin (a b : ℚ) : mulD (fin a) (fin b) = roundDouble (a * b) := rfl

theorem divD_fin (a b : ℚ) (hb : b ≠ 0) : divD (fin a) (fin b) = roundDouble (a / b) := by
  simp only [divD, if_neg hb]

theorem abs_lt_eps_fin (q : ℚ) : ((fin q).abs).lt eps = decide (|q| < 1 / 1000000) := rfl

theorem interpTD_eq (threshold av bv : JsNumber) :
    interpTD threshold av bv
      = if ((subD bv av).abs).lt eps then fin (1 / 2)
        else divD (subD threshold av) (subD bv av) := rfl

theorem interpD_eq (threshold ax ay av bx by_ bv : JsNumber) :
    interpD threshold ax ay av bx by_ bv
      = (addD ax (mulD (interpTD threshold av bv) (subD bx ax)),
         addD ay (mulD (interpTD threshold av bv) (subD by_ ay))) := rfl

/-! ### A crossing that rounds onto a grid point -/

theorem inside_zero_belowOne : inside (fin 0) (fin belowOne) = 0 := by
  have h := belowOne_pos
  simp [inside, JsNumber.ge, not_le.2 h]

theorem inside_one_belowOne : inside (fin 1) (fin belowOne) = 1 := by
  have h := belowOne_lt_one
  simp [inside, JsNumber.ge, le_of_lt h]

theorem not_near_flat_neg_one : ((fin (-1)).abs).lt eps = false := by
  rw [abs_lt_eps_fin, decide_eq_false_iff_not]
  norm_num

/-- From the value `1` to the value `0` at the threshold `1 - 2^-53` the
fraction is `2^-53`, computed without rounding error. -/
theorem interpTD_belowOne : interpTD (fin belowOne) (fin 1) (fin 0) = fin halfUlp := by
  have h2 : (-halfUlp) / (-1 : ℚ) = halfUlp := by ring
  have h3 : (-1 : ℚ) ≠ 0 := by norm_num
  rw [interpTD_eq, subD_fin, subD_fin, zero_sub, roundDouble_neg_one, not_near_flat_neg_one,
    belowOne_sub_one, roundDouble_halfUlp.2, divD_fin _ _ h3, h2, roundDouble_halfUlp.1]
  rfl

theorem ofNat_zero : JsNumber.ofNat 0 = fin 0 := by simp [JsNumber.ofNat]

theorem ofNat_one : JsNumber.ofNat 1 = fin 1 := by simp [JsNumber.ofNat]

theorem ofNat_two : JsNumber.ofNat 2 = fin 2 := by simp [JsNumber.ofNat]

/-- With the fraction `2^-53` both crossings next to the grid point `(1, 1)`
round onto it: `1 + 2^-53 * 1` is `1` on doubles. -/
theorem interpD_belowOne :
    interpD (fin belowOne) (JsNumber.ofNat 1) (JsNumber.ofNat 1) (fin 1) (JsNumber.ofNat 1)
        (JsNumber.ofNat 2) (fin 0) = (fin 1, fin 1)
      ∧ interpD (fin belowOne) (JsNumber.ofNat 1) (JsNumber.ofNat 1) (fin 1)
        (JsNumber.ofNat 2) (JsNumber.ofNat 1) (fin 0) = (fin 1, fin 1) := by
  have h21 : ((2 : ℚ) - 1) = 1 := by norm_num
  have h11 : ((1 : ℚ) - 1) = 0 := by norm_num
  rw [ofNat_one, ofNat_two, interpD_eq, interpD_eq, interpTD_belowOne, subD_fin, subD_fin,
    h11, h21, roundDouble_zero, roundDouble_one, mulD_fin, mulD_fin, mul_zero, mul_one,
    roundDouble_zero, roundDouble_halfUlp.1, addD_fin, addD_fin, add_zero, roundDouble_one,
    roundDouble_one_add_halfUlp]
  exact ⟨rfl, rfl⟩

theorem corner_cell_segments :
    clean (cellSegmentsD (fin belowOne) ⟨fin 1, fin 0, fin 0, fin 0⟩ 1 1)
      = [((fin 1, fin 1), (fin 1, fin 1))] := by
  have hidx : caseIndex (fin belowOne) ⟨fin 1, fin 0, fin 0, fin 0⟩ = 8 := by
    rw [caseIndex_eq_sum]
    simp [inside_zero_belowOne, inside_one_belowOne]
  simp [cellSegmentsD, hidx, switchSegs, crossTopD, crossLeftD, inside_zero_belowOne,
    inside_one_belowOne, interpD_belowOne.1, interpD_belowOne.2, clean, cleanSeg, JsNumber.isNaN]

theorem marchingSquaresSegmentsD_three_by_three (a b c d e f g h i threshold : JsNumber) :
    marchingSquaresSegmentsD [[a, b, c], [d, e, f], [g, h, i]] threshold
      = some (clean (cellSegmentsD threshold ⟨a, b, e, d⟩ 0 0
          ++ (cellSegmentsD threshold ⟨b, c, f, e⟩ 1 0
          ++ (cellSegmentsD threshold ⟨d, e, h, g⟩ 0 1
          ++ cellSegmentsD threshold ⟨e, f, i, h⟩ 1 1)))) := by
  simp [marchingSquaresSegmentsD, rawSegmentsD, rowLoopD, colLoopD, readCell]

/-! ### Layer thresholds on doubles -/

theorem roundDouble_tinyStep : roundDouble tinyStep = fin tinyStep :=
  roundDouble_two_pow_neg_47

theorem roundDouble_255_sub_tinyStep : roundDouble (255 - tinyStep) = fin 255 :=
  roundDouble_255_sub

theorem layerThresholdD_eq (threshold step : JsNumber) (k : Nat) :
    layerThresholdD threshold step k = subD threshold (mulD (JsNumber.ofNat k) step) := rfl

theorem layerThresholdD_zero : layerThresholdD (fin 255) (fin tinyStep) 0 = fin 255 := by
  rw [layerThresholdD_eq, ofNat_zero, mulD_fin, zero_mul, roundDouble_zero, subD_fin, sub_zero,
    roundDouble_255]

theorem layerThresholdD_one : layerThresholdD (fin 255) (fin tinyStep) 1 = fin 255 := by
  rw [layerThresholdD_eq, ofNat_one, mulD_fin, one_mul, roundDouble_tinyStep, subD_fin,
    roundDouble_255_sub_tinyStep]

theorem fieldFinite_two_by_two (a b c d : ℚ) :
    fieldFinite [[fin a, fin b], [fin c, fin d]] := by
  intro row hrow v hv
  simp only [List.mem_cons, List.mem_singleton, List.not_mem_nil, or_false] at hrow
  rcases hrow with rfl | rfl <;>
    simp only [List.mem_cons, List.mem_singleton, List.not_mem_nil, or_false] at hv <;>
    rcases hv with rfl | rfl <;> rfl

/-! ## Where rounding and overflow break the exact statements -/

/-- C3 as stated fails on doubles: the cell with corner values `-2^1023`,
`2^1023`, `-2^1023`, `-2^1023` has finite values and only its top-right corner
is inside at threshold `2^1023` (case 4), but `bv - av` and `threshold - av`
overflow on the top edge, the top crossing is `[NaN, NaN]`, and the function
returns no segment for the cell. -/
theorem lone_corner_overflow_no_segment :
    (⟨fin (-huge), fin huge, fin (-huge), fin (-huge)⟩ : Cell).finite
      ∧ isLoneCorner (fin huge) ⟨fin (-huge), fin huge, fin (-huge), fin (-huge)⟩ Corner.TR
      ∧ caseIndex (fin huge) ⟨fin (-huge), fin huge, fin (-huge), fin (-huge)⟩ = 4
      ∧ crossTopD (fin huge) ⟨fin (-huge), fin huge, fin (-huge), fin (-huge)⟩ 0 0
          = some (nan, nan)
      ∧ marchingSquaresSegmentsD [[fin (-huge), fin huge], [fin (-huge), fin (-huge)]]
          (fin huge) = some [] := by
  refine ⟨⟨rfl, rfl, rfl, rfl⟩, ?_, ?_, ?_, ?_⟩
  · intro k2 hk2
    cases k2 <;> simp_all [Cell.val, inside_neg_huge, inside_huge]
  · rw [caseIndex_eq_sum]
    simp [inside_neg_huge, inside_huge]
  · simp [crossTopD, inside_neg_huge, inside_huge,
      interpD_of_nan _ _ _ _ _ _ _ interpTD_overflow]
  · rw [(marchingSquaresSegmentsD_two_by_two _ _ _ _ _).2, overflow_cell_segments]
    simp [clean, cleanSeg_nan_left]

/-- C4 as stated fails on doubles: the cell with corner values `-2^1023`,
`2^1023`, `-2^1023`, `2^1023` has finite values and case index 5, but the top
and left crossings are `[NaN, NaN]` after an overflow, so the function returns
one segment, `[[1, 0], [0, 1]]`, not two. -/
theorem saddle_overflow_one_segment :
    (⟨fin (-huge), fin huge, fin (-huge), fin huge⟩ : Cell).finite
      ∧ caseIndex (fin huge) ⟨fin (-huge), fin huge, fin (-huge), fin huge⟩ = 5
      ∧ marchingSquaresSegmentsD [[fin (-huge), fin huge], [fin huge, fin (-huge)]] (fin huge)
          = some [((fin 1, fin 0), (fin 0, fin 1))] := by
  refine ⟨⟨rfl, rfl, rfl, rfl⟩, ?_, ?_⟩
  · rw [caseIndex_eq_sum]
    simp [inside_neg_huge, inside_huge]
  · rw [(marchingSquaresSegmentsD_two_by_two _ _ _ _ _).2, overflow_saddle_segments]

/-- C5 as stated fails on doubles: the cell with corner values `-2^1023`,
`2^1023`, `2^1023`, `-2^1023` has finite values and case index 6, for which the
table lists top-bottom, but both crossings are `[NaN, NaN]` after an overflow
and the function returns no segment. -/
theorem table_case_overflow_no_segment :
    (⟨fin (-huge), fin huge, fin huge, fin (-huge)⟩ : Cell).finite
      ∧ caseIndex (fin huge) ⟨fin (-huge), fin huge, fin huge, fin (-huge)⟩ = 6
      ∧ specTable 6 = some (Edge.top, Edge.bottom)
      ∧ cellSegmentsD (fin huge) ⟨fin (-huge), fin huge, fin huge, fin (-huge)⟩ 0 0
          = [(some (nan, nan), some (nan, nan))]
      ∧ marchingSquaresSegmentsD [[fin (-huge), fin huge], [fin (-huge), fin huge]] (fin huge)
          = some [] := by
  refine ⟨⟨rfl, rfl, rfl, rfl⟩, ?_, rfl, overflow_two_corner_segments, ?_⟩
  · rw [caseIndex_eq_sum]
    simp [inside_neg_huge, inside_huge]
  · rw [(marchingSquaresSegmentsD_two_by_two _ _ _ _ _).2, overflow_two_corner_segments]
    simp [clean, cleanSeg_nan_left]

/-- C22 as stated fails on doubles: in the field `[[-2^1023, 2^1023],
[-2^1023, 2^1023]]` of finite values at the finite threshold `2^1023`, the two
ends of the top edge of the cell are classified differently, and the crossing
fraction `(threshold - av) / (bv - av)` is `Infinity / Infinity = NaN`, which
is no number in `[0, 1]`. -/
theorem crossing_fraction_overflow_nan :
    fieldFinite [[fin (-huge), fin huge], [fin (-huge), fin huge]]
      ∧ readCell [[fin (-huge), fin huge], [fin (-huge), fin huge]] 0 0
          = some ⟨fin (-huge), fin huge, fin huge, fin (-huge)⟩
      ∧ inside ((⟨fin (-huge), fin huge, fin huge, fin (-huge)⟩ : Cell).val Edge.top.ends.1)
            (fin huge)
          ≠ inside ((⟨fin (-huge), fin huge, fin huge, fin (-huge)⟩ : Cell).val Edge.top.ends.2)
            (fin huge)
      ∧ interpTD (fin huge)
            ((⟨fin (-huge), fin huge, fin huge, fin (-huge)⟩ : Cell).val Edge.top.ends.1)
            ((⟨fin (-huge), fin huge, fin huge, fin (-huge)⟩ : Cell).val Edge.top.ends.2) = nan
      ∧ ¬ ∃ f : ℚ, interpTD (fin huge)
            ((⟨fin (-huge), fin huge, fin huge, fin (-huge)⟩ : Cell).val Edge.top.ends.1)
            ((⟨fin (-huge), fin huge, fin huge, fin (-huge)⟩ : Cell).val Edge.top.ends.2) = fin f
          ∧ 0 ≤ f ∧ f ≤ 1 := by
  have ht : interpTD (fin huge)
      ((⟨fin (-huge), fin huge, fin huge, fin (-huge)⟩ : Cell).val Edge.top.ends.1)
      ((⟨fin (-huge), fin huge, fin huge, fin (-huge)⟩ : Cell).val Edge.top.ends.2) = nan :=
    interpTD_overflow
  refine ⟨fieldFinite_two_by_two _ _ _ _, by simp [readCell], ?_, ht, ?_⟩
  · simp [Edge.ends, Cell.val, inside_neg_huge, inside_huge]
  · rintro ⟨f, hf, _⟩
    rw [ht] at hf
    cases hf

/-- C23 as stated fails on doubles: in the field `[[-2^1023, 2^1023],
[-2^1023, -2^1023]]` of finite values at threshold `2^1023` the switch pushes
one segment and the final filter removes it, its first endpoint being
`[NaN, NaN]`. -/
theorem filter_removes_overflow_segment :
    fieldFinite [[fin (-huge), fin huge], [fin (-huge), fin (-huge)]]
      ∧ ∃ raw, rawSegmentsD [[fin (-huge), fin huge], [fin (-huge), fin (-huge)]] (fin huge)
            = some raw
          ∧ raw.length = 1 ∧ (clean raw).length = 0 := by
  refine ⟨fieldFinite_two_by_two _ _ _ _, _,
    (marchingSquaresSegmentsD_two_by_two _ _ _ _ _).1, ?_, ?_⟩
  · rw [overflow_cell_segments]
    rfl
  · rw [overflow_cell_segments]
    simp [clean, cleanSeg_nan_left]

/-- C25 as stated fails on doubles: in the field `[[0,0,0],[0,1,0],[0,0,0]]` at
threshold `1 - 2^-53` (printed `0.9999999999999999`) every value is finite and
none equals the threshold; the crossing fraction next to the centre is `2^-53`,
strictly between 0 and 1, but `1 + 2^-53` rounds to `1`, and the function
returns the zero-length segment `[[1, 1], [1, 1]]`, both ends on the grid
point `(1, 1)`. -/
theorem crossing_rounds_onto_grid_point :
    fieldFinite [[fin 0, fin 0, fin 0], [fin 0, fin 1, fin 0], [fin 0, fin 0, fin 0]]
      ∧ (∀ row ∈ [[fin 0, fin 0, fin 0], [fin 0, fin 1, fin 0], [fin 0, fin 0, fin 0]],
          ∀ v ∈ row, v ≠ fin belowOne)
      ∧ interpTD (fin belowOne) (fin 1) (fin 0) = fin halfUlp
      ∧ 0 < halfUlp ∧ halfUlp < 1
      ∧ Corner.pos 1 1 Corner.TL = (fin 1, fin 1)
      ∧ ∃ segs, marchingSquaresSegmentsD
            [[fin 0, fin 0, fin 0], [fin 0, fin 1, fin 0], [fin 0, fin 0, fin 0]] (fin belowOne)
            = some segs
          ∧ ((fin 1, fin 1), (fin 1, fin 1)) ∈ segs := by
  have h0 : (fin 0 : JsNumber) ≠ fin belowOne := by
    intro h
    have := belowOne_pos
    simp only [JsNumber.fin.injEq] at h
    linarith
  have h1 : (fin 1 : JsNumber) ≠ fin belowOne := by
    intro h
    have := belowOne_lt_one
    simp only [JsNumber.fin.injEq] at h
    linarith
  have hu : halfUlp < 1 := by
    unfold halfUlp
    norm_num
  refine ⟨?_, ?_, interpTD_belowOne, halfUlp_pos, hu, ?_, _,
    marchingSquaresSegmentsD_three_by_three _ _ _ _ _ _ _ _ _ _, ?_⟩
  · intro row hrow v hv
    simp only [List.mem_cons, List.mem_singleton, List.not_mem_nil, or_false] at hrow
    rcases hrow with rfl | rfl | rfl <;>
      simp only [List.mem_cons, List.mem_singleton, List.not_mem_nil, or_false] at hv <;>
      rcases hv with rfl | rfl | rfl <;> rfl
  · intro row hrow v hv
    simp only [List.mem_cons, List.mem_singleton, List.not_mem_nil, or_false] at hrow
    rcases hrow with rfl | rfl | rfl <;>
      simp only [List.mem_cons, List.mem_singleton, List.not_mem_nil, or_false] at hv <;>
      rcases hv with rfl | rfl | rfl <;> assumption
  · simp [Corner.pos, JsNumber.ofNat]
  · simp only [clean, List.filterMap_append, List.mem_append]
    right; right; right
    have h := corner_cell_segments
    simp only [clean] at h
    rw [h]
    exact List.mem_singleton.2 rfl

/-- C20 as stated fails: on doubles the step `2^-47 > 0` is absorbed by the
threshold 255, so the thresholds of layers 0 and 1 are both 255 and not
strictly descending; and with the threshold `Infinity` every layer threshold
is `Infinity`, whatever the step. -/
theorem layer_thresholds_not_descending :
    (fin 0).lt (fin tinyStep) = true
      ∧ layerThresholdD (fin 255) (fin tinyStep) 0 = fin 255
      ∧ layerThresholdD (fin 255) (fin tinyStep) 1 = fin 255
      ∧ (layerThresholdD (fin 255) (fin tinyStep) 1).lt
          (layerThresholdD (fin 255) (fin tinyStep) 0) = false
      ∧ (fin 0).lt (fin 14) = true
      ∧ layerThreshold pinf (fin 14) 0 = pinf
      ∧ layerThreshold pinf (fin 14) 1 = pinf
      ∧ (layerThreshold pinf (fin 14) 1).lt (layerThreshold pinf (fin 14) 0) = false := by
  have hp : layerThreshold pinf (fin 14) 0 = pinf := by
    simp [layerThreshold, JsNumber.ofNat, JsNumber.mul, JsNumber.sub]
  have hq : layerThreshold pinf (fin 14) 1 = pinf := by
    simp [layerThreshold, JsNumber.ofNat, JsNumber.mul, JsNumber.sub]
  refine ⟨?_, layerThresholdD_zero, layerThresholdD_one, ?_, ?_, hp, hq, ?_⟩
  · have := tinyStep_pos
    simp [JsNumber.lt, this]
  · rw [layerThresholdD_zero, layerThresholdD_one]
    simp [JsNumber.lt]
  · simp [JsNumber.lt]
  · rw [hp, hq]
    rfl

end MarchingSquares

namespace BeatSketch

/-- C21: `isBeatFrame` returns true exactly when `STATE.beatLocked` is false,
or `STATE.risingEdge` is true, or `STATE.beatWindowFrames > 0`, and it leaves
`STATE` unchanged. -/
theorem isBeatFrame_iff (STATE : BeatState) :
    ((isBeatFrame STATE).1 = true ↔
        (STATE.beatLocked = false ∨ STATE.risingEdge = true ∨ 0 < STATE.beatWindowFrames))
      ∧ (isBeatFrame STATE).2 = STATE := by
  unfold isBeatFrame
  cases hb : STATE.beatLocked <;> cases hr : STATE.risingEdge <;>
    by_cases hw : STATE.beatWindowFrames > 0 <;> simp [hw]

end BeatSketch
